import Mathlib

/-!
# agent-skills: trigger matcher, catalog validator and companion generator

A shallow embedding of `scripts/run-trigger-evals.js`, of `scripts/validate-skills.js`
and of the text that `scripts/generate-openai-yaml.js` writes.

Modelling conventions.

* A JavaScript string is a `List Char` (`JsString`).  The texts handled here are
  well-formed Unicode; where UTF-16 code units matter (the default
  `Array.prototype.sort` order, `length` and `slice` in the generator and in the
  length check of the validator) the functions go through `codeUnits`.
* `Array.prototype.sort` is a stable sort; with a consistent comparator its result
  is the unique stable sorted arrangement, computed here by insertion sort.
* `String.prototype.localeCompare` depends on the host collation and is a parameter.
* `String.prototype.toUpperCase` is fixed on ASCII characters and on characters outside
  the basic plane, whose first code unit is a surrogate; on the other characters it
  follows the Unicode tables of the host and is a parameter.
* Scores are natural numbers.  A number is the exact value of a finite double, a
  rational number: the thresholds of a suite are such values, the literal `0.85` is the
  double nearest to `85 / 100`, and the division of `run` gives the double nearest to
  the exact quotient (`divideDouble`).
* The file system is a parameter: the entries of the category directories with the
  decoded texts of their files, and an oracle for the existence of a link target.
* `null` is `none`.
-/

namespace AgentSkills

/-- A JavaScript string, as its sequence of characters. -/
abbrev JsString := List Char

/-! ## JavaScript built-ins used by the scripts -/

/-- Lower-casing of one character as far as the result can contain an ASCII
character: `A`-`Z`, U+212A KELVIN SIGN (to `k`) and U+0130 (to `i` followed by
U+0307).  Every other character lower-cases to non-ASCII text or to itself, and is
kept as it is: all of those are outside `[a-z0-9-]`, outside the substitution
patterns, and are turned into a separator by `normalizeText`. -/
def lowerChar (c : Char) : List Char :=
  if 'A' ≤ c ∧ c ≤ 'Z' then [Char.ofNat (c.toNat + 32)]
  else if c = Char.ofNat 0x212A then ['k']
  else if c = Char.ofNat 0x0130 then ['i', Char.ofNat 0x0307]
  else [c]

/-- The method `String.prototype.toLowerCase`. -/
def toLowerCase (s : JsString) : JsString :=
  s.flatMap lowerChar

/-- Worker of `replaceAll`: `skip` characters of a match are still to be dropped. -/
def replaceAllAux (pat rep : JsString) : Nat → JsString → JsString
  | _, [] => []
  | skip + 1, _ :: cs => replaceAllAux pat rep skip cs
  | 0, c :: cs =>
    if pat.isPrefixOf (c :: cs) then rep ++ replaceAllAux pat rep (pat.length - 1) cs
    else c :: replaceAllAux pat rep 0 cs

/-- The call `s.replace(/pat/g, rep)` for a non-empty literal pattern `pat`: the matches
are taken leftmost first and do not overlap. -/
def replaceAll (pat rep : JsString) (s : JsString) : JsString :=
  replaceAllAux pat rep 0 s

/-- Worker of `replaceRuns`: `inRun` says that the previous character belonged
to the run being replaced. -/
def replaceRunsAux (p : Char → Bool) : Bool → JsString → JsString
  | _, [] => []
  | inRun, c :: cs =>
    if p c then
      (if inRun then replaceRunsAux p true cs else ' ' :: replaceRunsAux p true cs)
    else c :: replaceRunsAux p false cs

/-- The call `s.replace(/[class]+/g, ' ')`: every maximal run of characters of the class
`p` becomes one space. -/
def replaceRuns (p : Char → Bool) (s : JsString) : JsString :=
  replaceRunsAux p false s

/-- The character class `[a-z0-9-]`. -/
def isTokenChar (c : Char) : Bool :=
  ('a' ≤ c && c ≤ 'z') || ('0' ≤ c && c ≤ '9') || c == '-'

/-- The regular-expression class `\s`, which is also what `trim` strips. -/
def isWhiteSpace (c : Char) : Bool :=
  let n := c.toNat
  n == 0x09 || n == 0x0A || n == 0x0B || n == 0x0C || n == 0x0D || n == 0x20 ||
  n == 0xA0 || n == 0x1680 || (0x2000 ≤ n && n ≤ 0x200A) || n == 0x2028 ||
  n == 0x2029 || n == 0x202F || n == 0x205F || n == 0x3000 || n == 0xFEFF

/-- The method `String.prototype.trim`. -/
def trim (s : JsString) : JsString :=
  ((s.dropWhile isWhiteSpace).reverse.dropWhile isWhiteSpace).reverse

/-- The call `s.split(sep)` for a one-character separator. -/
def split (sep : Char) : JsString → List JsString
  | [] => [[]]
  | c :: cs =>
    if c = sep then [] :: split sep cs
    else
      match split sep cs with
      | [] => [[c]]
      | w :: ws => (c :: w) :: ws

/-- The method `Array.prototype.join`. -/
def join (sep : JsString) : List JsString → JsString
  | [] => []
  | [x] => x
  | x :: y :: rest => x ++ sep ++ join sep (y :: rest)

/-- The method `Array.prototype.sort` with a comparator: `a` stays before `b` when
`cmp a b ≤ 0`; the sort is stable. -/
def sortBy {α : Type} (cmp : α → α → Int) (l : List α) : List α :=
  l.insertionSort (fun a b => cmp a b ≤ 0)

/-! ## scripts/run-trigger-evals.js -/

/-- The constant `STOPWORDS`. -/
def STOPWORDS : List JsString :=
  ["the", "and", "for", "with", "from", "that", "this", "when", "need", "use", "using",
   "into", "about", "your", "have", "has", "are", "was", "were", "how", "what", "which",
   "will", "would", "could", "should", "can", "but", "not", "only", "also", "very",
   "best", "more", "less", "mode", "rules", "patterns", "skill"].map String.toList

/-- The function `normalizeText`. -/
def normalizeText (value : JsString) : JsString :=
  trim
    (replaceRuns isWhiteSpace
      (replaceRuns (fun c => !isTokenChar c)
        (replaceAll "tanstack query".toList "tanstack-query".toList
          (replaceAll "rtk query".toList "rtk-query".toList
            (replaceAll "next.js".toList "nextjs".toList
              (toLowerCase value))))))

/-- The function `tokenize`. -/
def tokenize (value : JsString) : List JsString :=
  (((split ' ' (normalizeText value)).map trim).filter
    (fun token => decide (token.length ≥ 3) && !STOPWORDS.contains token))

/-- A catalog record as `loadSkills` builds it. -/
structure Skill where
  name : JsString
  category : JsString
  description : JsString
  nameTokens : List JsString
  descTokens : List JsString
deriving DecidableEq, Repr

/-- The record that `loadSkills` pushes for a parsed front matter with a non-empty
`name` and `description` (lines 70-78). -/
def mkSkill (category name description : JsString) : Skill :=
  { name := name
    category := category
    description := description
    nameTokens := tokenize (replaceAll "-".toList " ".toList name)
    descTokens := tokenize description }

/-- The function `scoreSkill`: the prompt tokens form a set, each name token found in
it adds 4 and each description token found in it adds 1. -/
def scoreSkill (prompt : JsString) (skill : Skill) : Nat :=
  let promptTokens := tokenize prompt
  let score := skill.nameTokens.foldl
    (fun score token => if promptTokens.contains token then score + 4 else score) 0
  skill.descTokens.foldl
    (fun score token => if promptTokens.contains token then score + 1 else score) score

/-- An entry of the array `scored` of `evaluateCase`. -/
structure Scored where
  name : JsString
  score : Nat
deriving DecidableEq, Repr

/-- An evaluation case: `expected` is a skill name, or `none` for `null`. -/
structure TestCase where
  id : JsString
  prompt : JsString
  expected : Option JsString
deriving DecidableEq, Repr

/-- The object returned by `evaluateCase`. -/
structure CaseResult where
  id : JsString
  prompt : JsString
  expected : Option JsString
  actual : Option JsString
  score : Nat
  pass : Bool
deriving DecidableEq, Repr

/-- The comparator of `evaluateCase`:
`b.score - a.score || a.name.localeCompare(b.name)`. -/
def compareScored (localeCompare : JsString → JsString → Int) (a b : Scored) : Int :=
  if (b.score : Int) - (a.score : Int) ≠ 0 then (b.score : Int) - (a.score : Int)
  else localeCompare a.name b.name

/-- The value `best` of `evaluateCase` (lines 104-109): the first entry of the sorted
scores, `none` when the catalog is empty (`scored[0]` is then `undefined`). -/
def bestScored (localeCompare : JsString → JsString → Int) (prompt : JsString)
    (skills : List Skill) : Option Scored :=
  (sortBy (compareScored localeCompare)
    (skills.map (fun skill =>
      ({ name := skill.name, score := scoreSkill prompt skill } : Scored)))).head?

/-- The function `evaluateCase`; `none` stands for the `TypeError` raised on an
empty catalog, where `best` is `undefined`. -/
def evaluateCase (localeCompare : JsString → JsString → Int) (testCase : TestCase)
    (skills : List Skill) (noneThreshold : ℚ) : Option CaseResult :=
  match bestScored localeCompare testCase.prompt skills with
  | none => none
  | some best =>
    match testCase.expected with
    | none =>
      let pass := decide ((best.score : ℚ) ≤ noneThreshold)
      some { id := testCase.id
             prompt := testCase.prompt
             expected := none
             actual := if pass then none else some best.name
             score := best.score
             pass := pass }
    | some expected =>
      let pass := decide (best.name = expected)
      some { id := testCase.id
             prompt := testCase.prompt
             expected := some expected
             actual := some best.name
             score := best.score
             pass := pass }


/-- The string order of JavaScript compares UTF-16 code units. -/
def codeUnits (s : JsString) : List Nat :=
  s.flatMap (fun c =>
    if c.toNat < 0x10000 then [c.toNat]
    else [0xD800 + (c.toNat - 0x10000) / 0x400, 0xDC00 + (c.toNat - 0x10000) % 0x400])

/-- Lexicographic comparison of two code-unit sequences, as a comparator result. -/
def compareUnits : List Nat → List Nat → Int
  | [], [] => 0
  | [], _ :: _ => -1
  | _ :: _, [] => 1
  | a :: as, b :: bs =>
    if a < b then -1 else if b < a then 1 else compareUnits as bs

/-- The comparator that `Array.prototype.sort` uses on strings when it is called
without an argument.  It is also the collation of a host whose `localeCompare` is
ordinal, and serves as the sample collation in the examples below. -/
def defaultCompare (a b : JsString) : Int :=
  compareUnits (codeUnits a) (codeUnits b)

/-- What `Array.prototype.sort` requires of a comparator: the sign of `cmp a b` is
the opposite of the sign of `cmp b a`, and "not after" is transitive. -/
def ConsistentComparator {α : Type} (cmp : α → α → Int) : Prop :=
  (∀ a b, cmp a b < 0 ↔ 0 < cmp b a) ∧
  (∀ a b c, cmp a b ≤ 0 → cmp b c ≤ 0 → cmp a c ≤ 0)


/-! ## scripts/validate-skills.js -/

/-- The method `Array.prototype.sort` called without a comparator, on strings. -/
def sortDefault (l : List JsString) : List JsString :=
  sortBy defaultCompare l

/-- The expression `Array.from(new Set(values))`: the first occurrence of every
value, in order. -/
def setFromArray : List JsString → List JsString
  | [] => []
  | x :: xs => x :: (setFromArray xs).filter (fun y => decide (y ≠ x))

/-- The function `normalizeSkillName`: the last `/`-separated segment. -/
def normalizeSkillName (skillPathWithCategory : JsString) : JsString :=
  (split '/' skillPathWithCategory).getLastD []

/-- The function `checkCatalogDrift` from line 289 on, after the four files have been
read and parsed: `essentialBundle` is `bundles.bundles.essential.skills`,
`configMandatory` is `config.mandatory`, `wizardMandatory` is the result of
`parseWizardMandatory` (`none` for `null`), `agentSkills` is
`bundles.categories.agent.skills` and `findSkillsAgent` is the result of
`parseFindSkillsAgentTable`.  The value is the list of the messages pushed to
`errors`, in order. -/
def checkCatalogDrift (essentialBundle configMandatory : List JsString)
    (wizardMandatory : Option (List JsString)) (agentSkills : List JsString)
    (findSkillsAgent : Option (List JsString)) : List JsString :=
  let expectedMandatory := sortDefault (essentialBundle.map normalizeSkillName)
  let configSorted := sortDefault configMandatory
  let configErrors :=
    if join "|".toList expectedMandatory ≠ join "|".toList configSorted then
      ["Mandatory skills drift between bundles.json and skills.config.json: expected [".toList
        ++ join ", ".toList expectedMandatory ++ "], got [".toList
        ++ join ", ".toList configSorted ++ "]".toList]
    else []
  let wizardErrors :=
    match wizardMandatory with
    | none => ["Unable to parse mandatory skills from scripts/skills-wizard.js".toList]
    | some wizard =>
      let wizardSorted := sortDefault wizard
      if join "|".toList wizardSorted ≠ join "|".toList expectedMandatory then
        ["Mandatory skills drift between bundles.json and scripts/skills-wizard.js: expected [".toList
          ++ join ", ".toList expectedMandatory ++ "], got [".toList
          ++ join ", ".toList wizardSorted ++ "]".toList]
      else []
  let expectedAgentSkills := sortDefault agentSkills
  let agentErrors :=
    match findSkillsAgent with
    | none =>
      ["Unable to find \"### Agent Skills\" section in agent/find-skills/SKILL.md".toList]
    | some found =>
      let actual := sortDefault (setFromArray found)
      let missing := expectedAgentSkills.filter (fun name => !actual.contains name)
      if missing.length > 0 then
        ["agent/find-skills/SKILL.md is missing agent skill rows: ".toList
          ++ join ", ".toList missing]
      else []
  configErrors ++ wizardErrors ++ agentErrors

/-! ### More built-ins -/

/-- The method `String.prototype.startsWith`. -/
def startsWith (s pre : JsString) : Bool :=
  pre.isPrefixOf s

/-- The method `String.prototype.endsWith`. -/
def endsWith (s suf : JsString) : Bool :=
  suf.reverse.isPrefixOf s.reverse

/-- The method `String.prototype.indexOf`: the first index at which `pat` occurs,
`none` for `-1`. -/
def indexOf (pat : JsString) : JsString → Option Nat
  | [] => if pat = [] then some 0 else none
  | c :: cs =>
    if pat.isPrefixOf (c :: cs) then some 0 else (indexOf pat cs).map (· + 1)

/-- Putting a character in front of the first piece of a split. -/
def consHead (c : Char) : List JsString → List JsString
  | [] => [[c]]
  | w :: ws => (c :: w) :: ws

/-- The call `s.split(/\r?\n/)`. -/
def splitLines : JsString → List JsString
  | [] => [[]]
  | '\r' :: '\n' :: cs => [] :: splitLines cs
  | '\n' :: cs => [] :: splitLines cs
  | c :: cs => consHead c (splitLines cs)

/-- Worker of `splitRuns`: `inRun` says that the previous character belonged to the
separator run being skipped. -/
def splitRunsAux (p : Char → Bool) : Bool → JsString → List JsString
  | _, [] => [[]]
  | inRun, c :: cs =>
    if p c then (if inRun then splitRunsAux p true cs else [] :: splitRunsAux p true cs)
    else consHead c (splitRunsAux p false cs)

/-- The call `s.split(/[class]+/)`: the pieces between the maximal runs of characters
of the class `p`. -/
def splitRuns (p : Char → Bool) (s : JsString) : List JsString :=
  splitRunsAux p false s

/-- The line terminators of regular expressions: what `.` does not match and where
`^` matches under the flag `m`. -/
def isLineTerminator (c : Char) : Bool :=
  c == '\n' || c == '\r' || c.toNat == 0x2028 || c.toNat == 0x2029

/-- The function `readUtf8` applied to the decoded text of a file: a leading byte-order
mark is removed. -/
def readUtf8 (raw : JsString) : JsString :=
  match raw with
  | c :: cs => if c.toNat = 0xFEFF then cs else c :: cs
  | [] => []

/-! ### Markdown links -/

/-- The fence of three backticks. -/
def fence : JsString := "```".toList

/-- The number of characters up to the end of the first fence of the text. -/
def fenceEnd : JsString → Option Nat
  | [] => none
  | c :: cs =>
    if fence.isPrefixOf (c :: cs) then some 3 else (fenceEnd cs).map (· + 1)

/-- Worker of `stripCodeBlocks`: `skip` characters of a match are still to be
dropped. -/
def stripCodeBlocksAux : Nat → JsString → JsString
  | _, [] => []
  | skip + 1, _ :: cs => stripCodeBlocksAux skip cs
  | 0, c :: cs =>
    if fence.isPrefixOf (c :: cs) then
      match fenceEnd ((c :: cs).drop 3) with
      | some n => stripCodeBlocksAux (3 + n - 1) cs
      | none => c :: stripCodeBlocksAux 0 cs
    else c :: stripCodeBlocksAux 0 cs

/-- The function `stripCodeBlocks`: every match of a fence, the shortest text up to
the next fence, and that fence, is removed; the matches are taken leftmost first. -/
def stripCodeBlocks (markdownText : JsString) : JsString :=
  stripCodeBlocksAux 0 markdownText

/-- A match of the link pattern `\[[^\]]*]\(([^)]+)\)` at the start of the text: the
captured target and the length of the match. -/
def matchLink : JsString → Option (JsString × Nat)
  | '[' :: rest =>
    match rest.dropWhile (fun c => c != ']') with
    | ']' :: '(' :: more =>
      match more.dropWhile (fun c => c != ')') with
      | ')' :: _ =>
        let target := more.takeWhile (fun c => c != ')')
        if target = [] then none
        else some (target, 1 + (rest.takeWhile (fun c => c != ']')).length + 2
                            + target.length + 1)
      | _ => none
    | _ => none
  | _ => none

/-- Worker of `extractLinks`: `skip` characters of a match are still to be passed. -/
def extractLinksAux : Nat → JsString → List JsString
  | _, [] => []
  | skip + 1, _ :: cs => extractLinksAux skip cs
  | 0, c :: cs =>
    match matchLink (c :: cs) with
    | some (target, len) => trim target :: extractLinksAux (len - 1) cs
    | none => extractLinksAux 0 cs

/-- The loop of `extractMarkdownLinks` over the matches of the link pattern. -/
def extractLinks (text : JsString) : List JsString :=
  extractLinksAux 0 text

/-- The function `extractMarkdownLinks`. -/
def extractMarkdownLinks (markdownText : JsString) : List JsString :=
  extractLinks (stripCodeBlocks markdownText)

/-- The function `isExternalLink`. -/
def isExternalLink (link : JsString) : Bool :=
  let normalized := toLowerCase link
  startsWith normalized "http://".toList
    || startsWith normalized "https://".toList
    || startsWith normalized "mailto:".toList
    || startsWith normalized "tel:".toList
    || startsWith normalized "#".toList

/-- The function `normalizeLinkTarget`. -/
def normalizeLinkTarget (rawLink : JsString) : JsString :=
  let link₁ :=
    if startsWith rawLink "<".toList && endsWith rawLink ">".toList then
      (rawLink.drop 1).dropLast
    else rawLink
  let link₂ := if ' ' ∈ link₁ then (split ' ' link₁).headD [] else link₁
  let link₃ := (split '#' link₂).headD []
  let link₄ := (split '?' link₃).headD []
  trim link₄

/-- The function `checkMarkdownLinks`: the raw links for which a broken-link error is
pushed, in order.  `targetExists target` stands for
`fs.existsSync(path.resolve(path.dirname(filePath), target))`. -/
def checkMarkdownLinks (targetExists : JsString → Bool) (content : JsString) :
    List JsString :=
  (extractMarkdownLinks content).filter (fun rawLink =>
    let target := normalizeLinkTarget rawLink
    !(target.isEmpty || isExternalLink target) && !targetExists target)

/-! ### Header lines and companion files -/

/-- The method `String.prototype.replace` with a string pattern: the first occurrence
is replaced. -/
def replaceFirst (pat rep : JsString) : JsString → JsString
  | [] => if pat = [] then rep else []
  | c :: cs =>
    if pat.isPrefixOf (c :: cs) then rep ++ (c :: cs).drop pat.length
    else c :: replaceFirst pat rep cs

/-- The method `String.prototype.includes`. -/
def includes (s pat : JsString) : Bool :=
  (indexOf pat s).isSome

/-- The character class `[A-Za-z0-9_-]`. -/
def isKeyChar (c : Char) : Bool :=
  ('A' ≤ c && c ≤ 'Z') || ('a' ≤ c && c ≤ 'z') || ('0' ≤ c && c ≤ '9')
    || c == '_' || c == '-'

/-- The call `line.match(/^([A-Za-z0-9_-]+):/)`: the captured key. -/
def matchKey (line : JsString) : Option JsString :=
  let key := line.takeWhile isKeyChar
  match line.dropWhile isKeyChar with
  | ':' :: _ => if key = [] then none else some key
  | _ => none

/-- The call `line.match(/^([A-Za-z0-9_-]+):\s*(.*)$/)`: the captured key and the
trimmed second capture.  After the white space that follows the colon the line must
not contain a line terminator, which `.` does not match. -/
def matchKeyValue (line : JsString) : Option (JsString × JsString) :=
  let key := line.takeWhile isKeyChar
  match line.dropWhile isKeyChar with
  | ':' :: rest =>
    let value := rest.dropWhile isWhiteSpace
    if key = [] || value.any isLineTerminator then none else some (key, trim value)
  | _ => none

/-- Reading a property of an object filled by successive assignments: the last
assignment to the key, `none` for `undefined`. -/
def lookup (key : JsString) (map : List (JsString × JsString)) : Option JsString :=
  (map.reverse.find? (fun kv => kv.1 == key)).map (fun kv => kv.2)

/-- Upper-casing of an ASCII character: the letters `a`-`z` go to `A`-`Z`, every other
ASCII character is kept as it is. -/
def upperChar (c : Char) : Char :=
  if 'a' ≤ c ∧ c ≤ 'z' then Char.ofNat (c.toNat - 32) else c

/-- The call `part.charAt(0).toUpperCase()` of `titleCase`, for a part whose first
character is `c`.  For an ASCII character the result is fixed by the Unicode standard;
for another character of the Basic Multilingual Plane it is what the Unicode tables of
the host give, the parameter `toUpperCase` (one character may become several, as
U+00DF does); of a character outside the plane `charAt(0)` is the high surrogate alone,
which upper-casing leaves as it is, so the character is unchanged. -/
def upperFirst (toUpperCase : Char → JsString) (c : Char) : JsString :=
  if c.toNat < 0x80 then [upperChar c]
  else if c.toNat < 0x10000 then toUpperCase c
  else [c]

/-- The function `titleCase`, which `validate-skills.js` and `generate-openai-yaml.js`
define alike. -/
def titleCase (toUpperCase : Char → JsString) (value : JsString) : JsString :=
  join " ".toList
    (((splitRuns (fun c => c == '-' || c == '_' || c == ' ') value).filter
        (fun part => !part.isEmpty)).map
      (fun part =>
        match part with
        | [] => []
        | c :: cs => upperFirst toUpperCase c ++ cs))

/-- The function `countWords`. -/
def countWords (text : JsString) : Nat :=
  (((splitRuns isWhiteSpace text).map trim).filter (fun token => !token.isEmpty)).length

/-- The key and value lines of a companion file as the validator reads them
(lines 229-240): empty lines are dropped and a pair of surrounding quotes is
removed from the value. -/
def parseYaml (yaml : JsString) : List (JsString × JsString) :=
  ((splitLines yaml).filter (fun line => !line.isEmpty)).filterMap (fun line =>
    (matchKeyValue line).map (fun kv =>
      let value := kv.2
      if (startsWith value "\"".toList && endsWith value "\"".toList)
          || (startsWith value "'".toList && endsWith value "'".toList) then
        (kv.1, (value.drop 1).dropLast)
      else (kv.1, value)))

/-! ### scripts/run-trigger-evals.js: loading the catalog -/

/-- A match of `\r?\n` at the start of the text: the text after it. -/
def eatNewline : JsString → Option JsString
  | '\r' :: '\n' :: cs => some cs
  | '\n' :: cs => some cs
  | _ => none

/-- Whether `\r?\n---\r?\n` matches at the start of the text. -/
def closesFrontmatter (s : JsString) : Bool :=
  match eatNewline s with
  | some ('-' :: '-' :: '-' :: rest) => (eatNewline rest).isSome
  | _ => false

/-- The capture `([\s\S]*?)` of the pattern of `parseFrontmatter`: the shortest text
after which `\r?\n---\r?\n` matches. -/
def frontmatterBody : JsString → Option JsString
  | [] => none
  | c :: cs =>
    if closesFrontmatter (c :: cs) then some []
    else (frontmatterBody cs).map (fun body => c :: body)

/-- The function `parseFrontmatter` of the trigger evaluator: the assignments to
`map`, in order; `none` for `null`. -/
def parseFrontmatter (markdown : JsString) : Option (List (JsString × JsString)) :=
  match markdown with
  | '-' :: '-' :: '-' :: rest =>
    match eatNewline rest with
    | some text =>
      (frontmatterBody text).map (fun body => (splitLines body).filterMap matchKeyValue)
    | none => none
  | _ => none

/-- What `loadSkills` and `checkSkillFiles` see of an entry of a category directory
(`entry.name`, `entry.isDirectory()`), and for a directory the decoded text of its
`SKILL.md` and of its `agents/openai.yaml` (`none` when the file does not exist) and
the files that `walkFiles` lists below its `references` directory, each with its path
relative to the repository root and its decoded text (`none` when there is no such
directory). -/
structure SkillEntry where
  name : JsString
  isDirectory : Bool
  skillFile : Option JsString
  openaiYaml : Option JsString
  references : Option (List (JsString × JsString))
deriving DecidableEq, Repr

/-- The catalog on disk: the entries of each category directory, in the order of
`readdirSync`; `none` when the category directory does not exist. -/
abbrev CatalogTree := JsString → Option (List SkillEntry)

/-- The function `loadSkills` before the final sort: the records pushed for one
category directory. -/
def loadCategory (category : JsString) (entries : List SkillEntry) : List Skill :=
  (entries.filter (fun d => d.isDirectory)).filterMap (fun dir =>
    match dir.skillFile with
    | none => none
    | some raw =>
      match parseFrontmatter (readUtf8 raw) with
      | none => none
      | some fm =>
        match lookup "name".toList fm, lookup "description".toList fm with
        | some name, some description =>
          if name.isEmpty || description.isEmpty then none
          else some (mkSkill category name description)
        | _, _ => none)

/-- The constant `SKILL_CATEGORIES`, which is also the list `categories` of
`loadSkills`. -/
def SKILL_CATEGORIES : List JsString :=
  ["agent", "arch", "backend", "core", "frontend", "infra", "perf"].map String.toList

/-- The function `loadSkills`. -/
def loadSkills (localeCompare : JsString → JsString → Int) (tree : CatalogTree) :
    List Skill :=
  sortBy (fun a b => localeCompare a.name b.name)
    (SKILL_CATEGORIES.flatMap (fun category =>
      match tree category with
      | none => []
      | some entries => loadCategory category entries))

/-! ### scripts/validate-skills.js: the checks on the records -/

/-- The constant `SOFT_LINE_BUDGET`. -/
def SOFT_LINE_BUDGET : Nat := 300

/-- The constant `HARD_LINE_LIMIT`. -/
def HARD_LINE_LIMIT : Nat := 500

/-- The constant `SOFT_WORD_BUDGET`. -/
def SOFT_WORD_BUDGET : Nat := 900

/-- The constant `HARD_WORD_LIMIT`. -/
def HARD_WORD_LIMIT : Nat := 1400

/-- A message pushed to `errors` or to `warnings` by `checkSkillFiles`, with the values
that its text interpolates. -/
inductive Issue where
  | missingCategory (category : JsString)
  | missingSkillFile (relDir : JsString)
  | hardLineLimit (relFile : JsString) (lines : Nat)
  | softLineBudget (relFile : JsString) (lines : Nat)
  | hardWordLimit (relFile : JsString) (words : Nat)
  | softWordBudget (relFile : JsString) (words : Nat)
  | missingOpening (relFile : JsString)
  | missingClosing (relFile : JsString)
  | missingRequired (relFile : JsString)
  | unsupportedKeys (relFile : JsString) (extraKeys : List JsString)
  | nameMismatch (relFile : JsString) (expected got : JsString)
  | brokenLink (relFile : JsString) (rawLink : JsString)
  | missingCompanion (relDir : JsString)
  | missingYamlKey (key relYaml : JsString)
  | displayNameMismatch (relYaml expected got : JsString)
  | shortDescriptionTooLong (relYaml : JsString)
  | referencesNotMentioned (relFile : JsString)
  | emptyReferences (relReferences : JsString)
  | largeWithoutReferences (relFile : JsString)
deriving DecidableEq, Repr

/-- The decimal text of a number in a template string. -/
def numberText (n : Nat) : JsString :=
  (Nat.repr n).toList

/-- The text of a message. -/
def Issue.message : Issue → JsString
  | .missingCategory category =>
    "Missing skill category directory: ".toList ++ category
  | .missingSkillFile relDir => "Missing SKILL.md: ".toList ++ relDir
  | .hardLineLimit relFile lines =>
    "SKILL.md exceeds hard line limit (".toList ++ numberText HARD_LINE_LIMIT
      ++ "): ".toList ++ relFile ++ " (".toList ++ numberText lines ++ ")".toList
  | .softLineBudget relFile lines =>
    "SKILL.md exceeds soft line budget (".toList ++ numberText SOFT_LINE_BUDGET
      ++ "): ".toList ++ relFile ++ " (".toList ++ numberText lines ++ ")".toList
  | .hardWordLimit relFile words =>
    "SKILL.md exceeds hard word limit (".toList ++ numberText HARD_WORD_LIMIT
      ++ "): ".toList ++ relFile ++ " (".toList ++ numberText words ++ ")".toList
  | .softWordBudget relFile words =>
    "SKILL.md exceeds soft word budget (".toList ++ numberText SOFT_WORD_BUDGET
      ++ "): ".toList ++ relFile ++ " (".toList ++ numberText words ++ ")".toList
  | .missingOpening relFile =>
    "Missing frontmatter opening separator: ".toList ++ relFile
  | .missingClosing relFile =>
    "Missing frontmatter closing separator: ".toList ++ relFile
  | .missingRequired relFile =>
    "Frontmatter must include name and description: ".toList ++ relFile
  | .unsupportedKeys relFile extraKeys =>
    "Unsupported frontmatter keys in ".toList ++ relFile ++ ": ".toList
      ++ join ", ".toList extraKeys
  | .nameMismatch relFile expected got =>
    "Skill name mismatch in ".toList ++ relFile ++ ": expected \"".toList ++ expected
      ++ "\", got \"".toList ++ got ++ "\"".toList
  | .brokenLink relFile rawLink =>
    "Broken local markdown link in ".toList ++ relFile ++ ": ".toList ++ rawLink
  | .missingCompanion relDir => "Missing agents/openai.yaml: ".toList ++ relDir
  | .missingYamlKey key relYaml =>
    "Missing key \"".toList ++ key ++ "\" in ".toList ++ relYaml
  | .displayNameMismatch relYaml expected got =>
    "display_name mismatch in ".toList ++ relYaml ++ ": expected \"".toList ++ expected
      ++ "\", got \"".toList ++ got ++ "\"".toList
  | .shortDescriptionTooLong relYaml =>
    "short_description too long (>160) in ".toList ++ relYaml
  | .referencesNotMentioned relFile =>
    "Skill has references directory but no references mention in SKILL.md: ".toList
      ++ relFile
  | .emptyReferences relReferences =>
    "Empty references directory: ".toList ++ relReferences
  | .largeWithoutReferences relFile =>
    "Large skill without references directory: ".toList ++ relFile

/-- The errors of lines 172-182 for a text of `lines` lines and `words` words. -/
def sizeErrors (relFile : JsString) (lines words : Nat) : List Issue :=
  (if lines > HARD_LINE_LIMIT then [Issue.hardLineLimit relFile lines] else [])
    ++ (if words > HARD_WORD_LIMIT then [Issue.hardWordLimit relFile words] else [])

/-- The warnings of lines 172-182. -/
def sizeWarnings (relFile : JsString) (lines words : Nat) : List Issue :=
  (if lines > HARD_LINE_LIMIT then []
   else if lines > SOFT_LINE_BUDGET then [Issue.softLineBudget relFile lines] else [])
    ++ (if words > HARD_WORD_LIMIT then []
        else if words > SOFT_WORD_BUDGET then [Issue.softWordBudget relFile words]
        else [])

/-- The call `lines.findIndex((line, idx) => idx > 0 && line.trim() === '---')`;
`none` for `-1`. -/
def secondSepIndex (lines : List JsString) : Option Nat :=
  ((lines.drop 1).findIdx? (fun line => trim line == "---".toList)).map (· + 1)

/-- The array `keys` of line 196. -/
def frontmatterKeys (frontmatterLines : List JsString) : List JsString :=
  frontmatterLines.filterMap matchKey

/-- The array `extraKeys` of line 207. -/
def extraKeys (keys : List JsString) : List JsString :=
  keys.filter (fun key => !(["name".toList, "description".toList].contains key))

/-- The errors of lines 201-210 for the header keys. -/
def keyErrors (relFile : JsString) (keys : List JsString) : List Issue :=
  (if !keys.contains "name".toList || !keys.contains "description".toList then
      [Issue.missingRequired relFile] else [])
    ++ (if (extraKeys keys).length > 0 then
          [Issue.unsupportedKeys relFile (extraKeys keys)] else [])

/-- The constant `requiredYamlKeys`. -/
def requiredYamlKeys : List JsString :=
  ["version", "display_name", "short_description", "default_prompt"].map String.toList

/-- The errors and the warnings of lines 223-254 on the companion file. -/
def companionIssues (toUpperCase : Char → JsString) (relDir declaredName : JsString) (openaiYaml : Option JsString) :
    List Issue × List Issue :=
  match openaiYaml with
  | none => ([Issue.missingCompanion relDir], [])
  | some raw =>
    let relYaml := relDir ++ "/agents/openai.yaml".toList
    let parsedYaml := parseYaml (readUtf8 raw)
    let expectedDisplay := titleCase toUpperCase declaredName
    ((requiredYamlKeys.filter (fun key => (lookup key parsedYaml).isNone)).map
        (fun key => Issue.missingYamlKey key relYaml),
     (match lookup "display_name".toList parsedYaml with
      | some display =>
        if !display.isEmpty && display != expectedDisplay then
          [Issue.displayNameMismatch relYaml expectedDisplay display] else []
      | none => [])
     ++ (match lookup "short_description".toList parsedYaml with
         | some short =>
           if (codeUnits short).length > 160 then
             [Issue.shortDescriptionTooLong relYaml] else []
         | none => []))

/-- The errors and the warnings of lines 256-273 on the references directory;
`targetExists file target` stands for
`fs.existsSync(path.resolve(path.dirname(file), target))`. -/
def referencesIssues (targetExists : JsString → JsString → Bool)
    (relDir relFile content : JsString) (lines words : Nat)
    (references : Option (List (JsString × JsString))) : List Issue × List Issue :=
  match references with
  | some files =>
    let referenceFiles :=
      files.filter (fun file => endsWith (toLowerCase file.1) ".md".toList)
    (referenceFiles.flatMap (fun file =>
        (checkMarkdownLinks (targetExists file.1) (readUtf8 file.2)).map
          (fun rawLink => Issue.brokenLink file.1 rawLink)),
     (if includes (toLowerCase content) "references/".toList then []
      else [Issue.referencesNotMentioned relFile])
     ++ (if referenceFiles.length = 0 then
           [Issue.emptyReferences (relDir ++ "/references".toList)] else []))
  | none =>
    ([],
     if lines > SOFT_LINE_BUDGET || words > SOFT_WORD_BUDGET then
       [Issue.largeWithoutReferences relFile] else [])

/-- The body of the inner loop of `checkSkillFiles` for one entry of a category
directory: the errors and the warnings it pushes, in order. -/
def checkSkillDir (toUpperCase : Char → JsString)
    (targetExists : JsString → JsString → Bool) (category : JsString)
    (entry : SkillEntry) : List Issue × List Issue :=
  if !entry.isDirectory then ([], [])
  else
    let relDir := category ++ "/".toList ++ entry.name
    let relFile := relDir ++ "/SKILL.md".toList
    match entry.skillFile with
    | none => ([Issue.missingSkillFile relDir], [])
    | some raw =>
      let content := readUtf8 raw
      let lines := splitLines content
      let words := countWords content
      let errors₀ := sizeErrors relFile lines.length words
      let warnings₀ := sizeWarnings relFile lines.length words
      if !startsWith content "---\n".toList && !startsWith content "---\r\n".toList then
        (errors₀ ++ [Issue.missingOpening relFile], warnings₀)
      else
        match secondSepIndex lines with
        | none => (errors₀ ++ [Issue.missingClosing relFile], warnings₀)
        | some index =>
          let frontmatterLines := (lines.take index).drop 1
          let errors₁ := errors₀ ++ keyErrors relFile (frontmatterKeys frontmatterLines)
          match frontmatterLines.find? (fun line => startsWith line "name:".toList) with
          | none => (errors₁, warnings₀)
          | some nameLine =>
            let declaredName := trim (replaceFirst "name:".toList [] nameLine)
            let companion := companionIssues toUpperCase relDir declaredName entry.openaiYaml
            let references := referencesIssues targetExists relDir relFile content
              lines.length words entry.references
            (errors₁
              ++ (if declaredName != entry.name then
                    [Issue.nameMismatch relFile entry.name declaredName] else [])
              ++ (checkMarkdownLinks (targetExists relFile) content).map
                    (fun rawLink => Issue.brokenLink relFile rawLink)
              ++ companion.1 ++ references.1,
             warnings₀ ++ companion.2 ++ references.2)

/-- The function `checkSkillFiles`: the errors and the warnings it pushes, in order. -/
def checkSkillFiles (toUpperCase : Char → JsString)
    (targetExists : JsString → JsString → Bool) (tree : CatalogTree) :
    List Issue × List Issue :=
  let results := SKILL_CATEGORIES.map (fun category =>
    match tree category with
    | none => [([Issue.missingCategory category], ([] : List Issue))]
    | some entries => entries.map (checkSkillDir toUpperCase targetExists category))
  (results.flatMap (fun perEntry => perEntry.flatMap (fun r => r.1)),
   results.flatMap (fun perEntry => perEntry.flatMap (fun r => r.2)))

/-! ### scripts/validate-skills.js: the discovery table -/

/-- The character class `[a-z0-9-]` under the flag `i`. -/
def isRowNameChar (c : Char) : Bool :=
  ('a' ≤ c && c ≤ 'z') || ('A' ≤ c && c ≤ 'Z') || ('0' ≤ c && c ≤ '9') || c == '-'

/-- A match of `\|\s*([a-z0-9-]+)\s*\|` (flag `i`) at the start of the text: the
capture and the length of the match. -/
def matchRow : JsString → Option (JsString × Nat)
  | '|' :: rest =>
    let afterSpace := rest.dropWhile isWhiteSpace
    let value := afterSpace.takeWhile isRowNameChar
    match (afterSpace.dropWhile isRowNameChar).dropWhile isWhiteSpace with
    | '|' :: _ =>
      if value = [] then none
      else some (value,
        1 + (rest.takeWhile isWhiteSpace).length + value.length
          + ((afterSpace.dropWhile isRowNameChar).takeWhile isWhiteSpace).length + 1)
    | _ => none
  | _ => none

/-- The loop of `parseFindSkillsAgentTable` over the matches of the row pattern, which
starts at line starts only (flag `m`): `atLineStart` says that the position follows a
line terminator or is the start of the text, and `skip` characters of a match are
still to be passed. -/
def tableNamesAux : Bool → Nat → JsString → List JsString
  | _, _, [] => []
  | _, skip + 1, c :: cs => tableNamesAux (isLineTerminator c) skip cs
  | atLineStart, 0, c :: cs =>
    if atLineStart then
      match matchRow (c :: cs) with
      | some (value, len) =>
        (if value != "skill".toList then [value] else [])
          ++ tableNamesAux (isLineTerminator c) (len - 1) cs
      | none => tableNamesAux (isLineTerminator c) 0 cs
    else tableNamesAux (isLineTerminator c) 0 cs

/-- The first-column values of the table rows of a section, the literal `skill`
excepted. -/
def tableNames (sectionText : JsString) : List JsString :=
  tableNamesAux true 0 sectionText

/-- The function `parseFindSkillsAgentTable`; `none` for `null`. -/
def parseFindSkillsAgentTable (findSkillsText : JsString) : Option (List JsString) :=
  let marker := "### Agent Skills".toList
  match indexOf marker findSkillsText with
  | none => none
  | some markerIndex =>
    let afterMarker := findSkillsText.drop (markerIndex + marker.length)
    let sectionText :=
      match indexOf "\n## ".toList afterMarker with
      | some nextSectionIndex => afterMarker.take nextSectionIndex
      | none => afterMarker
    some (tableNames sectionText)

/-- The kind of a message: which `push` of `checkSkillFiles` produced it. -/
inductive IssueKind where
  | missingCategory | missingSkillFile | hardLineLimit | softLineBudget | hardWordLimit
  | softWordBudget | missingOpening | missingClosing | missingRequired | unsupportedKeys
  | nameMismatch | brokenLink | missingCompanion | missingYamlKey | displayNameMismatch
  | shortDescriptionTooLong | referencesNotMentioned | emptyReferences
  | largeWithoutReferences
deriving DecidableEq, Repr

/-- The kind of a message. -/
def Issue.kind : Issue → IssueKind
  | .missingCategory _ => .missingCategory
  | .missingSkillFile _ => .missingSkillFile
  | .hardLineLimit _ _ => .hardLineLimit
  | .softLineBudget _ _ => .softLineBudget
  | .hardWordLimit _ _ => .hardWordLimit
  | .softWordBudget _ _ => .softWordBudget
  | .missingOpening _ => .missingOpening
  | .missingClosing _ => .missingClosing
  | .missingRequired _ => .missingRequired
  | .unsupportedKeys _ _ => .unsupportedKeys
  | .nameMismatch _ _ _ => .nameMismatch
  | .brokenLink _ _ => .brokenLink
  | .missingCompanion _ => .missingCompanion
  | .missingYamlKey _ _ => .missingYamlKey
  | .displayNameMismatch _ _ _ => .displayNameMismatch
  | .shortDescriptionTooLong _ => .shortDescriptionTooLong
  | .referencesNotMentioned _ => .referencesNotMentioned
  | .emptyReferences _ => .emptyReferences
  | .largeWithoutReferences _ => .largeWithoutReferences

/-- The messages of one kind among the messages collected. -/
def ofKind (kind : IssueKind) (issues : List Issue) : List Issue :=
  issues.filter (fun issue => issue.kind == kind)

/-- The path of a skill directory relative to the repository root. -/
def relDirOf (category : JsString) (entry : SkillEntry) : JsString :=
  category ++ "/".toList ++ entry.name

/-- The path of the `SKILL.md` of a skill directory relative to the repository root. -/
def relFileOf (category : JsString) (entry : SkillEntry) : JsString :=
  relDirOf category entry ++ "/SKILL.md".toList

/-- The header lines of a record between the two delimiters (line 195). -/
def frontmatterLinesOf (content : JsString) : Option (List JsString) :=
  (secondSepIndex (splitLines content)).map
    (fun index => ((splitLines content).take index).drop 1)

/-- Worker of `wordRuns`: `inWord` says that the previous character was not white
space. -/
def wordRunsAux : Bool → JsString → Nat
  | _, [] => 0
  | inWord, c :: cs =>
    if isWhiteSpace c then wordRunsAux false cs
    else (if inWord then 0 else 1) + wordRunsAux true cs

/-- Following the wording of the specification: the number of maximal runs of
characters that are not white space. -/
def wordRuns (text : JsString) : Nat :=
  wordRunsAux false text

/-! ## Auxiliary notions for the proofs -/

/-- Every character of class `p` in the text is a single space that does not follow
another character of class `p`; `prev` says that the text is preceded by such a
character. -/
def WellSpaced (p : Char → Bool) : Bool → JsString → Prop
  | _, [] => True
  | prev, c :: cs =>
    if p c then c = ' ' ∧ prev = false ∧ WellSpaced p true cs
    else WellSpaced p false cs

/-- Splitting a text at every character of class `p`. -/
def splitAt (p : Char → Bool) : JsString → List JsString
  | [] => [[]]
  | c :: cs =>
    if p c then [] :: splitAt p cs
    else
      match splitAt p cs with
      | [] => [[c]]
      | w :: ws => (c :: w) :: ws

/-- The test of the `filter` of `tokenize`. -/
def keepToken (token : JsString) : Bool :=
  decide (token.length ≥ 3) && !STOPWORDS.contains token

/-- The text in which `normalizeText` looks for the two-word terms: lower-cased, with
`next.js` already rewritten. -/
def beforeTerms (value : JsString) : JsString :=
  replaceAll "next.js".toList "nextjs".toList (toLowerCase value)

/-- The text after the three substitutions of `normalizeText`, before the character
classes are applied. -/
def afterTerms (value : JsString) : JsString :=
  replaceAll "tanstack query".toList "tanstack-query".toList
    (replaceAll "rtk query".toList "rtk-query".toList (beforeTerms value))

/-- The kinds of the errors that follow the size errors of a record. -/
def laterErrorKinds : List IssueKind :=
  [.missingOpening, .missingClosing, .missingRequired, .unsupportedKeys, .nameMismatch,
   .brokenLink, .missingCompanion, .missingYamlKey]

/-- The kinds of the warnings that follow the size warnings of a record. -/
def laterWarningKinds : List IssueKind :=
  [.displayNameMismatch, .shortDescriptionTooLong, .referencesNotMentioned,
   .emptyReferences, .largeWithoutReferences]

/-- The declared name that `checkSkillFiles` compares with the directory name
(lines 212-216): the trimmed text after `name:` of the first header line that starts
with it; `none` when the closing separator or such a line is missing. -/
def declaredNameOf (content : JsString) : Option JsString :=
  (frontmatterLinesOf content).bind (fun frontmatterLines =>
    (frontmatterLines.find? (fun line => startsWith line "name:".toList)).map
      (fun nameLine => trim (replaceFirst "name:".toList [] nameLine)))

/-- A catalog in which the categories `agent` and `core` each hold a directory `dup`
whose record declares the name `dup`, with its companion file; the other categories
are empty. -/
def duplicateTree : CatalogTree := fun category =>
  if category = "agent".toList then
    some [{ name := "dup".toList, isDirectory := true,
            skillFile := some
              "---\nname: dup\ndescription: Agent copy of the skill\n---\n# Dup\n".toList,
            openaiYaml := some ("version: 1\ndisplay_name: \"Dup\"\n"
              ++ "short_description: \"Agent copy\"\ndefault_prompt: \"Use it\"\n").toList,
            references := none }]
  else if category = "core".toList then
    some [{ name := "dup".toList, isDirectory := true,
            skillFile := some
              "---\nname: dup\ndescription: Core copy of the skill\n---\n# Dup\n".toList,
            openaiYaml := some ("version: 1\ndisplay_name: \"Dup\"\n"
              ++ "short_description: \"Core copy\"\ndefault_prompt: \"Use it\"\n").toList,
            references := none }]
  else some []

/-- The error that `checkCatalogDrift` pushes for the install configuration
(lines 293-297). -/
def configDriftErrors (essentialBundle configMandatory : List JsString) : List JsString :=
  if join "|".toList (sortDefault (essentialBundle.map normalizeSkillName))
      ≠ join "|".toList (sortDefault configMandatory) then
    ["Mandatory skills drift between bundles.json and skills.config.json: expected [".toList
      ++ join ", ".toList (sortDefault (essentialBundle.map normalizeSkillName))
      ++ "], got [".toList ++ join ", ".toList (sortDefault configMandatory)
      ++ "]".toList]
  else []

/-- The error that `checkCatalogDrift` pushes for the wizard (lines 299-309). -/
def wizardDriftErrors (essentialBundle : List JsString)
    (wizardMandatory : Option (List JsString)) : List JsString :=
  match wizardMandatory with
  | none => ["Unable to parse mandatory skills from scripts/skills-wizard.js".toList]
  | some wizard =>
    if join "|".toList (sortDefault wizard)
        ≠ join "|".toList (sortDefault (essentialBundle.map normalizeSkillName)) then
      ["Mandatory skills drift between bundles.json and scripts/skills-wizard.js: expected [".toList
        ++ join ", ".toList (sortDefault (essentialBundle.map normalizeSkillName))
        ++ "], got [".toList ++ join ", ".toList (sortDefault wizard) ++ "]".toList]
    else []

/-- The error that `checkCatalogDrift` pushes for the discovery table
(lines 311-321). -/
def agentRowErrors (agentSkills : List JsString)
    (findSkillsAgent : Option (List JsString)) : List JsString :=
  match findSkillsAgent with
  | none =>
    ["Unable to find \"### Agent Skills\" section in agent/find-skills/SKILL.md".toList]
  | some found =>
    if ((sortDefault agentSkills).filter
        (fun name => !(sortDefault (setFromArray found)).contains name)).length > 0 then
      ["agent/find-skills/SKILL.md is missing agent skill rows: ".toList
        ++ join ", ".toList ((sortDefault agentSkills).filter
            (fun name => !(sortDefault (setFromArray found)).contains name))]
    else []

/-! ### scripts/run-trigger-evals.js: the run -/

/-- Worker of `significandShift`: the search goes upwards from `k`. -/
def shiftFrom (p t : Nat) : Nat → Nat → Nat
  | 0, k => k
  | fuel + 1, k => if t * 2 ^ 52 ≤ p * 2 ^ k then k else shiftFrom p t fuel (k + 1)

/-- The least `k` for which `p * 2 ^ k / t` is at least `2 ^ 52`, for `p` positive:
the scaling that gives the quotient a significand of 53 bits. -/
def significandShift (p t : Nat) : Nat :=
  shiftFrom p t (53 + t) 0

/-- The integer nearest to `a / b`, the even one of the two when `a / b` lies half way
between two integers. -/
def roundHalfEven (a b : Nat) : Nat :=
  if 2 * (a % b) < b then a / b
  else if b < 2 * (a % b) then a / b + 1
  else if (a / b) % 2 = 0 then a / b else a / b + 1

/-- The quotient `p / t` of two numbers with integer values as JavaScript computes it,
for `0 ≤ p ≤ t` and `0 < t < 2 ^ 53`: the double nearest to the exact quotient, the
one with the even significand in case of a tie.  (These quotients are 0 or lie between
`1 / t` and 1, far from the subnormal range and from overflow.) -/
def divideDouble (p t : Nat) : ℚ :=
  if p = 0 then 0
  else (roundHalfEven (p * 2 ^ significandShift p t) t : ℚ) / 2 ^ significandShift p t

/-- The number that the literal `0.85` denotes: the double nearest to `85 / 100`. -/
def defaultPassThreshold : ℚ :=
  7656119366529843 / 9007199254740992

/-- The parsed evaluation file as `run` reads it.  A threshold is `some` when
`typeof` gives `number` for the member, and holds the exact value of that finite
double, a rational number; `cases` is `some` when the member is an array. -/
structure EvalSuite where
  pass_threshold : Option ℚ
  none_score_threshold : Option ℚ
  cases : Option (List TestCase)

/-- How `run` ends: with `process.exit(1)` before any case is evaluated, or after the
report, with the exit code of the process. -/
inductive RunOutcome where
  | evalFileNotFound
  | noSkillsLoaded
  | finished (passed total : Nat) (accuracy : ℚ) (failed : List CaseResult)
      (exitCode : Nat)

/-- The exit code of the process. -/
def RunOutcome.exitCode : RunOutcome → Nat
  | .evalFileNotFound => 1
  | .noSkillsLoaded => 1
  | .finished _ _ _ _ code => code

/-- The call `cases.map((testCase) => evaluateCase(testCase, skills, noneThreshold))`;
`none` when a call raises. -/
def evaluateCases (localeCompare : JsString → JsString → Int) (skills : List Skill)
    (noneThreshold : ℚ) : List TestCase → Option (List CaseResult)
  | [] => some []
  | testCase :: rest =>
    match evaluateCase localeCompare testCase skills noneThreshold with
    | none => none
    | some result =>
      match evaluateCases localeCompare skills noneThreshold rest with
      | none => none
      | some results => some (result :: results)

/-- The function `run`: `evalFile` is the parsed evaluation file (`none` when the file
does not exist) and `skills` the value of `loadSkills()`; `none` when an exception
escapes. -/
def run (localeCompare : JsString → JsString → Int) (evalFile : Option EvalSuite)
    (skills : List Skill) : Option RunOutcome :=
  match evalFile with
  | none => some .evalFileNotFound
  | some raw =>
    let threshold : ℚ := match raw.pass_threshold with
      | some value => value
      | none => defaultPassThreshold
    let noneThreshold : ℚ := match raw.none_score_threshold with
      | some value => value
      | none => 4
    let cases := match raw.cases with
      | some list => list
      | none => []
    if skills.length = 0 then some .noSkillsLoaded
    else
      match evaluateCases localeCompare skills noneThreshold cases with
      | none => none
      | some results =>
        let passed := (results.filter (fun r => r.pass)).length
        let total := results.length
        let accuracy : ℚ := if total = 0 then 0 else divideDouble passed total
        let failed := results.filter (fun r => !r.pass)
        some (.finished passed total accuracy failed
          (if accuracy < threshold then 1 else 0))

/-- Whether `evaluateCase` returns a result that passes. -/
def casePasses (localeCompare : JsString → JsString → Int) (skills : List Skill)
    (noneThreshold : ℚ) (testCase : TestCase) : Bool :=
  match evaluateCase localeCompare testCase skills noneThreshold with
  | some result => result.pass
  | none => false

/-! ### scripts/validate-skills.js: the wizard's mandatory list -/

/-- The character class of the two quotes: the apostrophe (39) and the double quote
(34). -/
def isQuote (c : Char) : Bool :=
  c.toNat == 39 || c.toNat == 34

/-- The call `v.replace(...)` of `parseWizardMandatory`, whose pattern is a quote at
the start or a quote at the end, with the flag `g`: a quote at the start is removed,
then a quote at the end of what remains. -/
def stripQuotes (v : JsString) : JsString :=
  let afterFirst := match v with
    | c :: cs => if isQuote c then cs else c :: cs
    | [] => []
  match afterFirst.getLast? with
  | some c => if isQuote c then afterFirst.dropLast else afterFirst
  | none => afterFirst

/-- A match of `const mandatory = \[([^\]]+)\];` at the start of the text: the
capture. -/
def matchMandatory (text : JsString) : Option JsString :=
  if startsWith text "const mandatory = [".toList then
    let rest := text.drop "const mandatory = [".toList.length
    let capture := rest.takeWhile (fun c => c != ']')
    if !capture.isEmpty && startsWith (rest.dropWhile (fun c => c != ']')) "];".toList then
      some capture
    else none
  else none

/-- The capture of the leftmost match of the pattern in the text. -/
def findMandatory : JsString → Option JsString
  | [] => none
  | c :: cs =>
    match matchMandatory (c :: cs) with
    | some capture => some capture
    | none => findMandatory cs

/-- The function `parseWizardMandatory`; `none` for `null`. -/
def parseWizardMandatory (wizardText : JsString) : Option (List JsString) :=
  match findMandatory wizardText with
  | none => none
  | some capture =>
    some ((((split ',' capture).map trim).map stripQuotes).filter (fun v => !v.isEmpty))

/-- An element of an array literal: a name between two quotes, with white space
around. -/
def IsQuotedName (item name : JsString) : Prop :=
  ∃ (lead trail : JsString) (opening closing : Char),
    (∀ c ∈ lead, isWhiteSpace c = true) ∧ (∀ c ∈ trail, isWhiteSpace c = true) ∧
    isQuote opening = true ∧ isQuote closing = true ∧
    item = lead ++ opening :: name ++ closing :: trail

/-- The kinds of the errors of the header checks of `checkSkillFiles`
(lines 184-210). -/
def headerKinds : List IssueKind :=
  [.missingOpening, .missingClosing, .missingRequired, .unsupportedKeys]

/-- A skill directory with the given record text, a companion file that has the four
required keys, and no `references` directory. -/
def recordEntry (name raw : JsString) : SkillEntry :=
  { name := name
    isDirectory := true
    skillFile := some raw
    openaiYaml := some ("version: 1\ndisplay_name: \"A\"\n"
      ++ "short_description: \"Sample\"\ndefault_prompt: \"Use it\"\n").toList
    references := none }

/-! ### scripts/generate-openai-yaml.js -/

/-- A hexadecimal digit, in lower case. -/
def hexDigit (n : Nat) : Char :=
  if n < 10 then Char.ofNat (48 + n) else Char.ofNat (87 + n)

/-- The abstract operation `UnicodeEscape` of `JSON.stringify`: `\u` and four
hexadecimal digits. -/
def unicodeEscape (u : Nat) : JsString :=
  ['\\', 'u', hexDigit (u / 4096 % 16), hexDigit (u / 256 % 16), hexDigit (u / 16 % 16),
    hexDigit (u % 16)]

/-- What `JSON.stringify` writes for a code unit that is not a surrogate: the short
escapes for backspace, tab, line feed, form feed, carriage return, the double quote
and the backslash, `\uXXXX` for the other code units below U+0020, and the character
itself otherwise. -/
def quoteUnit (u : Nat) : JsString :=
  if u = 0x08 then "\\b".toList
  else if u = 0x09 then "\\t".toList
  else if u = 0x0A then "\\n".toList
  else if u = 0x0C then "\\f".toList
  else if u = 0x0D then "\\r".toList
  else if u = 0x22 then "\\\"".toList
  else if u = 0x5C then "\\\\".toList
  else if u < 0x20 then unicodeEscape u
  else [Char.ofNat u]

/-- What `JSON.stringify` writes for a code unit that is not part of a surrogate
pair: `\uXXXX` for a surrogate on its own. -/
def quoteLone (u : Nat) : JsString :=
  if 0xD800 ≤ u ∧ u < 0xE000 then unicodeEscape u else quoteUnit u

/-- The abstract operation `QuoteJSONString` without the surrounding quotes, on a
string given by its UTF-16 code units: a high surrogate followed by a low one is the
character they encode. -/
def quoteJSONUnits : List Nat → JsString
  | [] => []
  | [u] => quoteLone u
  | u :: low :: rest =>
    if (0xD800 ≤ u ∧ u < 0xDC00) ∧ (0xDC00 ≤ low ∧ low < 0xE000) then
      Char.ofNat (0x10000 + (u - 0xD800) * 0x400 + (low - 0xDC00)) :: quoteJSONUnits rest
    else quoteLone u ++ quoteJSONUnits (low :: rest)

/-- The call `JSON.stringify(value)` for a string, given by its code units. -/
def jsonStringify (value : List Nat) : JsString :=
  Char.ofNat 34 :: quoteJSONUnits value ++ [Char.ofNat 34]

/-- The function `normalizeDescription`. -/
def normalizeDescription (description : JsString) : JsString :=
  if description.isEmpty then []
  else trim (replaceRuns isWhiteSpace description)

/-- The function `buildYaml`; the three members of `data` are given by their code
units. -/
def buildYaml (display_name short_description default_prompt : List Nat) : JsString :=
  join "\n".toList
    ["version: 1".toList,
     "display_name: ".toList ++ jsonStringify display_name,
     "short_description: ".toList ++ jsonStringify short_description,
     "default_prompt: ".toList ++ jsonStringify default_prompt]
  ++ "\n".toList

/-- The text that `generateForSkill` writes to `agents/openai.yaml` for a header with
the given `name` and `description` (lines 58-70); `slice` and `length` count code
units. -/
def generatedYaml (toUpperCase : Char → JsString) (name description : JsString) : JsString :=
  let displayName := titleCase toUpperCase name
  let description := normalizeDescription description
  let shortDescription :=
    if (codeUnits description).length > 140 then
      (codeUnits description).take 137 ++ codeUnits "...".toList
    else codeUnits description
  let defaultPrompt :=
    if (codeUnits description).length > 0 then
      "Use this skill when: ".toList ++ description
    else "Use this skill when working on ".toList ++ displayName ++ ".".toList
  buildYaml (codeUnits displayName) shortDescription (codeUnits defaultPrompt)

/-- The function `generateForSkill`, as far as the text written is concerned, on the
decoded text of a `SKILL.md`; `none` when it throws.  Both `readUtf8` and the
`parseFrontmatter` of this script remove a leading byte-order mark. -/
def generateForSkill (toUpperCase : Char → JsString) (raw : JsString) : Option JsString :=
  match parseFrontmatter (readUtf8 (readUtf8 raw)) with
  | none => none
  | some fm =>
    match lookup "name".toList fm, lookup "description".toList fm with
    | some name, some description =>
      if name.isEmpty || description.isEmpty then none
      else some (generatedYaml toUpperCase name description)
    | _, _ => none

/-- A character that `JSON.stringify` writes as it is: neither a control character, nor
the double quote, nor the backslash. -/
def isPlainChar (c : Char) : Bool :=
  decide (0x20 ≤ c.toNat) && c.toNat != 0x22 && c.toNat != 0x5C
/-! ## Lemmas on the built-ins -/

theorem compareUnits_neg_iff (a b : List Nat) :
    compareUnits a b < 0 ↔ 0 < compareUnits b a := by
  induction a generalizing b with
  | nil => cases b <;> simp [compareUnits]
  | cons x xs ih =>
    cases b with
    | nil => simp [compareUnits]
    | cons y ys =>
      simp only [compareUnits]
      by_cases h1 : x < y
      · have h2 : ¬ y < x := by omega
        simp [h1, h2]
      · by_cases h2 : y < x
        · simp [h1, h2]
        · simp [h1, h2, ih]

theorem compareUnits_trans (a b c : List Nat) :
    compareUnits a b ≤ 0 → compareUnits b c ≤ 0 → compareUnits a c ≤ 0 := by
  induction a generalizing b c with
  | nil => cases c <;> simp [compareUnits]
  | cons x xs ih =>
    cases b with
    | nil => simp [compareUnits]
    | cons y ys =>
      cases c with
      | nil =>
        intro _ h
        simp [compareUnits] at h
      | cons z zs =>
        simp only [compareUnits]
        by_cases hxy : x < y
        · by_cases hyz : y < z
          · have : x < z := by omega
            simp [this]
          · by_cases hzy : z < y
            · simp [hyz, hzy]
            · have : x < z := by omega
              simp [this]
        · by_cases hyx : y < x
          · simp [hxy, hyx]
          · have hxy2 : x = y := by omega
            subst hxy2
            by_cases hxz : x < z
            · simp [hxz]
            · by_cases hzx : z < x
              · simp [hxz, hzx]
              · simpa [hxz, hzx] using ih ys zs

theorem defaultCompare_consistent : ConsistentComparator defaultCompare :=
  ⟨fun _ _ => compareUnits_neg_iff _ _, fun _ _ _ => compareUnits_trans _ _ _⟩

theorem ConsistentComparator.refl {α : Type} {cmp : α → α → Int}
    (h : ConsistentComparator cmp) (a : α) : cmp a a ≤ 0 := by
  by_contra hc
  have h1 : 0 < cmp a a := by omega
  have h2 := (h.1 a a).2 h1
  omega

theorem ConsistentComparator.total {α : Type} {cmp : α → α → Int}
    (h : ConsistentComparator cmp) (a b : α) : cmp a b ≤ 0 ∨ cmp b a ≤ 0 := by
  by_cases h1 : cmp a b ≤ 0
  · exact Or.inl h1
  · right
    have h2 : 0 < cmp a b := by omega
    have h3 := (h.1 b a).2 h2
    omega

/-- The first entry of a non-empty sorted array is an entry of the array that is not
after any other entry. -/
theorem head?_sortBy {α : Type} {cmp : α → α → Int} (h : ConsistentComparator cmp)
    (l : List α) (hne : l ≠ []) :
    ∃ b, (sortBy cmp l).head? = some b ∧ b ∈ l ∧ ∀ x ∈ l, cmp b x ≤ 0 := by
  haveI : IsTotal α (fun a b => cmp a b ≤ 0) := ⟨h.total⟩
  haveI : IsTrans α (fun a b => cmp a b ≤ 0) := ⟨h.2⟩
  have hperm := List.perm_insertionSort (fun a b => cmp a b ≤ 0) l
  have hsorted := List.sorted_insertionSort (fun a b => cmp a b ≤ 0) l
  unfold sortBy
  cases hs : List.insertionSort (fun a b => cmp a b ≤ 0) l with
  | nil =>
    rw [hs] at hperm
    exact absurd hperm.symm.eq_nil hne
  | cons b rest =>
    rw [hs] at hperm hsorted
    refine ⟨b, rfl, hperm.subset (List.mem_cons_self _ _), ?_⟩
    intro x hx
    have hx2 : x ∈ b :: rest := hperm.symm.subset hx
    rcases List.mem_cons.1 hx2 with rfl | hx3
    · exact h.refl _
    · exact List.rel_of_sorted_cons hsorted x hx3

theorem sortBy_ne_nil {α : Type} (cmp : α → α → Int) (l : List α) (hne : l ≠ []) :
    ∃ b, (sortBy cmp l).head? = some b ∧ b ∈ l := by
  have hperm := List.perm_insertionSort (fun a b => cmp a b ≤ 0) l
  unfold sortBy
  cases hs : List.insertionSort (fun a b => cmp a b ≤ 0) l with
  | nil =>
    rw [hs] at hperm
    exact absurd hperm.symm.eq_nil hne
  | cons b rest =>
    rw [hs] at hperm
    exact ⟨b, rfl, hperm.subset (List.mem_cons_self _ _)⟩

/-! ## Lemmas on scoring and selection -/

theorem foldl_add_if {α : Type} (p : α → Bool) (k init : Nat) (l : List α) :
    l.foldl (fun score token => if p token then score + k else score) init
      = init + k * l.countP p := by
  induction l generalizing init with
  | nil => simp
  | cons a l ih =>
    simp only [List.foldl_cons, List.countP_cons]
    by_cases ha : p a = true
    · simp [ha, ih]; ring
    · simp [ha, ih]

theorem scoreSkill_eq (prompt : JsString) (skill : Skill) :
    scoreSkill prompt skill
      = 4 * skill.nameTokens.countP (fun t => decide (t ∈ tokenize prompt))
        + 1 * skill.descTokens.countP (fun t => decide (t ∈ tokenize prompt)) := by
  unfold scoreSkill
  generalize tokenize prompt = promptTokens
  have e : (fun t : JsString => promptTokens.contains t)
      = (fun t => decide (t ∈ promptTokens)) := by
    funext t
    simp
  simp only [foldl_add_if, Nat.zero_add, e]

theorem compareScored_le_iff (lc : JsString → JsString → Int) (a b : Scored) :
    compareScored lc a b ≤ 0 ↔
      b.score < a.score ∨ (a.score = b.score ∧ lc a.name b.name ≤ 0) := by
  unfold compareScored
  by_cases h : (b.score : Int) - (a.score : Int) ≠ 0
  · rw [if_pos h]; omega
  · rw [if_neg h]
    have : a.score = b.score := by omega
    simp [this]

theorem compareScored_consistent {lc : JsString → JsString → Int}
    (h : ConsistentComparator lc) : ConsistentComparator (compareScored lc) := by
  constructor
  · intro a b
    unfold compareScored
    by_cases h1 : (b.score : Int) - (a.score : Int) ≠ 0
    · have h2 : (a.score : Int) - (b.score : Int) ≠ 0 := by omega
      rw [if_pos h1, if_pos h2]; omega
    · have h2 : ¬ ((a.score : Int) - (b.score : Int) ≠ 0) := by omega
      rw [if_neg h1, if_neg h2]
      exact h.1 _ _
  · intro a b c hab hbc
    rw [compareScored_le_iff] at hab hbc ⊢
    rcases hab with hab | ⟨e1, l1⟩
    · rcases hbc with hbc | ⟨e2, _⟩
      · left; omega
      · left; omega
    · rcases hbc with hbc | ⟨e2, l2⟩
      · left; omega
      · right; exact ⟨by omega, h.2 _ _ _ l1 l2⟩

/-- The winner exists for a non-empty catalog and is the scored image of a record. -/
theorem bestScored_some (lc : JsString → JsString → Int) (prompt : JsString)
    (skills : List Skill) (hne : skills ≠ []) :
    ∃ best, bestScored lc prompt skills = some best ∧
      ∃ s ∈ skills, s.name = best.name ∧ scoreSkill prompt s = best.score := by
  have hne2 : skills.map (fun skill =>
      ({ name := skill.name, score := scoreSkill prompt skill } : Scored)) ≠ [] := by
    simpa using hne
  obtain ⟨b, hb, hmem⟩ := sortBy_ne_nil (compareScored lc) _ hne2
  refine ⟨b, hb, ?_⟩
  obtain ⟨s, hs, rfl⟩ := List.mem_map.1 hmem
  exact ⟨s, hs, rfl, rfl⟩

/-- With a consistent collation the winner is not after any record of the catalog in
the order "descending score, then ascending name". -/
theorem bestScored_min {lc : JsString → JsString → Int} (h : ConsistentComparator lc)
    (prompt : JsString) (skills : List Skill) (best : Scored)
    (hbest : bestScored lc prompt skills = some best) :
    ∀ s ∈ skills, scoreSkill prompt s < best.score ∨
      (scoreSkill prompt s = best.score ∧ lc best.name s.name ≤ 0) := by
  intro s hs
  have hne2 : skills.map (fun skill =>
      ({ name := skill.name, score := scoreSkill prompt skill } : Scored)) ≠ [] := by
    intro hnil
    rw [List.map_eq_nil_iff] at hnil
    rw [hnil] at hs
    cases hs
  obtain ⟨b, hb, _, hmin⟩ := head?_sortBy (compareScored_consistent h) _ hne2
  have hbb : b = best := by
    unfold bestScored at hbest
    rw [hb] at hbest
    exact Option.some.inj hbest
  subst hbb
  have := hmin ⟨s.name, scoreSkill prompt s⟩ (List.mem_map.2 ⟨s, hs, rfl⟩)
  rw [compareScored_le_iff] at this
  rcases this with h1 | ⟨h1, h2⟩
  · exact Or.inl h1
  · exact Or.inr ⟨h1.symm, h2⟩


/-! ## Lemmas on characters -/

theorem char_le_iff (c d : Char) : c ≤ d ↔ c.toNat ≤ d.toNat := by
  rw [Char.le_def]
  rfl

theorem char_eq_iff (c d : Char) : c = d ↔ c.toNat = d.toNat :=
  ⟨fun h => by rw [h], fun h => Char.ext (UInt32.ext h)⟩

theorem isTokenChar_iff (c : Char) :
    isTokenChar c = true ↔
      (97 ≤ c.toNat ∧ c.toNat ≤ 122) ∨ (48 ≤ c.toNat ∧ c.toNat ≤ 57) ∨ c.toNat = 45 := by
  unfold isTokenChar
  simp only [Bool.or_eq_true, Bool.and_eq_true, decide_eq_true_eq, beq_iff_eq,
    char_le_iff, char_eq_iff]
  have ha : 'a'.toNat = 97 := rfl
  have hz : 'z'.toNat = 122 := rfl
  have h0 : '0'.toNat = 48 := rfl
  have h9 : '9'.toNat = 57 := rfl
  have hh : '-'.toNat = 45 := rfl
  rw [ha, hz, h0, h9, hh]
  tauto

theorem isWhiteSpace_iff (c : Char) :
    isWhiteSpace c = true ↔
      c.toNat = 0x09 ∨ c.toNat = 0x0A ∨ c.toNat = 0x0B ∨ c.toNat = 0x0C ∨
      c.toNat = 0x0D ∨ c.toNat = 0x20 ∨ c.toNat = 0xA0 ∨ c.toNat = 0x1680 ∨
      (0x2000 ≤ c.toNat ∧ c.toNat ≤ 0x200A) ∨ c.toNat = 0x2028 ∨ c.toNat = 0x2029 ∨
      c.toNat = 0x202F ∨ c.toNat = 0x205F ∨ c.toNat = 0x3000 ∨ c.toNat = 0xFEFF := by
  unfold isWhiteSpace
  simp only [Bool.or_eq_true, Bool.and_eq_true, decide_eq_true_eq, beq_iff_eq]
  tauto

theorem not_isTokenChar_of_isWhiteSpace (c : Char) (h : isWhiteSpace c = true) :
    isTokenChar c = false := by
  rw [isWhiteSpace_iff] at h
  by_contra hc
  rw [Bool.not_eq_false, isTokenChar_iff] at hc
  omega

theorem lowerChar_of_isTokenChar (c : Char) (h : isTokenChar c = true) :
    lowerChar c = [c] := by
  rw [isTokenChar_iff] at h
  unfold lowerChar
  have hA : 'A'.toNat = 65 := rfl
  have hZ : 'Z'.toNat = 90 := rfl
  have hK : (Char.ofNat 0x212A).toNat = 0x212A := rfl
  have hI : (Char.ofNat 0x0130).toNat = 0x0130 := rfl
  rw [if_neg, if_neg, if_neg]
  · rw [char_eq_iff, hI]; omega
  · rw [char_eq_iff, hK]; omega
  · rw [char_le_iff, char_le_iff, hA, hZ]; omega

theorem lowerChar_space : lowerChar ' ' = [' '] := by decide

/-! ## Lemmas on `replaceAll`, `replaceRuns`, `trim` and `split` -/

theorem replaceAll_eq_self (pat rep s : JsString) (h : ¬ pat <:+: s) :
    replaceAll pat rep s = s := by
  unfold replaceAll
  induction s with
  | nil => rfl
  | cons c cs ih =>
    have h1 : pat.isPrefixOf (c :: cs) = false := by
      rw [Bool.eq_false_iff]
      intro hp
      exact h ( List.isPrefixOf_iff_prefix.1 hp).isInfix
    have h2 : ¬ pat <:+: cs := fun hi => h (hi.trans (List.suffix_cons c cs).isInfix)
    simp only [replaceAllAux, h1, Bool.false_eq_true, if_false, ih h2]

theorem replaceRunsAux_pos_true (p : Char → Bool) (c : Char) (cs : JsString)
    (h : p c = true) : replaceRunsAux p true (c :: cs) = replaceRunsAux p true cs := by
  simp [replaceRunsAux, h]

theorem replaceRunsAux_pos_false (p : Char → Bool) (c : Char) (cs : JsString)
    (h : p c = true) :
    replaceRunsAux p false (c :: cs) = ' ' :: replaceRunsAux p true cs := by
  simp [replaceRunsAux, h]

theorem replaceRunsAux_neg (p : Char → Bool) (b : Bool) (c : Char) (cs : JsString)
    (h : ¬ p c = true) :
    replaceRunsAux p b (c :: cs) = c :: replaceRunsAux p false cs := by
  simp [replaceRunsAux, h]

theorem wellSpaced_cons_pos (p : Char → Bool) (b : Bool) (c : Char) (cs : JsString)
    (h : p c = true) :
    WellSpaced p b (c :: cs) ↔ c = ' ' ∧ b = false ∧ WellSpaced p true cs := by
  simp [WellSpaced, h]

theorem wellSpaced_cons_neg (p : Char → Bool) (b : Bool) (c : Char) (cs : JsString)
    (h : ¬ p c = true) :
    WellSpaced p b (c :: cs) ↔ WellSpaced p false cs := by
  simp [WellSpaced, h]

theorem WellSpaced.weaken (p : Char → Bool) (s : JsString) (h : WellSpaced p true s) :
    WellSpaced p false s := by
  cases s with
  | nil => trivial
  | cons c cs =>
    by_cases hc : p c = true
    · rw [wellSpaced_cons_pos p _ c cs hc] at h
      exact absurd h.2.1 (by simp)
    · rw [wellSpaced_cons_neg p _ c cs hc] at h ⊢
      exact h

theorem WellSpaced.of_flag (p : Char → Bool) (b : Bool) (s : JsString)
    (h : WellSpaced p b s) : WellSpaced p false s := by
  cases b with
  | false => exact h
  | true => exact WellSpaced.weaken p s h

theorem wellSpaced_replaceRunsAux (p : Char → Bool) (hp : p ' ' = true) (b : Bool)
    (s : JsString) : WellSpaced p b (replaceRunsAux p b s) := by
  induction s generalizing b with
  | nil => simp [replaceRunsAux, WellSpaced]
  | cons c cs ih =>
    by_cases hc : p c = true
    · cases b with
      | true =>
        rw [replaceRunsAux_pos_true p c cs hc]
        exact ih true
      | false =>
        rw [replaceRunsAux_pos_false p c cs hc, wellSpaced_cons_pos p _ _ _ hp]
        exact ⟨rfl, rfl, ih true⟩
    · rw [replaceRunsAux_neg p b c cs hc, wellSpaced_cons_neg p _ c _ hc]
      exact ih false

theorem replaceRunsAux_eq_self (p : Char → Bool) (b : Bool) (s : JsString)
    (h : WellSpaced p b s) : replaceRunsAux p b s = s := by
  induction s generalizing b with
  | nil => rfl
  | cons c cs ih =>
    by_cases hc : p c = true
    · rw [wellSpaced_cons_pos p b c cs hc] at h
      obtain ⟨h1, h2, h3⟩ := h
      subst h2
      rw [replaceRunsAux_pos_false p c cs hc, ih true h3, h1]
    · rw [wellSpaced_cons_neg p b c cs hc] at h
      rw [replaceRunsAux_neg p b c cs hc, ih false h]

theorem WellSpaced.mono (p q : Char → Bool) (hqp : ∀ c, q c = true → p c = true)
    (b : Bool) (s : JsString) (h : WellSpaced p b s) : WellSpaced q b s := by
  induction s generalizing b with
  | nil => trivial
  | cons c cs ih =>
    by_cases hq : q c = true
    · rw [wellSpaced_cons_pos p b c cs (hqp c hq)] at h
      rw [wellSpaced_cons_pos q b c cs hq]
      exact ⟨h.1, h.2.1, ih true h.2.2⟩
    · rw [wellSpaced_cons_neg q b c cs hq]
      by_cases hc : p c = true
      · rw [wellSpaced_cons_pos p b c cs hc] at h
        exact WellSpaced.weaken q cs (ih true h.2.2)
      · rw [wellSpaced_cons_neg p b c cs hc] at h
        exact ih false h

theorem WellSpaced.of_append_right (p : Char → Bool) (b : Bool) (a s : JsString)
    (h : WellSpaced p b (a ++ s)) : WellSpaced p false s := by
  induction a generalizing b with
  | nil => exact WellSpaced.of_flag p b s h
  | cons c cs ih =>
    rw [List.cons_append] at h
    by_cases hc : p c = true
    · rw [wellSpaced_cons_pos p b c _ hc] at h
      exact ih true h.2.2
    · rw [wellSpaced_cons_neg p b c _ hc] at h
      exact ih false h

theorem WellSpaced.of_append_left (p : Char → Bool) (b : Bool) (s r : JsString)
    (h : WellSpaced p b (s ++ r)) : WellSpaced p b s := by
  induction s generalizing b with
  | nil => trivial
  | cons c cs ih =>
    rw [List.cons_append] at h
    by_cases hc : p c = true
    · rw [wellSpaced_cons_pos p b c _ hc] at h ⊢
      exact ⟨h.1, h.2.1, ih true h.2.2⟩
    · rw [wellSpaced_cons_neg p b c _ hc] at h ⊢
      exact ih false h

theorem WellSpaced.of_isInfix (p : Char → Bool) (s t : JsString) (hst : s <:+: t)
    (h : WellSpaced p false t) : WellSpaced p false s := by
  obtain ⟨a, r, rfl⟩ := hst
  rw [List.append_assoc] at h
  exact WellSpaced.of_append_left p false s r (WellSpaced.of_append_right p false a _ h)

theorem mem_replaceRunsAux (p : Char → Bool) (b : Bool) (s : JsString) (c : Char)
    (h : c ∈ replaceRunsAux p b s) : c = ' ' ∨ (c ∈ s ∧ p c = false) := by
  induction s generalizing b with
  | nil => simp [replaceRunsAux] at h
  | cons d ds ih =>
    by_cases hd : p d = true
    · cases b with
      | true =>
        rw [replaceRunsAux_pos_true p d ds hd] at h
        rcases ih true h with h1 | ⟨h1, h2⟩
        · exact Or.inl h1
        · exact Or.inr ⟨List.mem_cons_of_mem _ h1, h2⟩
      | false =>
        rw [replaceRunsAux_pos_false p d ds hd, List.mem_cons] at h
        rcases h with h | h
        · exact Or.inl h
        · rcases ih true h with h1 | ⟨h1, h2⟩
          · exact Or.inl h1
          · exact Or.inr ⟨List.mem_cons_of_mem _ h1, h2⟩
    · rw [replaceRunsAux_neg p b d ds hd, List.mem_cons] at h
      rcases h with h | h
      · right
        rw [h]
        exact ⟨List.mem_cons_self _ _, by simpa using hd⟩
      · rcases ih false h with h1 | ⟨h1, h2⟩
        · exact Or.inl h1
        · exact Or.inr ⟨List.mem_cons_of_mem _ h1, h2⟩

theorem trim_eq (s : JsString) :
    trim s = (s.dropWhile isWhiteSpace).rdropWhile isWhiteSpace := rfl

theorem trim_isInfix (s : JsString) : trim s <:+: s := by
  rw [trim_eq]
  exact ( List.rdropWhile_prefix isWhiteSpace _).isInfix.trans
    (List.dropWhile_suffix isWhiteSpace).isInfix

theorem trim_eq_self (s : JsString) (h : ∀ c ∈ s, isWhiteSpace c = false) :
    trim s = s := by
  rw [trim_eq]
  have h1 : s.dropWhile isWhiteSpace = s := by
    cases s with
    | nil => rfl
    | cons c cs => simp [List.dropWhile, h c (List.mem_cons_self _ _)]
  rw [h1, List.rdropWhile_eq_self_iff]
  intro hl
  simp [h _ (List.getLast_mem hl)]

theorem trim_trim (s : JsString) : trim (trim s) = trim s := by
  rw [trim_eq (trim s)]
  have h1 : (trim s).dropWhile isWhiteSpace = trim s := by
    rw [trim_eq]
    cases hd : s.dropWhile isWhiteSpace with
    | nil => simp
    | cons c cs =>
      have hc : isWhiteSpace c = false := by
        have := List.head?_dropWhile_not isWhiteSpace s
        rw [hd] at this
        simpa using this
      have hpre := List.rdropWhile_prefix isWhiteSpace (c :: cs)
      cases hr : (c :: cs).rdropWhile isWhiteSpace with
      | nil => rfl
      | cons e es =>
        rw [hr] at hpre
        obtain ⟨t, ht⟩ := hpre
        rw [List.cons_append] at ht
        have he : e = c := (List.cons.inj ht).1
        subst he
        simp [List.dropWhile, hc]
  rw [h1, trim_eq, List.rdropWhile_idempotent]

/-- Putting a character in front of the first piece. -/
theorem split_cons_sep (sep : Char) (cs : JsString) :
    split sep (sep :: cs) = [] :: split sep cs := by
  simp [split]

theorem split_ne_nil (sep : Char) (s : JsString) : split sep s ≠ [] := by
  cases s with
  | nil => simp [split]
  | cons c cs =>
    unfold split
    by_cases h : c = sep
    · simp [h]
    · rw [if_neg h]
      cases split sep cs <;> simp

theorem split_cons_ne (sep c : Char) (cs : JsString) (h : c ≠ sep) :
    ∃ w ws, split sep cs = w :: ws ∧ split sep (c :: cs) = (c :: w) :: ws := by
  cases hs : split sep cs with
  | nil => exact absurd hs (split_ne_nil sep cs)
  | cons w ws =>
    refine ⟨w, ws, rfl, ?_⟩
    simp [split, h, hs]

theorem mem_of_mem_split (sep : Char) (s w : JsString) (c : Char)
    (hw : w ∈ split sep s) (hc : c ∈ w) : c ∈ s ∧ c ≠ sep := by
  induction s generalizing w with
  | nil =>
    simp only [split, List.mem_singleton] at hw
    subst hw
    cases hc
  | cons d ds ih =>
    by_cases h : d = sep
    · subst h
      rw [split_cons_sep, List.mem_cons] at hw
      rcases hw with rfl | hw
      · cases hc
      · exact ⟨List.mem_cons_of_mem _ (ih w hw hc).1, (ih w hw hc).2⟩
    · obtain ⟨v, vs, hs, hs2⟩ := split_cons_ne sep d ds h
      rw [hs2, List.mem_cons] at hw
      rw [hs] at ih
      rcases hw with rfl | hw
      · rcases List.mem_cons.1 hc with rfl | hc2
        · exact ⟨List.mem_cons_self _ _, h⟩
        · have := ih v (List.mem_cons_self _ _) hc2
          exact ⟨List.mem_cons_of_mem _ this.1, this.2⟩
      · have := ih w (List.mem_cons_of_mem _ hw) hc
        exact ⟨List.mem_cons_of_mem _ this.1, this.2⟩

/-! ## Lemmas on `normalizeText` and `tokenize` -/

theorem toLowerCase_eq_self (s : JsString)
    (h : ∀ c ∈ s, isTokenChar c = true ∨ c = ' ') : toLowerCase s = s := by
  unfold toLowerCase
  induction s with
  | nil => rfl
  | cons c cs ih =>
    rw [List.flatMap_cons, ih (fun d hd => h d (List.mem_cons_of_mem _ hd))]
    rcases h c (List.mem_cons_self _ _) with hc | hc
    · rw [lowerChar_of_isTokenChar c hc]; rfl
    · rw [hc, lowerChar_space]; rfl

theorem wellSpaced_replaceRuns_notToken (x : JsString) :
    WellSpaced (fun c => !isTokenChar c) false
      (replaceRuns (fun c => !isTokenChar c) x) :=
  wellSpaced_replaceRunsAux _ (by decide) false x

theorem replaceRuns_isWhiteSpace_eq_self (u : JsString)
    (h : WellSpaced (fun c => !isTokenChar c) false u) :
    replaceRuns isWhiteSpace u = u := by
  apply replaceRunsAux_eq_self
  apply WellSpaced.mono (fun c => !isTokenChar c) isWhiteSpace _ false u h
  intro c hc
  simp [not_isTokenChar_of_isWhiteSpace c hc]

theorem normalizeText_eq (s : JsString) :
    normalizeText s = trim (replaceRuns (fun c => !isTokenChar c) (afterTerms s)) := by
  unfold normalizeText
  rw [replaceRuns_isWhiteSpace_eq_self _ (wellSpaced_replaceRuns_notToken _)]
  rfl

theorem normalizeText_chars (s : JsString) :
    ∀ c ∈ normalizeText s, isTokenChar c = true ∨ c = ' ' := by
  intro c hc
  rw [normalizeText_eq] at hc
  have h1 := (trim_isInfix _).subset hc
  rcases mem_replaceRunsAux _ false _ c h1 with h | ⟨_, h⟩
  · exact Or.inr h
  · left
    simpa using h

theorem normalizeText_wellSpaced (s : JsString) :
    WellSpaced (fun c => !isTokenChar c) false (normalizeText s) := by
  rw [normalizeText_eq]
  exact WellSpaced.of_isInfix _ _ _ (trim_isInfix _) (wellSpaced_replaceRuns_notToken _)

theorem trim_normalizeText (s : JsString) : trim (normalizeText s) = normalizeText s := by
  rw [normalizeText_eq, trim_trim]

/-- A text that has the shape of a normalized text and contains neither two-word
term is left as it is by `normalizeText`. -/
theorem normalizeText_eq_self (t : JsString)
    (hchars : ∀ c ∈ t, isTokenChar c = true ∨ c = ' ')
    (hspaced : WellSpaced (fun c => !isTokenChar c) false t)
    (htrim : trim t = t)
    (h1 : ¬ "rtk query".toList <:+: t) (h2 : ¬ "tanstack query".toList <:+: t) :
    normalizeText t = t := by
  have h0 : ¬ "next.js".toList <:+: t := by
    intro hi
    have hdot : '.' ∈ t := hi.subset (by decide)
    rcases hchars '.' hdot with h | h
    · exact absurd h (by decide)
    · exact absurd h (by decide)
  rw [normalizeText_eq]
  unfold afterTerms beforeTerms
  rw [toLowerCase_eq_self t hchars, replaceAll_eq_self _ _ t h0,
    replaceAll_eq_self _ _ t h1, replaceAll_eq_self _ _ t h2]
  unfold replaceRuns
  rw [replaceRunsAux_eq_self _ false t hspaced, htrim]

theorem trim_piece (s w : JsString) (hw : w ∈ split ' ' (normalizeText s)) :
    trim w = w ∧ ∀ c ∈ w, isTokenChar c = true := by
  have hall : ∀ c ∈ w, isTokenChar c = true := by
    intro c hc
    obtain ⟨h1, h2⟩ := mem_of_mem_split ' ' _ w c hw hc
    rcases normalizeText_chars s c h1 with h | h
    · exact h
    · exact absurd h h2
  refine ⟨trim_eq_self w ?_, hall⟩
  intro c hc
  by_contra hws
  rw [Bool.not_eq_false] at hws
  have := not_isTokenChar_of_isWhiteSpace c hws
  rw [hall c hc] at this
  cases this

theorem tokenize_eq (s : JsString) :
    tokenize s = (split ' ' (normalizeText s)).filter keepToken := by
  unfold tokenize
  have h : (split ' ' (normalizeText s)).map trim = split ' ' (normalizeText s) := by
    conv_rhs => rw [← List.map_id (split ' ' (normalizeText s))]
    apply List.map_congr_left
    intro w hw
    exact (trim_piece s w hw).1
  rw [h]
  rfl

/-! ## Lemmas on the words of a text -/

theorem splitAt_ne_nil (p : Char → Bool) (s : JsString) : splitAt p s ≠ [] := by
  cases s with
  | nil => simp [splitAt]
  | cons c cs =>
    unfold splitAt
    by_cases h : p c = true
    · simp [h]
    · rw [if_neg h]
      cases splitAt p cs <;> simp

theorem splitAt_cons_pos (p : Char → Bool) (c : Char) (cs : JsString) (h : p c = true) :
    splitAt p (c :: cs) = [] :: splitAt p cs := by
  simp [splitAt, h]

theorem splitAt_cons_neg (p : Char → Bool) (c : Char) (cs : JsString) (h : ¬ p c = true) :
    ∃ w ws, splitAt p cs = w :: ws ∧ splitAt p (c :: cs) = (c :: w) :: ws := by
  cases hs : splitAt p cs with
  | nil => exact absurd hs (splitAt_ne_nil p cs)
  | cons w ws =>
    refine ⟨w, ws, rfl, ?_⟩
    simp [splitAt, h, hs]

theorem split_eq_splitAt (sep : Char) (s : JsString) :
    split sep s = splitAt (fun c => c == sep) s := by
  induction s with
  | nil => rfl
  | cons c cs ih =>
    by_cases h : c = sep
    · subst h
      rw [split_cons_sep, splitAt_cons_pos _ _ _ (by simp), ih]
    · obtain ⟨w, ws, h1, h2⟩ := split_cons_ne sep c cs h
      obtain ⟨v, vs, h3, h4⟩ := splitAt_cons_neg (fun c => c == sep) c cs (by simpa using h)
      rw [h2, h4]
      rw [h1, h3] at ih
      rw [(List.cons.inj ih).1, (List.cons.inj ih).2]

theorem splitAt_append_sep (p : Char → Bool) (a b : JsString) (c : Char)
    (hc : p c = true) : splitAt p (a ++ c :: b) = splitAt p a ++ splitAt p b := by
  induction a with
  | nil => rw [List.nil_append, splitAt_cons_pos p c b hc]; rfl
  | cons d ds ih =>
    rw [List.cons_append]
    by_cases hd : p d = true
    · rw [splitAt_cons_pos p d _ hd, splitAt_cons_pos p d _ hd, ih]; rfl
    · obtain ⟨w, ws, h1, h2⟩ := splitAt_cons_neg p d ds hd
      obtain ⟨v, vs, h3, h4⟩ := splitAt_cons_neg p d (ds ++ c :: b) hd
      rw [h2, h4]
      rw [h1, h3, List.cons_append] at ih
      rw [(List.cons.inj ih).1, (List.cons.inj ih).2]; rfl

theorem mem_of_mem_splitAt (p : Char → Bool) (s w : JsString) (c : Char)
    (hw : w ∈ splitAt p s) (hc : c ∈ w) : c ∈ s := by
  induction s generalizing w with
  | nil =>
    simp only [splitAt, List.mem_singleton] at hw
    subst hw
    cases hc
  | cons d ds ih =>
    by_cases h : p d = true
    · rw [splitAt_cons_pos p d ds h, List.mem_cons] at hw
      rcases hw with rfl | hw
      · cases hc
      · exact List.mem_cons_of_mem _ (ih w hw hc)
    · obtain ⟨v, vs, hs, hs2⟩ := splitAt_cons_neg p d ds h
      rw [hs2, List.mem_cons] at hw
      rw [hs] at ih
      rcases hw with rfl | hw
      · rcases List.mem_cons.1 hc with rfl | hc2
        · exact List.mem_cons_self _ _
        · exact List.mem_cons_of_mem _ (ih v (List.mem_cons_self _ _) hc2)
      · exact List.mem_cons_of_mem _ (ih w (List.mem_cons_of_mem _ hw) hc)

/-- Replacing the runs of class `p` by a space and splitting at the spaces gives the
same non-empty pieces as splitting at every character of class `p`. -/
theorem split_replaceRunsAux (p : Char → Bool) (hp : p ' ' = true)
    (K : JsString → Bool) (hK : K [] = false) (y : JsString) :
    (∃ w ws ws', split ' ' (replaceRunsAux p false y) = w :: ws ∧
      splitAt p y = w :: ws' ∧ ws.filter K = ws'.filter K) ∧
    (split ' ' (replaceRunsAux p true y)).filter K = (splitAt p y).filter K := by
  induction y with
  | nil => exact ⟨⟨[], [], [], rfl, rfl, rfl⟩, rfl⟩
  | cons c cs ih =>
    obtain ⟨⟨w, ws, ws', h1, h2, h3⟩, h4⟩ := ih
    by_cases hc : p c = true
    · constructor
      · refine ⟨[], _, _, ?_, splitAt_cons_pos p c cs hc, h4⟩
        rw [replaceRunsAux_pos_false p c cs hc, split_cons_sep]
      · rw [replaceRunsAux_pos_true p c cs hc, splitAt_cons_pos p c cs hc, h4,
          List.filter_cons, hK]
        rfl
    · have hne : c ≠ ' ' := by
        intro he
        rw [he] at hc
        exact hc hp
      obtain ⟨v, vs, h5, h6⟩ := split_cons_ne ' ' c (replaceRunsAux p false cs) hne
      obtain ⟨u, us, h7, h8⟩ := splitAt_cons_neg p c cs hc
      rw [h1] at h5
      rw [h2] at h7
      have e1 := List.cons.inj h5
      have e2 := List.cons.inj h7
      constructor
      · refine ⟨c :: w, ws, ws', ?_, ?_, h3⟩
        · rw [replaceRunsAux_neg p false c cs hc, h6, ← e1.1, ← e1.2]
        · rw [h8, ← e2.1, ← e2.2]
      · rw [replaceRunsAux_neg p true c cs hc, h6, h8, ← e1.1, ← e1.2, ← e2.1, ← e2.2,
          List.filter_cons, List.filter_cons, h3]

theorem filter_split_replaceRuns (p : Char → Bool) (hp : p ' ' = true)
    (K : JsString → Bool) (hK : K [] = false) (y : JsString) :
    (split ' ' (replaceRuns p y)).filter K = (splitAt p y).filter K := by
  obtain ⟨⟨w, ws, ws', h1, h2, h3⟩, _⟩ := split_replaceRunsAux p hp K hK y
  unfold replaceRuns
  rw [h1, h2, List.filter_cons, List.filter_cons, h3]

theorem split_append_sep (sep : Char) (a b : JsString) :
    split sep (a ++ sep :: b) = split sep a ++ split sep b := by
  rw [split_eq_splitAt, split_eq_splitAt, split_eq_splitAt]
  exact splitAt_append_sep _ a b sep (by simp)

theorem filter_split_dropWhile (K : JsString → Bool) (hK : K [] = false) (u : JsString)
    (hu : ∀ c ∈ u, isWhiteSpace c = true → c = ' ') :
    (split ' ' (u.dropWhile isWhiteSpace)).filter K = (split ' ' u).filter K := by
  induction u with
  | nil => rfl
  | cons c cs ih =>
    by_cases hc : isWhiteSpace c = true
    · have hsp := hu c (List.mem_cons_self _ _) hc
      rw [List.dropWhile_cons_of_pos hc, ih (fun d hd => hu d (List.mem_cons_of_mem _ hd)),
        hsp, split_cons_sep, List.filter_cons, hK]
      rfl
    · rw [List.dropWhile_cons_of_neg hc]

theorem filter_split_rdropWhile (K : JsString → Bool) (hK : K [] = false) (u : JsString)
    (hu : ∀ c ∈ u, isWhiteSpace c = true → c = ' ') :
    (split ' ' (u.rdropWhile isWhiteSpace)).filter K = (split ' ' u).filter K := by
  induction u using List.reverseRecOn with
  | nil => rfl
  | append_singleton l c ih =>
    by_cases hc : isWhiteSpace c = true
    · have hsp := hu c (by simp) hc
      rw [List.rdropWhile_concat_pos _ _ _ hc,
        ih (fun d hd => hu d (List.mem_append_left _ hd)), hsp, split_append_sep,
        List.filter_append]
      simp [split, hK]
    · rw [List.rdropWhile_concat_neg _ _ _ hc]

theorem filter_split_trim (K : JsString → Bool) (hK : K [] = false) (u : JsString)
    (hu : ∀ c ∈ u, isWhiteSpace c = true → c = ' ') :
    (split ' ' (trim u)).filter K = (split ' ' u).filter K := by
  rw [trim_eq, filter_split_rdropWhile K hK, filter_split_dropWhile K hK u hu]
  intro c hc
  exact hu c ((List.dropWhile_suffix isWhiteSpace).subset hc)

/-- The tokens of a text are the kept pieces of the text after the substitutions,
split at every character outside `[a-z0-9-]`. -/
theorem tokenize_eq_splitAt (x : JsString) :
    tokenize x = (splitAt (fun c => !isTokenChar c) (afterTerms x)).filter keepToken := by
  have hK : keepToken [] = false := by decide
  rw [tokenize_eq, normalizeText_eq, filter_split_trim keepToken hK,
    filter_split_replaceRuns _ (by decide) keepToken hK]
  intro c hc hws
  rcases mem_replaceRunsAux _ false _ c hc with h | ⟨_, h⟩
  · exact h
  · have := not_isTokenChar_of_isWhiteSpace c hws
    simp [this] at h

/-! ## Lemmas on substitutions across a separator -/

theorem prefix_of_prefix_append_sep {pat a b : JsString} {c : Char}
    (h : pat <+: a ++ c :: b) (hc : c ∉ pat) : pat <+: a := by
  induction a generalizing pat with
  | nil =>
    cases pat with
    | nil => exact List.nil_prefix
    | cons p ps =>
      rw [List.nil_append, List.cons_prefix_cons] at h
      exact absurd (h.1 ▸ List.mem_cons_self p ps) hc
  | cons d ds ih =>
    cases pat with
    | nil => exact List.nil_prefix
    | cons p ps =>
      rw [List.cons_append, List.cons_prefix_cons] at h
      rw [List.cons_prefix_cons]
      exact ⟨h.1, ih h.2 (fun hm => hc (List.mem_cons_of_mem _ hm))⟩

theorem replaceAllAux_succ (pat rep : JsString) (k : Nat) (c : Char) (cs : JsString) :
    replaceAllAux pat rep (k + 1) (c :: cs) = replaceAllAux pat rep k cs := rfl

theorem replaceAllAux_zero_pos (pat rep : JsString) (c : Char) (cs : JsString)
    (h : pat <+: c :: cs) :
    replaceAllAux pat rep 0 (c :: cs)
      = rep ++ replaceAllAux pat rep (pat.length - 1) cs := by
  have := List.isPrefixOf_iff_prefix.2 h
  simp [replaceAllAux, this]

theorem replaceAllAux_zero_neg (pat rep : JsString) (c : Char) (cs : JsString)
    (h : ¬ pat <+: c :: cs) :
    replaceAllAux pat rep 0 (c :: cs) = c :: replaceAllAux pat rep 0 cs := by
  have : pat.isPrefixOf (c :: cs) = false := by
    rw [Bool.eq_false_iff]
    intro hp
    exact h ( List.isPrefixOf_iff_prefix.1 hp)
  simp [replaceAllAux, this]

theorem replaceAllAux_append_sep (pat rep a b : JsString) (c : Char)
    (hpat : pat ≠ []) (hc : c ∉ pat) (skip : Nat) (hskip : skip ≤ a.length) :
    replaceAllAux pat rep skip (a ++ c :: b)
      = replaceAllAux pat rep skip a ++ c :: replaceAllAux pat rep 0 b := by
  induction a generalizing skip with
  | nil =>
    have h0 : skip = 0 := by simpa using hskip
    subst h0
    have hn : ¬ pat <+: c :: b := by
      intro hp
      have := prefix_of_prefix_append_sep (a := []) hp hc
      exact hpat (List.prefix_nil.1 this)
    rw [List.nil_append, replaceAllAux_zero_neg pat rep c b hn]
    rfl
  | cons d ds ih =>
    rw [List.cons_append]
    cases skip with
    | succ k =>
      rw [replaceAllAux_succ, replaceAllAux_succ]
      exact ih k (by simpa using hskip)
    | zero =>
      by_cases hp : pat <+: d :: ds
      · have hp2 : pat <+: d :: (ds ++ c :: b) := by
          rw [← List.cons_append]
          exact hp.trans (List.prefix_append _ _)
        have hlen := hp.length_le
        rw [replaceAllAux_zero_pos pat rep d ds hp, replaceAllAux_zero_pos pat rep d _ hp2,
          ih (pat.length - 1) (by simp at hlen; omega), List.append_assoc]
      · have hp2 : ¬ pat <+: d :: (ds ++ c :: b) := by
          intro hq
          rw [← List.cons_append] at hq
          exact hp (prefix_of_prefix_append_sep hq hc)
        rw [replaceAllAux_zero_neg pat rep d ds hp, replaceAllAux_zero_neg pat rep d _ hp2,
          ih 0 (Nat.zero_le _)]
        rfl

theorem replaceAll_append_sep (pat rep a b : JsString) (c : Char)
    (hpat : pat ≠ []) (hc : c ∉ pat) :
    replaceAll pat rep (a ++ c :: b) = replaceAll pat rep a ++ c :: replaceAll pat rep b :=
  replaceAllAux_append_sep pat rep a b c hpat hc 0 (Nat.zero_le _)

theorem mem_replaceAllAux (pat rep : JsString) (k : Nat) (s : JsString) (c : Char)
    (h : c ∈ replaceAllAux pat rep k s) : c ∈ s ∨ c ∈ rep := by
  induction s generalizing k with
  | nil => simp [replaceAllAux] at h
  | cons d ds ih =>
    cases k with
    | succ k =>
      rw [replaceAllAux_succ] at h
      rcases ih k h with h1 | h1
      · exact Or.inl (List.mem_cons_of_mem _ h1)
      · exact Or.inr h1
    | zero =>
      by_cases hp : pat <+: d :: ds
      · rw [replaceAllAux_zero_pos pat rep d ds hp, List.mem_append] at h
        rcases h with h | h
        · exact Or.inr h
        · rcases ih _ h with h1 | h1
          · exact Or.inl (List.mem_cons_of_mem _ h1)
          · exact Or.inr h1
      · rw [replaceAllAux_zero_neg pat rep d ds hp, List.mem_cons] at h
        rcases h with h | h
        · exact Or.inl (h ▸ List.mem_cons_self _ _)
        · rcases ih _ h with h1 | h1
          · exact Or.inl (List.mem_cons_of_mem _ h1)
          · exact Or.inr h1

theorem replaceAll_hyphen (s : JsString) :
    replaceAll "-".toList " ".toList s = s.map (fun c => if c = '-' then ' ' else c) := by
  unfold replaceAll
  induction s with
  | nil => rfl
  | cons c cs ih =>
    by_cases hc : c = '-'
    · subst hc
      have hp : "-".toList <+: '-' :: cs := ⟨cs, rfl⟩
      rw [replaceAllAux_zero_pos _ _ _ _ hp]
      simp only [List.map_cons, if_true]
      have hl : "-".toList.length - 1 = 0 := rfl
      rw [hl, ih]
      rfl
    · have hp : ¬ "-".toList <+: c :: cs := by
        intro hq
        have h1 : "-".toList = ['-'] := rfl
        rw [h1, List.cons_prefix_cons] at hq
        exact hc hq.1.symm
      rw [replaceAllAux_zero_neg _ _ _ _ hp, ih]
      simp [hc]

theorem not_hyphen_mem_lowerChar (c : Char) (h : '-' ∈ lowerChar c) : c = '-' := by
  unfold lowerChar at h
  by_cases hA : 'A' ≤ c ∧ c ≤ 'Z'
  · rw [if_pos hA, List.mem_singleton, char_eq_iff] at h
    rw [char_le_iff, char_le_iff] at hA
    have h1 : 'A'.toNat = 65 := rfl
    have h2 : 'Z'.toNat = 90 := rfl
    have h3 : '-'.toNat = 45 := rfl
    have h4 : (Char.ofNat (c.toNat + 32)).toNat = c.toNat + 32 := by
      unfold Char.ofNat
      have hv : (c.toNat + 32).isValidChar := Or.inl (by omega)
      rw [dif_pos hv]
      rfl
    rw [h3, h4] at h
    omega
  · rw [if_neg hA] at h
    by_cases hK : c = Char.ofNat 0x212A
    · rw [if_pos hK] at h
      exact absurd h (by decide)
    · rw [if_neg hK] at h
      by_cases hI : c = Char.ofNat 0x0130
      · rw [if_pos hI] at h
        exact absurd h (by decide)
      · rw [if_neg hI, List.mem_singleton] at h
        exact h.symm

theorem not_hyphen_mem_beforeTerms (s : JsString) (hs : '-' ∉ s) :
    '-' ∉ beforeTerms s := by
  intro h
  unfold beforeTerms replaceAll at h
  rcases mem_replaceAllAux _ _ _ _ _ h with h1 | h1
  · unfold toLowerCase at h1
    obtain ⟨c, hc, hm⟩ := List.mem_flatMap.1 h1
    exact hs (not_hyphen_mem_lowerChar c hm ▸ hc)
  · exact absurd h1 (by decide)

theorem toLowerCase_append_space (a b : JsString) :
    toLowerCase (a ++ ' ' :: b) = toLowerCase a ++ ' ' :: toLowerCase b := by
  unfold toLowerCase
  rw [List.flatMap_append, List.flatMap_cons, lowerChar_space]
  rfl

theorem beforeTerms_append_space (a b : JsString) :
    beforeTerms (a ++ ' ' :: b) = beforeTerms a ++ ' ' :: beforeTerms b := by
  unfold beforeTerms
  rw [toLowerCase_append_space]
  exact replaceAll_append_sep _ _ _ _ ' ' (by decide) (by decide)

theorem afterTerms_eq_beforeTerms (x : JsString)
    (h1 : ¬ "rtk query".toList <:+: beforeTerms x)
    (h2 : ¬ "tanstack query".toList <:+: beforeTerms x) :
    afterTerms x = beforeTerms x := by
  unfold afterTerms
  rw [replaceAll_eq_self _ _ _ h1, replaceAll_eq_self _ _ _ h2]

/-! ## Lemmas on `join` -/

theorem join_cons_cons (sep x y : JsString) (rest : List JsString) :
    join sep (x :: y :: rest) = x ++ sep ++ join sep (y :: rest) := rfl

theorem join_singleton (sep x : JsString) : join sep [x] = x := rfl

theorem map_hyphen_eq_join (name : JsString) :
    name.map (fun c => if c = '-' then ' ' else c) = join [' '] (split '-' name) := by
  induction name with
  | nil => rfl
  | cons c cs ih =>
    by_cases hc : c = '-'
    · subst hc
      rw [split_cons_sep]
      obtain ⟨w, ws, hw⟩ := List.exists_cons_of_ne_nil (split_ne_nil '-' cs)
      rw [hw] at ih ⊢
      rw [join_cons_cons, ← ih]
      simp
    · obtain ⟨w, ws, h1, h2⟩ := split_cons_ne '-' c cs hc
      rw [h2, List.map_cons, if_neg hc, ih, h1]
      cases ws with
      | nil => rfl
      | cons v vs => rfl

theorem beforeTerms_join (ws : List JsString) (hne : ws ≠ []) :
    beforeTerms (join [' '] ws) = join [' '] (ws.map beforeTerms) := by
  induction ws with
  | nil => exact absurd rfl hne
  | cons x rest ih =>
    cases rest with
    | nil => rfl
    | cons y rest2 =>
      rw [join_cons_cons, List.map_cons, List.map_cons, join_cons_cons,
        List.append_assoc, List.singleton_append, beforeTerms_append_space,
        ih (by simp), List.map_cons, List.append_assoc, List.singleton_append]

theorem isInfix_join (sep : JsString) (ws : List JsString) (w : JsString) (hw : w ∈ ws) :
    w <:+: join sep ws := by
  induction ws with
  | nil => cases hw
  | cons x rest ih =>
    cases rest with
    | nil =>
      rw [List.mem_singleton] at hw
      rw [hw]
      exact List.infix_refl _
    | cons y rest2 =>
      rw [join_cons_cons]
      rcases List.mem_cons.1 hw with rfl | h
      · rw [List.append_assoc]
        exact (List.prefix_append _ _).isInfix
      · exact (ih h).trans (List.suffix_append _ _).isInfix

theorem filter_splitAt_join (p : Char → Bool) (hp : p ' ' = true)
    (K : JsString → Bool) (hK : K [] = false) (ys : List JsString) :
    (splitAt p (join [' '] ys)).filter K
      = ys.flatMap (fun y => (splitAt p y).filter K) := by
  induction ys with
  | nil => simp [join, splitAt, hK]
  | cons x rest ih =>
    cases rest with
    | nil => simp [join]
    | cons y rest2 =>
      rw [join_cons_cons, List.append_assoc, List.singleton_append,
        splitAt_append_sep p _ _ ' ' hp, List.filter_append, ih]
      simp only [List.flatMap_cons]

/-! ## Lemmas on the default string order -/

theorem char_valid (c : Char) :
    c.toNat < 0xD800 ∨ (0xDFFF < c.toNat ∧ c.toNat < 0x110000) := c.valid

theorem compareUnits_antisymm (a b : List Nat) :
    compareUnits a b ≤ 0 → compareUnits b a ≤ 0 → a = b := by
  induction a generalizing b with
  | nil => cases b <;> simp [compareUnits]
  | cons x xs ih =>
    cases b with
    | nil => simp [compareUnits]
    | cons y ys =>
      simp only [compareUnits]
      by_cases h1 : x < y
      · have h2 : ¬ y < x := by omega
        simp [h1, h2]
      · by_cases h2 : y < x
        · simp [h1, h2]
        · have : x = y := by omega
          subst this
          simp only [h1, if_false]
          intro h3 h4
          rw [ih ys h3 h4]

theorem codeUnits_cons (c : Char) (cs : JsString) :
    codeUnits (c :: cs)
      = (if c.toNat < 0x10000 then [c.toNat]
         else [0xD800 + (c.toNat - 0x10000) / 0x400,
               0xDC00 + (c.toNat - 0x10000) % 0x400]) ++ codeUnits cs := by
  simp [codeUnits]

theorem codeUnits_injective (a b : JsString) (h : codeUnits a = codeUnits b) : a = b := by
  induction a generalizing b with
  | nil =>
    cases b with
    | nil => rfl
    | cons d ds =>
      rw [codeUnits_cons] at h
      by_cases hd : d.toNat < 0x10000
      · rw [if_pos hd] at h
        cases h
      · rw [if_neg hd] at h
        cases h
  | cons c cs ih =>
    cases b with
    | nil =>
      rw [codeUnits_cons] at h
      by_cases hc : c.toNat < 0x10000
      · rw [if_pos hc] at h
        cases h
      · rw [if_neg hc] at h
        cases h
    | cons d ds =>
      rw [codeUnits_cons, codeUnits_cons] at h
      have vc := char_valid c
      have vd := char_valid d
      by_cases hc : c.toNat < 0x10000
      · by_cases hd : d.toNat < 0x10000
        · rw [if_pos hc, if_pos hd] at h
          simp only [List.singleton_append, List.cons.injEq] at h
          rw [(char_eq_iff c d).2 h.1, ih ds h.2]
        · rw [if_pos hc, if_neg hd] at h
          simp only [List.singleton_append, List.cons_append, List.nil_append,
            List.cons.injEq] at h
          omega
      · by_cases hd : d.toNat < 0x10000
        · rw [if_neg hc, if_pos hd] at h
          simp only [List.singleton_append, List.cons_append, List.nil_append,
            List.cons.injEq] at h
          omega
        · rw [if_neg hc, if_neg hd] at h
          simp only [List.cons_append, List.nil_append, List.cons.injEq] at h
          have e : c.toNat = d.toNat := by omega
          rw [(char_eq_iff c d).2 e, ih ds h.2.2]

theorem defaultCompare_antisymm (a b : JsString)
    (h1 : defaultCompare a b ≤ 0) (h2 : defaultCompare b a ≤ 0) : a = b :=
  codeUnits_injective a b (compareUnits_antisymm _ _ h1 h2)

theorem mem_sortBy {α : Type} (cmp : α → α → Int) (l : List α) (x : α) :
    x ∈ sortBy cmp l ↔ x ∈ l :=
  (List.perm_insertionSort (fun a b => cmp a b ≤ 0) l).mem_iff

theorem sortDefault_singleton (x : JsString) : sortDefault [x] = [x] := rfl

theorem sortDefault_pair (x y : JsString) :
    sortDefault [x, y] = if defaultCompare x y ≤ 0 then [x, y] else [y, x] := by
  simp [sortDefault, sortBy, List.insertionSort, List.orderedInsert]

theorem sortDefault_pair_comm (x y : JsString) (hxy : x ≠ y) :
    sortDefault [y, x] = sortDefault [x, y] := by
  rw [sortDefault_pair, sortDefault_pair]
  by_cases h1 : defaultCompare x y ≤ 0
  · have h2 : ¬ defaultCompare y x ≤ 0 := fun h2 => hxy (defaultCompare_antisymm x y h1 h2)
    rw [if_pos h1, if_neg h2]
  · have h2 : defaultCompare y x ≤ 0 := by
      rcases defaultCompare_consistent.total x y with h | h
      · exact absurd h h1
      · exact h
    rw [if_neg h1, if_pos h2]

theorem mem_setFromArray (l : List JsString) (x : JsString) :
    x ∈ setFromArray l ↔ x ∈ l := by
  induction l with
  | nil => simp [setFromArray]
  | cons a as ih =>
    simp only [setFromArray, List.mem_cons, List.mem_filter, ih, decide_eq_true_eq]
    by_cases h : x = a
    · simp [h]
    · simp [h]

theorem length_join_pair (sep x y : JsString) :
    (join sep [x, y]).length = x.length + sep.length + y.length := by
  simp [join, Nat.add_assoc]

/-! ## Lemmas on the record checks -/

theorem splitLines_nil : splitLines [] = [[]] := by simp [splitLines]

theorem splitLines_lf (cs : JsString) : splitLines ('\n' :: cs) = [] :: splitLines cs := by
  simp [splitLines]

theorem splitLines_crlf (cs : JsString) :
    splitLines ('\r' :: '\n' :: cs) = [] :: splitLines cs := by
  simp [splitLines]

theorem splitLines_other (c : Char) (cs : JsString) (h1 : c ≠ '\n')
    (h2 : ¬ (c = '\r' ∧ ∃ cs', cs = '\n' :: cs')) :
    splitLines (c :: cs) = consHead c (splitLines cs) := by
  conv_lhs => unfold splitLines
  split
  · rename_i h; cases h
  · rename_i h
    injection h with ha hb
    exact absurd ⟨ha, _, hb⟩ h2
  · rename_i h
    injection h with ha hb
    exact absurd ha h1
  · rename_i h
    injection h with ha hb
    subst ha; subst hb
    rfl

theorem consHead_ne_nil (c : Char) (l : List JsString) : consHead c l ≠ [] := by
  cases l <;> simp [consHead]

theorem splitLines_ne_nil (s : JsString) : splitLines s ≠ [] := by
  cases s with
  | nil => simp [splitLines]
  | cons c cs =>
    by_cases h1 : c = '\n'
    · subst h1
      rw [splitLines_lf]
      simp
    · by_cases h2 : c = '\r' ∧ ∃ cs', cs = '\n' :: cs'
      · obtain ⟨hc, cs', hcs⟩ := h2
        subst hc
        subst hcs
        rw [splitLines_crlf]
        simp
      · rw [splitLines_other c cs h1 h2]
        exact consHead_ne_nil _ _

theorem ofKind_append (kind : IssueKind) (a b : List Issue) :
    ofKind kind (a ++ b) = ofKind kind a ++ ofKind kind b := by
  simp [ofKind]

theorem ofKind_of_kinds (kind : IssueKind) (issues : List Issue) (kinds : List IssueKind)
    (h : ∀ issue ∈ issues, issue.kind ∈ kinds) (hk : kind ∉ kinds) :
    ofKind kind issues = [] := by
  unfold ofKind
  rw [List.filter_eq_nil_iff]
  intro issue hi
  simp only [beq_iff_eq]
  intro he
  exact hk (he ▸ h issue hi)

theorem kinds_sizeErrors (relFile : JsString) (lines words : Nat) :
    ∀ issue ∈ sizeErrors relFile lines words,
      issue.kind ∈ [IssueKind.hardLineLimit, IssueKind.hardWordLimit] := by
  intro issue hi
  unfold sizeErrors at hi
  rw [List.mem_append] at hi
  rcases hi with hi | hi
  · split at hi
    · rw [List.mem_singleton] at hi
      rw [hi]
      simp [Issue.kind]
    · cases hi
  · split at hi
    · rw [List.mem_singleton] at hi
      rw [hi]
      simp [Issue.kind]
    · cases hi

theorem kinds_sizeWarnings (relFile : JsString) (lines words : Nat) :
    ∀ issue ∈ sizeWarnings relFile lines words,
      issue.kind ∈ [IssueKind.softLineBudget, IssueKind.softWordBudget] := by
  intro issue hi
  unfold sizeWarnings at hi
  rw [List.mem_append] at hi
  rcases hi with hi | hi
  · split at hi
    · cases hi
    · split at hi
      · rw [List.mem_singleton] at hi
        rw [hi]
        simp [Issue.kind]
      · cases hi
  · split at hi
    · cases hi
    · split at hi
      · rw [List.mem_singleton] at hi
        rw [hi]
        simp [Issue.kind]
      · cases hi

theorem kinds_keyErrors (relFile : JsString) (keys : List JsString) :
    ∀ issue ∈ keyErrors relFile keys,
      issue.kind ∈ [IssueKind.missingRequired, IssueKind.unsupportedKeys] := by
  intro issue hi
  unfold keyErrors at hi
  rw [List.mem_append] at hi
  rcases hi with hi | hi
  · split at hi
    · rw [List.mem_singleton] at hi
      rw [hi]
      simp [Issue.kind]
    · cases hi
  · split at hi
    · rw [List.mem_singleton] at hi
      rw [hi]
      simp [Issue.kind]
    · cases hi

theorem kinds_brokenLinks (relFile : JsString) (links : List JsString) :
    ∀ issue ∈ links.map (fun rawLink => Issue.brokenLink relFile rawLink),
      issue.kind ∈ [IssueKind.brokenLink] := by
  intro issue hi
  obtain ⟨l, _, rfl⟩ := List.mem_map.1 hi
  simp [Issue.kind]

theorem kinds_companion_errors (toUpperCase : Char → JsString)
    (relDir declaredName : JsString)
    (openaiYaml : Option JsString) :
    ∀ issue ∈ (companionIssues toUpperCase relDir declaredName openaiYaml).1,
      issue.kind ∈ [IssueKind.missingCompanion, IssueKind.missingYamlKey] := by
  intro issue hi
  unfold companionIssues at hi
  cases openaiYaml with
  | none =>
    simp only [List.mem_singleton] at hi
    rw [hi]
    simp [Issue.kind]
  | some raw =>
    simp only at hi
    obtain ⟨k, _, rfl⟩ := List.mem_map.1 hi
    simp [Issue.kind]

theorem kinds_companion_warnings (toUpperCase : Char → JsString)
    (relDir declaredName : JsString)
    (openaiYaml : Option JsString) :
    ∀ issue ∈ (companionIssues toUpperCase relDir declaredName openaiYaml).2,
      issue.kind ∈ [IssueKind.displayNameMismatch, IssueKind.shortDescriptionTooLong] := by
  intro issue hi
  unfold companionIssues at hi
  cases openaiYaml with
  | none => cases hi
  | some raw =>
    simp only at hi
    rw [List.mem_append] at hi
    rcases hi with hi | hi
    · split at hi
      · split at hi
        · rw [List.mem_singleton] at hi
          rw [hi]
          simp [Issue.kind]
        · cases hi
      · cases hi
    · split at hi
      · split at hi
        · rw [List.mem_singleton] at hi
          rw [hi]
          simp [Issue.kind]
        · cases hi
      · cases hi

theorem kinds_references_errors (targetExists : JsString → JsString → Bool)
    (relDir relFile content : JsString) (lines words : Nat)
    (references : Option (List (JsString × JsString))) :
    ∀ issue ∈ (referencesIssues targetExists relDir relFile content lines words
        references).1,
      issue.kind ∈ [IssueKind.brokenLink] := by
  intro issue hi
  unfold referencesIssues at hi
  cases references with
  | none => cases hi
  | some files =>
    simp only at hi
    obtain ⟨file, _, hfile⟩ := List.mem_flatMap.1 hi
    obtain ⟨l, _, rfl⟩ := List.mem_map.1 hfile
    simp [Issue.kind]

theorem kinds_references_warnings (targetExists : JsString → JsString → Bool)
    (relDir relFile content : JsString) (lines words : Nat)
    (references : Option (List (JsString × JsString))) :
    ∀ issue ∈ (referencesIssues targetExists relDir relFile content lines words
        references).2,
      issue.kind ∈ [IssueKind.referencesNotMentioned, IssueKind.emptyReferences,
        IssueKind.largeWithoutReferences] := by
  intro issue hi
  unfold referencesIssues at hi
  cases references with
  | none =>
    simp only at hi
    split at hi
    · rw [List.mem_singleton] at hi
      rw [hi]
      simp [Issue.kind]
    · cases hi
  | some files =>
    simp only at hi
    rw [List.mem_append] at hi
    rcases hi with hi | hi
    · split at hi
      · cases hi
      · rw [List.mem_singleton] at hi
        rw [hi]
        simp [Issue.kind]
    · split at hi
      · rw [List.mem_singleton] at hi
        rw [hi]
        simp [Issue.kind]
      · cases hi

/-! ## The four ways through the checks of one record -/

theorem checkSkillDir_not_directory (toUpperCase : Char → JsString)
    (targetExists : JsString → JsString → Bool)
    (category : JsString) (entry : SkillEntry) (hdir : entry.isDirectory = false) :
    checkSkillDir toUpperCase targetExists category entry = ([], []) := by
  unfold checkSkillDir
  simp [hdir]

theorem checkSkillDir_no_file (toUpperCase : Char → JsString)
    (targetExists : JsString → JsString → Bool)
    (category : JsString) (entry : SkillEntry) (hdir : entry.isDirectory = true)
    (hfile : entry.skillFile = none) :
    checkSkillDir toUpperCase targetExists category entry
      = ([Issue.missingSkillFile (relDirOf category entry)], []) := by
  unfold checkSkillDir
  simp [hdir, hfile, relDirOf]

theorem checkSkillDir_no_opening (toUpperCase : Char → JsString)
    (targetExists : JsString → JsString → Bool)
    (category : JsString) (entry : SkillEntry) (raw : JsString)
    (hdir : entry.isDirectory = true) (hfile : entry.skillFile = some raw)
    (hopen : startsWith (readUtf8 raw) "---\n".toList = false
      ∧ startsWith (readUtf8 raw) "---\r\n".toList = false) :
    checkSkillDir toUpperCase targetExists category entry
      = (sizeErrors (relFileOf category entry) (splitLines (readUtf8 raw)).length
            (countWords (readUtf8 raw))
          ++ [Issue.missingOpening (relFileOf category entry)],
         sizeWarnings (relFileOf category entry) (splitLines (readUtf8 raw)).length
            (countWords (readUtf8 raw))) := by
  have hcond : (!startsWith (readUtf8 raw) "---\n".toList
      && !startsWith (readUtf8 raw) "---\r\n".toList) = true := by
    rw [hopen.1, hopen.2]
    rfl
  unfold checkSkillDir
  simp only [hdir, hfile, hcond, relFileOf, relDirOf, Bool.not_true,
    Bool.false_eq_true, if_false, if_true]

theorem checkSkillDir_no_closing (toUpperCase : Char → JsString)
    (targetExists : JsString → JsString → Bool)
    (category : JsString) (entry : SkillEntry) (raw : JsString)
    (hdir : entry.isDirectory = true) (hfile : entry.skillFile = some raw)
    (hopen : startsWith (readUtf8 raw) "---\n".toList = true
      ∨ startsWith (readUtf8 raw) "---\r\n".toList = true)
    (hclose : secondSepIndex (splitLines (readUtf8 raw)) = none) :
    checkSkillDir toUpperCase targetExists category entry
      = (sizeErrors (relFileOf category entry) (splitLines (readUtf8 raw)).length
            (countWords (readUtf8 raw))
          ++ [Issue.missingClosing (relFileOf category entry)],
         sizeWarnings (relFileOf category entry) (splitLines (readUtf8 raw)).length
            (countWords (readUtf8 raw))) := by
  have hcond : (!startsWith (readUtf8 raw) "---\n".toList
      && !startsWith (readUtf8 raw) "---\r\n".toList) = false := by
    rcases hopen with h | h <;>
      simp only [h, Bool.not_true, Bool.and_false, Bool.false_and]
  unfold checkSkillDir
  simp only [hdir, hfile, hcond, hclose, relFileOf, relDirOf, Bool.not_true,
    Bool.false_eq_true, if_false]

theorem checkSkillDir_no_name_line (toUpperCase : Char → JsString)
    (targetExists : JsString → JsString → Bool)
    (category : JsString) (entry : SkillEntry) (raw : JsString)
    (frontmatterLines : List JsString)
    (hdir : entry.isDirectory = true) (hfile : entry.skillFile = some raw)
    (hopen : startsWith (readUtf8 raw) "---\n".toList = true
      ∨ startsWith (readUtf8 raw) "---\r\n".toList = true)
    (hclose : frontmatterLinesOf (readUtf8 raw) = some frontmatterLines)
    (hname : frontmatterLines.find? (fun line => startsWith line "name:".toList) = none) :
    checkSkillDir toUpperCase targetExists category entry
      = (sizeErrors (relFileOf category entry) (splitLines (readUtf8 raw)).length
            (countWords (readUtf8 raw))
          ++ keyErrors (relFileOf category entry) (frontmatterKeys frontmatterLines),
         sizeWarnings (relFileOf category entry) (splitLines (readUtf8 raw)).length
            (countWords (readUtf8 raw))) := by
  have hcond : (!startsWith (readUtf8 raw) "---\n".toList
      && !startsWith (readUtf8 raw) "---\r\n".toList) = false := by
    rcases hopen with h | h <;>
      simp only [h, Bool.not_true, Bool.and_false, Bool.false_and]
  unfold frontmatterLinesOf at hclose
  cases hidx : secondSepIndex (splitLines (readUtf8 raw)) with
  | none => rw [hidx] at hclose; cases hclose
  | some index =>
    rw [hidx] at hclose
    have hlines := Option.some.inj hclose
    unfold checkSkillDir
    simp only [hdir, hfile, hcond, hidx, hlines, hname, relFileOf, relDirOf, Bool.not_true,
      Bool.false_eq_true, if_false]

theorem checkSkillDir_full (toUpperCase : Char → JsString)
    (targetExists : JsString → JsString → Bool)
    (category : JsString) (entry : SkillEntry) (raw : JsString)
    (frontmatterLines : List JsString) (nameLine : JsString)
    (hdir : entry.isDirectory = true) (hfile : entry.skillFile = some raw)
    (hopen : startsWith (readUtf8 raw) "---\n".toList = true
      ∨ startsWith (readUtf8 raw) "---\r\n".toList = true)
    (hclose : frontmatterLinesOf (readUtf8 raw) = some frontmatterLines)
    (hname : frontmatterLines.find? (fun line => startsWith line "name:".toList)
      = some nameLine) :
    checkSkillDir toUpperCase targetExists category entry
      = (sizeErrors (relFileOf category entry) (splitLines (readUtf8 raw)).length
            (countWords (readUtf8 raw))
          ++ keyErrors (relFileOf category entry) (frontmatterKeys frontmatterLines)
          ++ (if trim (replaceFirst "name:".toList [] nameLine) != entry.name then
                [Issue.nameMismatch (relFileOf category entry) entry.name
                  (trim (replaceFirst "name:".toList [] nameLine))] else [])
          ++ (checkMarkdownLinks (targetExists (relFileOf category entry))
                (readUtf8 raw)).map
              (fun rawLink => Issue.brokenLink (relFileOf category entry) rawLink)
          ++ (companionIssues toUpperCase (relDirOf category entry)
                (trim (replaceFirst "name:".toList [] nameLine)) entry.openaiYaml).1
          ++ (referencesIssues targetExists (relDirOf category entry)
                (relFileOf category entry) (readUtf8 raw)
                (splitLines (readUtf8 raw)).length (countWords (readUtf8 raw))
                entry.references).1,
         sizeWarnings (relFileOf category entry) (splitLines (readUtf8 raw)).length
            (countWords (readUtf8 raw))
          ++ (companionIssues toUpperCase (relDirOf category entry)
                (trim (replaceFirst "name:".toList [] nameLine)) entry.openaiYaml).2
          ++ (referencesIssues targetExists (relDirOf category entry)
                (relFileOf category entry) (readUtf8 raw)
                (splitLines (readUtf8 raw)).length (countWords (readUtf8 raw))
                entry.references).2) := by
  have hcond : (!startsWith (readUtf8 raw) "---\n".toList
      && !startsWith (readUtf8 raw) "---\r\n".toList) = false := by
    rcases hopen with h | h <;>
      simp only [h, Bool.not_true, Bool.and_false, Bool.false_and]
  unfold frontmatterLinesOf at hclose
  cases hidx : secondSepIndex (splitLines (readUtf8 raw)) with
  | none => rw [hidx] at hclose; cases hclose
  | some index =>
    rw [hidx] at hclose
    have hlines := Option.some.inj hclose
    unfold checkSkillDir
    simp only [hdir, hfile, hcond, hidx, hlines, hname, relFileOf, relDirOf, Bool.not_true,
      Bool.false_eq_true, if_false]

theorem replaceFirst_of_startsWith (pat rep s : JsString)
    (h : startsWith s pat = true) : replaceFirst pat rep s = rep ++ s.drop pat.length := by
  unfold startsWith at h
  cases s with
  | nil =>
    have : pat = [] := by
      cases pat with
      | nil => rfl
      | cons p ps => simp [List.isPrefixOf] at h
    subst this
    simp [replaceFirst]
  | cons c cs => simp [replaceFirst, h]

/-! ## The word count -/

theorem consHead_eq (c : Char) (w : JsString) (ws : List JsString) :
    consHead c (w :: ws) = (c :: w) :: ws := rfl

theorem splitRunsAux_ne_nil (p : Char → Bool) (b : Bool) (s : JsString) :
    splitRunsAux p b s ≠ [] := by
  induction s generalizing b with
  | nil => simp [splitRunsAux]
  | cons c cs ih =>
    unfold splitRunsAux
    by_cases hc : p c = true
    · cases b
      · simp [hc]
      · simpa [hc] using ih true
    · simp only [hc, Bool.false_eq_true, if_false]
      exact consHead_ne_nil _ _

theorem mem_splitRunsAux (p : Char → Bool) (b : Bool) (s w : JsString)
    (hw : w ∈ splitRunsAux p b s) : ∀ c ∈ w, p c = false := by
  induction s generalizing b w with
  | nil =>
    simp only [splitRunsAux, List.mem_singleton] at hw
    subst hw
    intro c hc
    cases hc
  | cons d ds ih =>
    unfold splitRunsAux at hw
    by_cases hd : p d = true
    · cases b with
      | true =>
        simp only [hd, if_true] at hw
        exact ih true w hw
      | false =>
        simp only [hd, if_true, Bool.false_eq_true, if_false, List.mem_cons] at hw
        rcases hw with rfl | hw
        · intro c hc
          cases hc
        · exact ih true w hw
    · simp only [hd, Bool.false_eq_true, if_false] at hw
      obtain ⟨v, vs, hv⟩ := List.exists_cons_of_ne_nil (splitRunsAux_ne_nil p false ds)
      rw [hv, consHead_eq, List.mem_cons] at hw
      rcases hw with rfl | hw
      · intro c hc
        rcases List.mem_cons.1 hc with rfl | hc2
        · simpa using hd
        · exact ih false v (hv ▸ List.mem_cons_self _ _) c hc2
      · exact ih false w (hv ▸ List.mem_cons_of_mem _ hw)

theorem splitRunsAux_count (s : JsString) :
    (∀ b, ((splitRunsAux isWhiteSpace b s).filter (fun t => !t.isEmpty)).length
        = wordRunsAux false s) ∧
    ∃ w ws, splitRunsAux isWhiteSpace false s = w :: ws ∧
      ((w :: ws).filter (fun t => !t.isEmpty)).length + (if w = [] then 1 else 0)
        = 1 + wordRunsAux true s := by
  induction s with
  | nil =>
    refine ⟨fun b => by simp [splitRunsAux, wordRunsAux], [], [], by simp [splitRunsAux], ?_⟩
    simp [wordRunsAux]
  | cons c cs ih =>
    obtain ⟨ih1, w, ws, hw, ih2⟩ := ih
    by_cases hc : isWhiteSpace c = true
    · constructor
      · intro b
        cases b with
        | true => simpa [splitRunsAux, wordRunsAux, hc] using ih1 true
        | false => simpa [splitRunsAux, wordRunsAux, hc] using ih1 true
      · refine ⟨[], splitRunsAux isWhiteSpace true cs, by simp [splitRunsAux, hc], ?_⟩
        have := ih1 true
        simp only [List.filter_cons, List.isEmpty_nil, Bool.not_true, Bool.false_eq_true,
          if_false, if_true, wordRunsAux, hc]
        omega
    · have hsplit : ∀ b, splitRunsAux isWhiteSpace b (c :: cs) = (c :: w) :: ws := by
        intro b
        simp [splitRunsAux, hc, hw, consHead]
      have hws : (ws.filter (fun t => !t.isEmpty)).length = wordRunsAux true cs := by
        by_cases hwe : w = []
        · subst hwe
          simp only [List.filter_cons, List.isEmpty_nil, Bool.not_true, Bool.false_eq_true,
            if_false, if_true] at ih2
          omega
        · have hne : (!w.isEmpty) = true := by
            cases w with
            | nil => exact absurd rfl hwe
            | cons _ _ => rfl
          simp only [List.filter_cons, hne, if_true, List.length_cons, if_neg hwe] at ih2
          omega
      constructor
      · intro b
        rw [hsplit b]
        simp only [List.filter_cons, List.isEmpty_cons, Bool.not_false, if_true,
          List.length_cons, wordRunsAux, hc, Bool.false_eq_true, if_false, hws]
        omega
      · refine ⟨c :: w, ws, hsplit false, ?_⟩
        simp only [List.filter_cons, List.isEmpty_cons, Bool.not_false, if_true,
          List.length_cons, wordRunsAux, hc, Bool.false_eq_true, if_false, hws]
        simp
        omega

/-- The count of `countWords` is the number of maximal runs of characters that are not
white space. -/
theorem countWords_eq_wordRuns (text : JsString) : countWords text = wordRuns text := by
  unfold countWords wordRuns splitRuns
  have h : (splitRunsAux isWhiteSpace false text).map trim
      = splitRunsAux isWhiteSpace false text := by
    conv_rhs => rw [← List.map_id (splitRunsAux isWhiteSpace false text)]
    apply List.map_congr_left
    intro w hw
    exact trim_eq_self w (mem_splitRunsAux _ _ _ w hw)
  rw [h]
  exact (splitRunsAux_count text).1 false

/-! ## The shape of the messages of one record -/

theorem kind_mem_of_subset {kind : IssueKind} {small large : List IssueKind}
    (h : kind ∈ small) (hsub : ∀ k ∈ small, k ∈ large) : kind ∈ large :=
  hsub kind h

/-- The messages of a record with a `SKILL.md` start with the size messages, and no
later message is a size message. -/
theorem checkSkillDir_shape (toUpperCase : Char → JsString)
    (targetExists : JsString → JsString → Bool)
    (category : JsString) (entry : SkillEntry) (raw : JsString)
    (hdir : entry.isDirectory = true) (hfile : entry.skillFile = some raw) :
    ∃ laterErrors laterWarnings,
      checkSkillDir toUpperCase targetExists category entry
        = (sizeErrors (relFileOf category entry) (splitLines (readUtf8 raw)).length
              (countWords (readUtf8 raw)) ++ laterErrors,
           sizeWarnings (relFileOf category entry) (splitLines (readUtf8 raw)).length
              (countWords (readUtf8 raw)) ++ laterWarnings) ∧
      (∀ issue ∈ laterErrors, issue.kind ∈ laterErrorKinds) ∧
      (∀ issue ∈ laterWarnings, issue.kind ∈ laterWarningKinds) := by
  by_cases hopen : startsWith (readUtf8 raw) "---\n".toList = true
      ∨ startsWith (readUtf8 raw) "---\r\n".toList = true
  · cases hlines : frontmatterLinesOf (readUtf8 raw) with
    | none =>
      have hclose : secondSepIndex (splitLines (readUtf8 raw)) = none := by
        unfold frontmatterLinesOf at hlines
        cases h : secondSepIndex (splitLines (readUtf8 raw)) with
        | none => rfl
        | some i => rw [h] at hlines; cases hlines
      refine ⟨[Issue.missingClosing (relFileOf category entry)], [], ?_, ?_, ?_⟩
      · rw [checkSkillDir_no_closing toUpperCase targetExists category entry raw hdir hfile hopen hclose,
          List.append_nil]
      · intro issue hi
        rw [List.mem_singleton] at hi
        rw [hi]
        simp [Issue.kind, laterErrorKinds]
      · intro issue hi
        cases hi
    | some frontmatterLines =>
      cases hname : frontmatterLines.find? (fun line => startsWith line "name:".toList) with
      | none =>
        refine ⟨keyErrors (relFileOf category entry) (frontmatterKeys frontmatterLines),
          [], ?_, ?_, ?_⟩
        · rw [checkSkillDir_no_name_line toUpperCase targetExists category entry raw frontmatterLines
            hdir hfile hopen hlines hname, List.append_nil]
        · intro issue hi
          exact kind_mem_of_subset (kinds_keyErrors _ _ issue hi) (by decide)
        · intro issue hi
          cases hi
      | some nameLine =>
        refine ⟨keyErrors (relFileOf category entry) (frontmatterKeys frontmatterLines)
            ++ ((if trim (replaceFirst "name:".toList [] nameLine) != entry.name then
                  [Issue.nameMismatch (relFileOf category entry) entry.name
                    (trim (replaceFirst "name:".toList [] nameLine))] else [])
            ++ ((checkMarkdownLinks (targetExists (relFileOf category entry))
                  (readUtf8 raw)).map
                (fun rawLink => Issue.brokenLink (relFileOf category entry) rawLink)
            ++ ((companionIssues toUpperCase (relDirOf category entry)
                  (trim (replaceFirst "name:".toList [] nameLine)) entry.openaiYaml).1
            ++ (referencesIssues targetExists (relDirOf category entry)
                  (relFileOf category entry) (readUtf8 raw)
                  (splitLines (readUtf8 raw)).length (countWords (readUtf8 raw))
                  entry.references).1))),
          (companionIssues toUpperCase (relDirOf category entry)
              (trim (replaceFirst "name:".toList [] nameLine)) entry.openaiYaml).2
            ++ (referencesIssues targetExists (relDirOf category entry)
                  (relFileOf category entry) (readUtf8 raw)
                  (splitLines (readUtf8 raw)).length (countWords (readUtf8 raw))
                  entry.references).2, ?_, ?_, ?_⟩
        · rw [checkSkillDir_full toUpperCase targetExists category entry raw frontmatterLines nameLine
            hdir hfile hopen hlines hname]
          simp only [List.append_assoc]
        · intro issue hi
          simp only [List.mem_append] at hi
          rcases hi with hi | hi | hi | hi | hi
          · exact kind_mem_of_subset (kinds_keyErrors _ _ issue hi) (by decide)
          · split at hi
            · rw [List.mem_singleton] at hi
              rw [hi]
              simp [Issue.kind, laterErrorKinds]
            · cases hi
          · exact kind_mem_of_subset (kinds_brokenLinks _ _ issue hi) (by decide)
          · exact kind_mem_of_subset (kinds_companion_errors _ _ _ _ issue hi) (by decide)
          · exact kind_mem_of_subset (kinds_references_errors _ _ _ _ _ _ _ issue hi)
              (by decide)
        · intro issue hi
          simp only [List.mem_append] at hi
          rcases hi with hi | hi
          · exact kind_mem_of_subset (kinds_companion_warnings _ _ _ _ issue hi) (by decide)
          · exact kind_mem_of_subset (kinds_references_warnings _ _ _ _ _ _ _ issue hi)
              (by decide)
  · have hopen2 : startsWith (readUtf8 raw) "---\n".toList = false
        ∧ startsWith (readUtf8 raw) "---\r\n".toList = false := by
      constructor
      · by_contra h
        exact hopen (Or.inl (by simpa using h))
      · by_contra h
        exact hopen (Or.inr (by simpa using h))
    refine ⟨[Issue.missingOpening (relFileOf category entry)], [], ?_, ?_, ?_⟩
    · rw [checkSkillDir_no_opening toUpperCase targetExists category entry raw hdir hfile hopen2,
        List.append_nil]
    · intro issue hi
      rw [List.mem_singleton] at hi
      rw [hi]
      simp [Issue.kind, laterErrorKinds]
    · intro issue hi
      cases hi

/-! ## Lemmas on the header delimiters -/

theorem splitLines_cons_cases (c : Char) (cs : JsString) :
    (c = '\n' ∧ splitLines (c :: cs) = [] :: splitLines cs) ∨
    (c = '\r' ∧ ∃ cs', cs = '\n' :: cs' ∧ splitLines (c :: cs) = [] :: splitLines cs') ∨
    (c ≠ '\n' ∧ ¬ (c = '\r' ∧ ∃ cs', cs = '\n' :: cs') ∧
      ∃ w ws, splitLines cs = w :: ws ∧ splitLines (c :: cs) = (c :: w) :: ws) := by
  by_cases h1 : c = '\n'
  · left
    subst h1
    exact ⟨rfl, splitLines_lf cs⟩
  · by_cases h2 : c = '\r' ∧ ∃ cs', cs = '\n' :: cs'
    · right; left
      obtain ⟨hc, cs', hcs⟩ := h2
      subst hc
      subst hcs
      exact ⟨rfl, cs', rfl, splitLines_crlf cs'⟩
    · right; right
      obtain ⟨w, ws, hw⟩ := List.exists_cons_of_ne_nil (splitLines_ne_nil cs)
      refine ⟨h1, h2, w, ws, hw, ?_⟩
      rw [splitLines_other c cs h1 h2, hw]
      rfl

/-- A text starts with `n` dashes and a line break exactly when its first line consists
of `n` dashes and is not its only line. -/
theorem startsWith_dashes_iff (n : Nat) (s : JsString) :
    (startsWith s (List.replicate n '-' ++ ['\n']) = true
      ∨ startsWith s (List.replicate n '-' ++ ['\r', '\n']) = true)
    ↔ ((splitLines s).head? = some (List.replicate n '-') ∧ 2 ≤ (splitLines s).length) := by
  induction n generalizing s with
  | zero =>
    cases s with
    | nil => simp [startsWith, splitLines]
    | cons c cs =>
      rcases splitLines_cons_cases c cs with ⟨hc, hs⟩ | ⟨hc, cs', hcs, hs⟩ | ⟨h1, h2, w, ws, _, hs⟩
      · subst hc
        rw [hs]
        have := splitLines_ne_nil cs
        have hl : 0 < (splitLines cs).length := List.length_pos.2 this
        simp [startsWith, List.isPrefixOf]
        omega
      · subst hc
        subst hcs
        rw [hs]
        have := splitLines_ne_nil cs'
        have hl : 0 < (splitLines cs').length := List.length_pos.2 this
        simp [startsWith, List.isPrefixOf]
        omega
      · rw [hs]
        constructor
        · intro h
          exfalso
          simp only [startsWith, List.replicate_zero, List.nil_append, List.isPrefixOf,
            Bool.and_true, beq_iff_eq, Bool.and_eq_true] at h
          rcases h with h | h
          · exact h1 h.symm
          · cases cs with
            | nil => simp [List.isPrefixOf] at h
            | cons d ds =>
              simp only [List.isPrefixOf, Bool.and_true, beq_iff_eq] at h
              exact h2 ⟨h.1.symm, ds, by rw [h.2]⟩
        · intro h
          simp at h
  | succ n ih =>
    cases s with
    | nil => simp [startsWith, splitLines, List.replicate_succ, List.isPrefixOf]
    | cons c cs =>
      rcases splitLines_cons_cases c cs with ⟨hc, hs⟩ | ⟨hc, cs', hcs, hs⟩ | ⟨h1, h2, w, ws, hw, hs⟩
      · subst hc
        rw [hs]
        simp [startsWith, List.replicate_succ, List.isPrefixOf]
      · subst hc
        subst hcs
        rw [hs]
        simp [startsWith, List.replicate_succ, List.isPrefixOf]
      · rw [hs]
        have ih' := ih cs
        rw [hw] at ih'
        simp only [startsWith, List.replicate_succ, List.cons_append, List.isPrefixOf,
          Bool.and_eq_true, beq_iff_eq, List.head?_cons, Option.some.injEq,
          List.cons.injEq, List.length_cons] at ih' ⊢
        constructor
        · rintro (⟨hc, h⟩ | ⟨hc, h⟩)
          · have := ih'.1 (Or.inl h)
            exact ⟨⟨hc.symm, this.1⟩, this.2⟩
          · have := ih'.1 (Or.inr h)
            exact ⟨⟨hc.symm, this.1⟩, this.2⟩
        · rintro ⟨⟨hc, hw2⟩, hlen⟩
          rcases ih'.2 ⟨hw2, hlen⟩ with h | h
          · exact Or.inl ⟨hc.symm, h⟩
          · exact Or.inr ⟨hc.symm, h⟩

theorem startsWith_opening_iff (s : JsString) :
    (startsWith s "---\n".toList = true ∨ startsWith s "---\r\n".toList = true)
    ↔ ((splitLines s).head? = some "---".toList ∧ 2 ≤ (splitLines s).length) :=
  startsWith_dashes_iff 3 s

theorem secondSepIndex_eq_none_iff (lines : List JsString) :
    secondSepIndex lines = none ↔ ∀ line ∈ lines.tail, trim line ≠ "---".toList := by
  unfold secondSepIndex
  rw [Option.map_eq_none', List.findIdx?_eq_none_iff, List.drop_one]
  constructor
  · intro h line hl
    simpa using h line hl
  · intro h line hl
    simpa using h line hl

/-! ## The errors of a record after its header was found -/

theorem checkSkillDir_after_header (toUpperCase : Char → JsString)
    (targetExists : JsString → JsString → Bool)
    (category : JsString) (entry : SkillEntry) (raw : JsString)
    (frontmatterLines : List JsString)
    (hdir : entry.isDirectory = true) (hfile : entry.skillFile = some raw)
    (hopen : startsWith (readUtf8 raw) "---\n".toList = true
      ∨ startsWith (readUtf8 raw) "---\r\n".toList = true)
    (hlines : frontmatterLinesOf (readUtf8 raw) = some frontmatterLines) :
    ∃ later,
      (checkSkillDir toUpperCase targetExists category entry).1
        = sizeErrors (relFileOf category entry) (splitLines (readUtf8 raw)).length
            (countWords (readUtf8 raw))
          ++ keyErrors (relFileOf category entry) (frontmatterKeys frontmatterLines)
          ++ later ∧
      ∀ issue ∈ later, issue.kind ∈ [IssueKind.nameMismatch, IssueKind.brokenLink,
        IssueKind.missingCompanion, IssueKind.missingYamlKey] := by
  cases hname : frontmatterLines.find? (fun line => startsWith line "name:".toList) with
  | none =>
    refine ⟨[], ?_, ?_⟩
    · rw [checkSkillDir_no_name_line toUpperCase targetExists category entry raw frontmatterLines
        hdir hfile hopen hlines hname, List.append_nil]
    · intro issue hi
      cases hi
  | some nameLine =>
    refine ⟨(if trim (replaceFirst "name:".toList [] nameLine) != entry.name then
                [Issue.nameMismatch (relFileOf category entry) entry.name
                  (trim (replaceFirst "name:".toList [] nameLine))] else [])
          ++ ((checkMarkdownLinks (targetExists (relFileOf category entry))
                (readUtf8 raw)).map
              (fun rawLink => Issue.brokenLink (relFileOf category entry) rawLink)
          ++ ((companionIssues toUpperCase (relDirOf category entry)
                (trim (replaceFirst "name:".toList [] nameLine)) entry.openaiYaml).1
          ++ (referencesIssues targetExists (relDirOf category entry)
                (relFileOf category entry) (readUtf8 raw)
                (splitLines (readUtf8 raw)).length (countWords (readUtf8 raw))
                entry.references).1)), ?_, ?_⟩
    · rw [checkSkillDir_full toUpperCase targetExists category entry raw frontmatterLines nameLine
        hdir hfile hopen hlines hname]
      simp only [List.append_assoc]
    · intro issue hi
      simp only [List.mem_append] at hi
      rcases hi with hi | hi | hi | hi
      · split at hi
        · rw [List.mem_singleton] at hi
          rw [hi]
          simp [Issue.kind]
        · cases hi
      · exact kind_mem_of_subset (kinds_brokenLinks _ _ issue hi) (by decide)
      · exact kind_mem_of_subset (kinds_companion_errors _ _ _ _ issue hi) (by decide)
      · exact kind_mem_of_subset (kinds_references_errors _ _ _ _ _ _ _ issue hi)
          (by decide)

theorem checkSkillDir_after_name (toUpperCase : Char → JsString)
    (targetExists : JsString → JsString → Bool)
    (category : JsString) (entry : SkillEntry) (raw : JsString)
    (frontmatterLines : List JsString) (nameLine : JsString)
    (hdir : entry.isDirectory = true) (hfile : entry.skillFile = some raw)
    (hopen : startsWith (readUtf8 raw) "---\n".toList = true
      ∨ startsWith (readUtf8 raw) "---\r\n".toList = true)
    (hlines : frontmatterLinesOf (readUtf8 raw) = some frontmatterLines)
    (hname : frontmatterLines.find? (fun line => startsWith line "name:".toList)
      = some nameLine) :
    ∃ later,
      (checkSkillDir toUpperCase targetExists category entry).1
        = sizeErrors (relFileOf category entry) (splitLines (readUtf8 raw)).length
            (countWords (readUtf8 raw))
          ++ keyErrors (relFileOf category entry) (frontmatterKeys frontmatterLines)
          ++ (if trim (nameLine.drop 5) = entry.name then []
              else [Issue.nameMismatch (relFileOf category entry) entry.name
                (trim (nameLine.drop 5))])
          ++ later ∧
      ∀ issue ∈ later, issue.kind ∈ [IssueKind.brokenLink,
        IssueKind.missingCompanion, IssueKind.missingYamlKey] := by
  have hstart : startsWith nameLine "name:".toList = true := by
    simpa using List.find?_some hname
  have hdeclared : replaceFirst "name:".toList [] nameLine = nameLine.drop 5 := by
    rw [replaceFirst_of_startsWith _ _ _ hstart]
    rfl
  refine ⟨(checkMarkdownLinks (targetExists (relFileOf category entry))
                (readUtf8 raw)).map
              (fun rawLink => Issue.brokenLink (relFileOf category entry) rawLink)
          ++ ((companionIssues toUpperCase (relDirOf category entry)
                (trim (replaceFirst "name:".toList [] nameLine)) entry.openaiYaml).1
          ++ (referencesIssues targetExists (relDirOf category entry)
                (relFileOf category entry) (readUtf8 raw)
                (splitLines (readUtf8 raw)).length (countWords (readUtf8 raw))
                entry.references).1), ?_, ?_⟩
  · rw [checkSkillDir_full toUpperCase targetExists category entry raw frontmatterLines nameLine
      hdir hfile hopen hlines hname]
    simp only [List.append_assoc, hdeclared]
    congr 2
    by_cases h : trim (nameLine.drop 5) = entry.name
    · simp [h]
    · simp [h]
  · intro issue hi
    simp only [List.mem_append] at hi
    rcases hi with hi | hi | hi
    · exact kind_mem_of_subset (kinds_brokenLinks _ _ issue hi) (by decide)
    · exact kind_mem_of_subset (kinds_companion_errors _ _ _ _ issue hi) (by decide)
    · exact kind_mem_of_subset (kinds_references_errors _ _ _ _ _ _ _ issue hi)
        (by decide)

theorem ofKind_singleton (kind : IssueKind) (issue : Issue) :
    ofKind kind [issue] = if issue.kind = kind then [issue] else [] := by
  by_cases h : issue.kind = kind <;> simp [ofKind, h]

theorem ofKind_nil (kind : IssueKind) : ofKind kind [] = [] := rfl

theorem matchKey_eq_some_iff (line key : JsString) :
    matchKey line = some key ↔
      key ≠ [] ∧ (∀ c ∈ key, isKeyChar c = true) ∧ ∃ rest, line = key ++ ':' :: rest := by
  unfold matchKey
  constructor
  · intro h
    have htd := List.takeWhile_append_dropWhile isKeyChar line
    cases hd : line.dropWhile isKeyChar with
    | nil => simp [hd] at h
    | cons c rest =>
      rw [hd] at h htd
      by_cases hc : c = ':'
      · subst hc
        simp only at h
        by_cases hk : line.takeWhile isKeyChar = []
        · simp [hk] at h
        · rw [if_neg hk] at h
          have hkey := Option.some.inj h
          subst hkey
          refine ⟨hk, ?_, rest, htd.symm⟩
          intro c hc
          exact List.mem_takeWhile_imp hc
      · exfalso
        revert h
        split
        · rename_i heq
          exact absurd (List.cons.inj heq).1 hc
        · intro h; cases h
  · rintro ⟨hne, hall, rest, rfl⟩
    have h1 : (key ++ ':' :: rest).takeWhile isKeyChar = key := by
      rw [List.takeWhile_append_of_pos hall]
      simp [List.takeWhile, show isKeyChar ':' = false from by decide]
    have h2 : (key ++ ':' :: rest).dropWhile isKeyChar = ':' :: rest := by
      rw [List.dropWhile_append_of_pos hall]
      simp [List.dropWhile, show isKeyChar ':' = false from by decide]
    simp [h1, h2, hne]

/-! ## Lemmas on fenced code blocks -/

theorem fence_eq : fence = [Char.ofNat 96, Char.ofNat 96, Char.ofNat 96] := by decide

/-- No fence starts inside a text that contains no fence and does not end with a
backtick, whatever follows the text. -/
theorem not_fence_prefix_append (S X : JsString) (hne : S ≠ [])
    (hS : ¬ fence <:+: S) (hend : S.getLast? ≠ some (Char.ofNat 96)) :
    ¬ fence <+: S ++ X := by
  intro h
  rw [fence_eq] at h hS
  match S, hne with
  | [c], _ =>
    rw [List.singleton_append, List.cons_prefix_cons] at h
    exact hend (by rw [← h.1]; rfl)
  | [c, d], _ =>
    simp only [List.cons_append, List.nil_append, List.cons_prefix_cons] at h
    exact hend (by rw [← h.2.1]; rfl)
  | c :: d :: e :: rest, _ =>
    simp only [List.cons_append, List.cons_prefix_cons] at h
    apply hS
    rw [← h.1, ← h.2.1, ← h.2.2.1]
    exact (List.prefix_append _ rest).isInfix

theorem getLast?_tail_ne (c : Char) (S : JsString) (t : Char)
    (h : (c :: S).getLast? ≠ some t) (hS : S ≠ []) : S.getLast? ≠ some t := by
  cases S with
  | nil => exact absurd rfl hS
  | cons d ds => simpa [List.getLast?_cons_cons] using h

theorem stripCodeBlocksAux_append (A X : JsString)
    (hA : ¬ fence <:+: A) (hend : A.getLast? ≠ some (Char.ofNat 96)) :
    stripCodeBlocksAux 0 (A ++ X) = A ++ stripCodeBlocksAux 0 X := by
  induction A with
  | nil => rfl
  | cons c cs ih =>
    have hno : fence.isPrefixOf (c :: (cs ++ X)) = false := by
      rw [Bool.eq_false_iff]
      intro hp
      exact not_fence_prefix_append (c :: cs) X (by simp) hA hend
        ( List.isPrefixOf_iff_prefix.1 hp)
    have hcs : ¬ fence <:+: cs := fun h => hA (h.trans (List.suffix_cons c cs).isInfix)
    have hcsend : cs.getLast? ≠ some (Char.ofNat 96) := by
      cases cs with
      | nil => simp
      | cons d ds => exact getLast?_tail_ne c _ _ hend (by simp)
    rw [List.cons_append]
    simp only [stripCodeBlocksAux, hno, Bool.false_eq_true, if_false]
    rw [ih hcs hcsend]
    rfl

theorem fenceEnd_append (B C : JsString)
    (hB : ¬ fence <:+: B) (hend : B.getLast? ≠ some (Char.ofNat 96)) :
    fenceEnd (B ++ fence ++ C) = some (B.length + 3) := by
  induction B with
  | nil =>
    rw [fence_eq]
    simp [fenceEnd, fence_eq, List.isPrefixOf]
  | cons c cs ih =>
    have hno : fence.isPrefixOf (c :: (cs ++ fence ++ C)) = false := by
      rw [Bool.eq_false_iff]
      intro hp
      have := List.isPrefixOf_iff_prefix.1 hp
      rw [List.append_assoc, ← List.cons_append] at this
      exact not_fence_prefix_append (c :: cs) (fence ++ C) (by simp) hB hend this
    have hcs : ¬ fence <:+: cs := fun h => hB (h.trans (List.suffix_cons c cs).isInfix)
    have hcsend : cs.getLast? ≠ some (Char.ofNat 96) := by
      cases cs with
      | nil => simp
      | cons d ds => exact getLast?_tail_ne c _ _ hend (by simp)
    simp only [List.cons_append]
    rw [fenceEnd, if_neg (by rw [hno]; simp), ih hcs hcsend]
    rfl

theorem stripCodeBlocksAux_skip (P C : JsString) :
    stripCodeBlocksAux P.length (P ++ C) = stripCodeBlocksAux 0 C := by
  induction P with
  | nil => rfl
  | cons c cs ih =>
    rw [List.length_cons, List.cons_append]
    show stripCodeBlocksAux cs.length (cs ++ C) = _
    exact ih

theorem stripCodeBlocksAux_fenced (B C : JsString)
    (hB : ¬ fence <:+: B) (hend : B.getLast? ≠ some (Char.ofNat 96)) :
    stripCodeBlocksAux 0 (fence ++ B ++ fence ++ C) = stripCodeBlocksAux 0 C := by
  have h1 : fence ++ B ++ fence ++ C
      = Char.ofNat 96 :: ([Char.ofNat 96, Char.ofNat 96] ++ B ++ fence ++ C) := by
    rw [fence_eq]
    simp
  have hpre : fence.isPrefixOf
      (Char.ofNat 96 :: ([Char.ofNat 96, Char.ofNat 96] ++ B ++ fence ++ C)) = true := by
    apply List.isPrefixOf_iff_prefix.2
    refine ⟨B ++ fence ++ C, ?_⟩
    rw [fence_eq]
    simp
  have hdrop : (Char.ofNat 96 :: ([Char.ofNat 96, Char.ofNat 96] ++ B ++ fence ++ C)).drop 3
      = B ++ fence ++ C := by
    simp
  rw [h1]
  rw [stripCodeBlocksAux, if_pos hpre, hdrop, fenceEnd_append B C hB hend]
  show stripCodeBlocksAux (3 + (B.length + 3) - 1)
    ([Char.ofNat 96, Char.ofNat 96] ++ B ++ fence ++ C) = _
  have hlen : 3 + (B.length + 3) - 1
      = ([Char.ofNat 96, Char.ofNat 96] ++ B ++ fence).length := by
    rw [fence_eq]
    simp only [List.length_append, List.length_cons, List.length_nil]
    omega
  rw [hlen]
  exact stripCodeBlocksAux_skip _ C

/-- The pieces of a split do not contain the separator, and the first piece is made
of characters of the text. -/
theorem mem_headD_split (sep : Char) (s : JsString) (c : Char)
    (hc : c ∈ (split sep s).headD []) : c ∈ s ∧ c ≠ sep := by
  obtain ⟨w, ws, hw⟩ := List.exists_cons_of_ne_nil (split_ne_nil sep s)
  rw [hw] at hc
  exact mem_of_mem_split sep s w c (hw ▸ List.mem_cons_self _ _) hc

/-! ## Lemmas on the drift checks -/

theorem checkCatalogDrift_eq (essentialBundle configMandatory : List JsString)
    (wizardMandatory : Option (List JsString)) (agentSkills : List JsString)
    (findSkillsAgent : Option (List JsString)) :
    checkCatalogDrift essentialBundle configMandatory wizardMandatory agentSkills
        findSkillsAgent
      = configDriftErrors essentialBundle configMandatory
        ++ wizardDriftErrors essentialBundle wizardMandatory
        ++ agentRowErrors agentSkills findSkillsAgent := by
  unfold checkCatalogDrift configDriftErrors wizardDriftErrors agentRowErrors
  cases wizardMandatory <;> cases findSkillsAgent <;> rfl

theorem sortDefault_perm (l : List JsString) : (sortDefault l).Perm l :=
  List.perm_insertionSort _ l

theorem sortDefault_eq_iff_perm (a b : List JsString) :
    sortDefault a = sortDefault b ↔ a.Perm b := by
  constructor
  · intro h
    exact (sortDefault_perm a).symm.trans (h ▸ sortDefault_perm b)
  · intro h
    haveI : IsTotal JsString (fun a b => defaultCompare a b ≤ 0) :=
      ⟨defaultCompare_consistent.total⟩
    haveI : IsTrans JsString (fun a b => defaultCompare a b ≤ 0) :=
      ⟨defaultCompare_consistent.2⟩
    haveI : IsAntisymm JsString (fun a b => defaultCompare a b ≤ 0) :=
      ⟨defaultCompare_antisymm⟩
    exact List.eq_of_perm_of_sorted
      (((sortDefault_perm a).trans h).trans (sortDefault_perm b).symm)
      (List.sorted_insertionSort _ a) (List.sorted_insertionSort _ b)

theorem split_eq_singleton (sep : Char) (w : JsString) (h : sep ∉ w) :
    split sep w = [w] := by
  induction w with
  | nil => rfl
  | cons c cs ih =>
    have hc : c ≠ sep := fun e => h (e ▸ List.mem_cons_self _ _)
    obtain ⟨v, vs, h1, h2⟩ := split_cons_ne sep c cs hc
    rw [h2]
    rw [ih (fun hm => h (List.mem_cons_of_mem _ hm))] at h1
    rw [← (List.cons.inj h1).1, ← (List.cons.inj h1).2]

theorem split_join (sep : Char) (l : List JsString) (hne : l ≠ [])
    (h : ∀ w ∈ l, sep ∉ w) : split sep (join [sep] l) = l := by
  induction l with
  | nil => exact absurd rfl hne
  | cons x rest ih =>
    cases rest with
    | nil =>
      rw [join_singleton]
      exact split_eq_singleton sep x (h x (List.mem_cons_self _ _))
    | cons y rest2 =>
      rw [join_cons_cons, List.append_assoc, List.singleton_append, split_append_sep,
        split_eq_singleton sep x (h x (List.mem_cons_self _ _)),
        ih (by simp) (fun w hw => h w (List.mem_cons_of_mem _ hw))]
      rfl

theorem join_eq_nil (sep : JsString) (l : List JsString) (h : ∀ w ∈ l, w ≠ [])
    (hj : join sep l = []) : l = [] := by
  cases l with
  | nil => rfl
  | cons x rest =>
    exfalso
    have hx := h x (List.mem_cons_self _ _)
    cases rest with
    | nil => exact hx hj
    | cons y rest2 =>
      rw [join_cons_cons] at hj
      simp only [List.append_eq_nil] at hj
      exact hx hj.1.1

/-- The join with `|` tells apart lists of non-empty names without `|`. -/
theorem join_bar_injective (a b : List JsString)
    (ha : ∀ w ∈ a, w ≠ [] ∧ '|' ∉ w) (hb : ∀ w ∈ b, w ≠ [] ∧ '|' ∉ w)
    (h : join "|".toList a = join "|".toList b) : a = b := by
  have hbar : "|".toList = ['|'] := rfl
  rw [hbar] at h
  by_cases hane : a = []
  · subst hane
    exact (join_eq_nil _ b (fun w hw => (hb w hw).1) h.symm).symm
  · by_cases hbne : b = []
    · subst hbne
      exact join_eq_nil _ a (fun w hw => (ha w hw).1) h
    · rw [← split_join '|' a hane (fun w hw => (ha w hw).2),
        ← split_join '|' b hbne (fun w hw => (hb w hw).2), h]

theorem drift_iff_not_perm (a b : List JsString)
    (ha : ∀ w ∈ a, w ≠ [] ∧ '|' ∉ w) (hb : ∀ w ∈ b, w ≠ [] ∧ '|' ∉ w) :
    join "|".toList (sortDefault a) ≠ join "|".toList (sortDefault b) ↔ ¬ a.Perm b := by
  rw [← sortDefault_eq_iff_perm]
  constructor
  · intro h e
    exact h (by rw [e])
  · intro h e
    apply h
    apply join_bar_injective _ _ _ _ e
    · intro w hw
      exact ha w ((mem_sortBy _ _ _).1 hw)
    · intro w hw
      exact hb w ((mem_sortBy _ _ _).1 hw)

/-! ## Lemmas on `indexOf` and the discovery table -/

theorem indexOf_eq_none (pat : JsString) :
    ∀ s : JsString, ¬ pat <:+: s → indexOf pat s = none := by
  intro s
  induction s with
  | nil =>
    intro h
    unfold indexOf
    rw [if_neg]
    intro e
    exact h (e ▸ List.infix_refl _)
  | cons c cs ih =>
    intro h
    unfold indexOf
    have hp : pat.isPrefixOf (c :: cs) = false := by
      cases hb : pat.isPrefixOf (c :: cs) with
      | false => rfl
      | true => exact absurd (( List.isPrefixOf_iff_prefix.1 hb).isInfix) h
    rw [hp]
    simp only [Bool.false_eq_true, if_false]
    rw [ih (fun hi => h (hi.trans (List.infix_cons (List.infix_refl _))))]
    rfl

theorem indexOf_first (pat : JsString) (hpat : pat ≠ []) (b : JsString) :
    ∀ a : JsString, ¬ pat <:+: a ++ pat.dropLast →
      indexOf pat (a ++ pat ++ b) = some a.length := by
  intro a
  induction a with
  | nil =>
    intro _
    cases pat with
    | nil => exact absurd rfl hpat
    | cons p ps =>
      show indexOf (p :: ps) (p :: (ps ++ b)) = some 0
      unfold indexOf
      have hp : (p :: ps).isPrefixOf (p :: (ps ++ b)) = true :=
        List.isPrefixOf_iff_prefix.2 ⟨b, rfl⟩
      rw [hp]
      rfl
  | cons c a ih =>
    intro h
    show indexOf pat (c :: (a ++ pat ++ b)) = some (a.length + 1)
    unfold indexOf
    have hp : pat.isPrefixOf (c :: (a ++ pat ++ b)) = false := by
      cases hb : pat.isPrefixOf (c :: (a ++ pat ++ b)) with
      | false => rfl
      | true =>
        exfalso
        apply h
        have h1 : pat <+: c :: (a ++ pat ++ b) := List.isPrefixOf_iff_prefix.1 hb
        have h2 : c :: a ++ pat.dropLast <+: c :: (a ++ pat ++ b) := by
          refine ⟨[pat.getLast hpat] ++ b, ?_⟩
          have := List.dropLast_append_getLast hpat
          conv_rhs => rw [← this]
          simp
        have h3 : pat.length ≤ (c :: a ++ pat.dropLast).length := by
          have := List.length_pos.2 hpat
          simp only [List.length_append, List.length_cons, List.length_dropLast]
          omega
        exact (List.prefix_of_prefix_length_le h1 h2 h3).isInfix
    rw [hp]
    simp only [Bool.false_eq_true, if_false]
    rw [ih (fun hi => h (hi.trans (List.infix_cons (List.infix_refl _))))]
    rfl

theorem isInfix_of_append_right (pat a q : JsString) (z : Char)
    (hz : pat.getLast? = some z) (hq : z ∉ q) (h : pat <:+: a ++ q) : pat <:+: a := by
  obtain ⟨u, v, e⟩ := h
  rcases List.append_eq_append_iff.1 e with ⟨w, h1, h2⟩ | ⟨w, h1, h2⟩
  · exact ⟨u, w, h1.symm⟩
  · by_cases hw : w = []
    · subst hw
      rw [List.append_nil] at h1
      exact ⟨u, [], by rw [List.append_nil]; exact h1⟩
    · exfalso
      apply hq
      rw [h2]
      apply List.mem_append_left
      have h3 : (u ++ pat).getLast? = (a ++ w).getLast? := by rw [h1]
      have hpat : pat ≠ [] := by
        intro e0
        rw [e0] at hz
        exact absurd hz (by simp)
      rw [List.getLast?_append_of_ne_nil _ hpat, List.getLast?_append_of_ne_nil _ hw,
        hz] at h3
      exact List.mem_of_getLast?_eq_some h3.symm

theorem parseFindSkillsAgentTable_section (pre sectionText : JsString)
    (hfirst : ¬ "### Agent Skills".toList <:+: pre)
    (hsection : ¬ "\n## ".toList <:+: sectionText) :
    parseFindSkillsAgentTable (pre ++ "### Agent Skills".toList ++ sectionText)
      = some (tableNames sectionText) ∧
    ∀ rest, parseFindSkillsAgentTable
        (pre ++ "### Agent Skills".toList ++ sectionText ++ "\n## ".toList ++ rest)
      = some (tableNames sectionText) := by
  have hmarker : ¬ "### Agent Skills".toList
      <:+: pre ++ ("### Agent Skills".toList).dropLast :=
    fun h => hfirst (isInfix_of_append_right _ _ _ 's' (by decide) (by decide) h)
  have hnext : ¬ "\n## ".toList <:+: sectionText ++ ("\n## ".toList).dropLast :=
    fun h => hsection (isInfix_of_append_right _ _ _ ' ' (by decide) (by decide) h)
  have hdrop : ∀ tail : JsString,
      (pre ++ "### Agent Skills".toList ++ tail).drop
        (pre.length + ("### Agent Skills".toList).length) = tail := by
    intro tail
    rw [← List.length_append, List.drop_left]
  constructor
  · unfold parseFindSkillsAgentTable
    simp only
    rw [indexOf_first _ (by decide) sectionText pre hmarker]
    simp only
    rw [hdrop, indexOf_eq_none _ _ hsection]
  · intro rest
    unfold parseFindSkillsAgentTable
    simp only
    have e : pre ++ "### Agent Skills".toList ++ sectionText ++ "\n## ".toList ++ rest
        = pre ++ "### Agent Skills".toList ++ (sectionText ++ "\n## ".toList ++ rest) := by
      simp only [List.append_assoc]
    rw [e, indexOf_first _ (by decide) _ pre hmarker]
    simp only
    rw [hdrop, indexOf_first _ (by decide) rest sectionText hnext]
    simp only [List.append_assoc, List.take_left]

theorem agentRowErrors_some (agentSkills found : List JsString) :
    agentRowErrors agentSkills (some found)
      = if ∃ name ∈ agentSkills, name ∉ found then
          ["agent/find-skills/SKILL.md is missing agent skill rows: ".toList
            ++ join ", ".toList ((sortDefault agentSkills).filter (fun name => name ∉ found))]
        else [] := by
  have hfilter : (sortDefault agentSkills).filter
        (fun name => !(sortDefault (setFromArray found)).contains name)
      = (sortDefault agentSkills).filter (fun name => name ∉ found) := by
    apply List.filter_congr
    intro name _
    have : name ∈ sortDefault (setFromArray found) ↔ name ∈ found := by
      unfold sortDefault
      rw [mem_sortBy, mem_setFromArray]
    by_cases hm : name ∈ found
    · simp [hm, this.2 hm]
    · have hn : name ∉ sortDefault (setFromArray found) := fun h => hm (this.1 h)
      simp [hm, hn]
  unfold agentRowErrors
  simp only
  rw [hfilter]
  have hlen : ((sortDefault agentSkills).filter (fun name => name ∉ found)).length > 0
      ↔ ∃ name ∈ agentSkills, name ∉ found := by
    rw [gt_iff_lt, List.length_pos, ne_eq, List.filter_eq_nil_iff]
    unfold sortDefault
    simp only [mem_sortBy, decide_eq_true_eq, not_forall, not_not, exists_prop]
  by_cases h : ∃ name ∈ agentSkills, name ∉ found
  · rw [if_pos (hlen.2 h), if_pos h]
  · rw [if_neg (fun h2 => h (hlen.1 h2)), if_neg h]

theorem first_occurrence (pat : JsString) (hpat : pat ≠ []) :
    ∀ s : JsString, pat <:+: s →
      ∃ a b, s = a ++ pat ++ b ∧ ¬ pat <:+: a ++ pat.dropLast := by
  have hshort : ¬ pat <:+: pat.dropLast := by
    intro h
    have h1 := h.length_le
    have h2 := List.length_pos.2 hpat
    rw [List.length_dropLast] at h1
    omega
  intro s
  induction s with
  | nil =>
    intro h
    exact absurd (List.infix_nil.1 h) hpat
  | cons c cs ih =>
    intro h
    by_cases hp : pat <+: c :: cs
    · obtain ⟨b, hb⟩ := hp
      exact ⟨[], b, hb.symm, hshort⟩
    · rcases List.infix_cons_iff.1 h with h1 | h1
      · exact absurd h1 hp
      · obtain ⟨a, b, e, hn⟩ := ih h1
        refine ⟨c :: a, b, by rw [e]; rfl, ?_⟩
        intro h2
        rcases List.infix_cons_iff.1 h2 with h3 | h3
        · apply hp
          refine h3.trans ?_
          rw [e]
          refine ⟨[pat.getLast hpat] ++ b, ?_⟩
          conv_rhs => rw [← List.dropLast_append_getLast hpat]
          simp
        · exact hn h3

/-! ## Lemmas on the run -/

theorem evaluateCases_some (localeCompare : JsString → JsString → Int)
    (skills : List Skill) (noneThreshold : ℚ) (hne : skills ≠ []) :
    ∀ cases : List TestCase, ∃ results,
      evaluateCases localeCompare skills noneThreshold cases = some results ∧
      results.length = cases.length ∧
      (results.filter (fun r => r.pass)).length
        = cases.countP (casePasses localeCompare skills noneThreshold) ∧
      results.map (fun r => r.id) = cases.map (fun c => c.id) := by
  intro cases
  induction cases with
  | nil => exact ⟨[], rfl, rfl, rfl, rfl⟩
  | cons testCase rest ih =>
    obtain ⟨results, h1, h2, h3, h4⟩ := ih
    obtain ⟨best, hbest, -⟩ := bestScored_some localeCompare testCase.prompt skills hne
    have hres : ∃ result, evaluateCase localeCompare testCase skills noneThreshold
        = some result ∧ result.id = testCase.id := by
      unfold evaluateCase
      rw [hbest]
      cases testCase.expected with
      | none => exact ⟨_, rfl, rfl⟩
      | some e => exact ⟨_, rfl, rfl⟩
    obtain ⟨result, hresult, hid⟩ := hres
    refine ⟨result :: results, ?_, ?_, ?_, ?_⟩
    · unfold evaluateCases
      rw [hresult, h1]
    · simp [h2]
    · have hp : casePasses localeCompare skills noneThreshold testCase = result.pass := by
        unfold casePasses
        rw [hresult]
      rw [List.countP_cons, hp, ← h3, List.filter_cons]
      cases result.pass <;> simp
    · simp [h4, hid]

theorem shiftFrom_spec (p t : Nat) :
    ∀ (fuel k : Nat), (∀ j, j < k → ¬ t * 2 ^ 52 ≤ p * 2 ^ j) →
      (∃ j, j < k + fuel ∧ t * 2 ^ 52 ≤ p * 2 ^ j) →
      t * 2 ^ 52 ≤ p * 2 ^ shiftFrom p t fuel k ∧
      ∀ j, j < shiftFrom p t fuel k → ¬ t * 2 ^ 52 ≤ p * 2 ^ j := by
  intro fuel
  induction fuel with
  | zero =>
    intro k hbelow ⟨j, hj, hle⟩
    exact absurd hle (hbelow j (by omega))
  | succ fuel ih =>
    intro k hbelow ⟨j, hj, hle⟩
    unfold shiftFrom
    by_cases hk : t * 2 ^ 52 ≤ p * 2 ^ k
    · rw [if_pos hk]
      exact ⟨hk, hbelow⟩
    · rw [if_neg hk]
      apply ih (k + 1)
      · intro i hi
        by_cases hik : i = k
        · rw [hik]; exact hk
        · exact hbelow i (by omega)
      · exact ⟨j, by omega, hle⟩

theorem significandShift_spec (p t : Nat) (hp : 0 < p) :
    t * 2 ^ 52 ≤ p * 2 ^ significandShift p t ∧
    ∀ j, j < significandShift p t → ¬ t * 2 ^ 52 ≤ p * 2 ^ j := by
  apply shiftFrom_spec p t (53 + t) 0 (fun j hj => absurd hj (Nat.not_lt_zero _))
  refine ⟨52 + t, by omega, ?_⟩
  have h1 : t < 2 ^ t := Nat.lt_two_pow t
  calc t * 2 ^ 52 ≤ 2 ^ t * 2 ^ 52 := Nat.mul_le_mul_right _ h1.le
    _ = 2 ^ (52 + t) := by rw [Nat.pow_add, Nat.mul_comm]
    _ ≤ p * 2 ^ (52 + t) := Nat.le_mul_of_pos_left _ hp

theorem roundHalfEven_spec (a b : Nat) (hb : 0 < b) :
    2 * (roundHalfEven a b * b) ≤ 2 * a + b ∧
    2 * a ≤ 2 * (roundHalfEven a b * b) + b ∧
    ((2 * (roundHalfEven a b * b) = 2 * a + b ∨ 2 * a = 2 * (roundHalfEven a b * b) + b) →
      roundHalfEven a b % 2 = 0) ∧
    a / b ≤ roundHalfEven a b ∧ roundHalfEven a b ≤ a / b + 1 := by
  have hdiv := Nat.div_add_mod a b
  have hmod := Nat.mod_lt a hb
  unfold roundHalfEven
  generalize a / b = m at *
  generalize a % b = r at *
  have hmul : b * m = m * b := Nat.mul_comm _ _
  have hsucc : (m + 1) * b = m * b + b := by ring
  by_cases h1 : 2 * r < b
  · rw [if_pos h1]
    refine ⟨by omega, by omega, ?_, le_refl _, by omega⟩
    intro h
    omega
  · rw [if_neg h1]
    by_cases h2 : b < 2 * r
    · rw [if_pos h2, hsucc]
      refine ⟨by omega, by omega, ?_, by omega, le_refl _⟩
      intro h
      omega
    · rw [if_neg h2]
      by_cases h3 : m % 2 = 0
      · rw [if_pos h3]
        exact ⟨by omega, by omega, fun _ => h3, le_refl _, by omega⟩
      · rw [if_neg h3, hsucc]
        exact ⟨by omega, by omega, fun _ => by omega, by omega, le_refl _⟩

/-- The quotient of `divideDouble` is the double nearest to the exact quotient: its
significand `n` has 53 bits (or is `2 ^ 53`, the next power of two), it lies within half
a unit in the last place of `p / t`, and `n` is even when it lies exactly half way. -/
theorem divideDouble_nearest (p t : Nat) (hp : 0 < p) (hle : p ≤ t) :
    ∃ n k : Nat, divideDouble p t = (n : ℚ) / 2 ^ k ∧ 52 ≤ k ∧
      2 ^ 52 ≤ n ∧ n ≤ 2 ^ 53 ∧
      |(n : ℚ) / 2 ^ k - (p : ℚ) / (t : ℚ)| ≤ 1 / 2 ^ (k + 1) ∧
      (|(n : ℚ) / 2 ^ k - (p : ℚ) / (t : ℚ)| = 1 / 2 ^ (k + 1) → n % 2 = 0) := by
  have ht : 0 < t := Nat.lt_of_lt_of_le hp hle
  have hdd : divideDouble p t
      = (roundHalfEven (p * 2 ^ significandShift p t) t : ℚ)
        / 2 ^ significandShift p t := by
    unfold divideDouble
    rw [if_neg (by omega)]
  obtain ⟨hk1, hk2⟩ := significandShift_spec p t hp
  obtain ⟨hr1, hr2, hr3, hr4, hr5⟩ :=
    roundHalfEven_spec (p * 2 ^ significandShift p t) t ht
  generalize significandShift p t = k at *
  generalize roundHalfEven (p * 2 ^ k) t = n at *
  have hk : 52 ≤ k := by
    by_contra hlt
    have h1 : 2 ^ k < 2 ^ 52 := Nat.pow_lt_pow_right (by decide) (by omega)
    have h2 : p * 2 ^ k ≤ t * 2 ^ k := Nat.mul_le_mul_right _ hle
    have h3 : t * 2 ^ k < t * 2 ^ 52 := (Nat.mul_lt_mul_left ht).2 h1
    omega
  have hupper : p * 2 ^ k < t * 2 ^ 53 := by
    have h1 := hk2 (k - 1) (by omega)
    have h2 : p * 2 ^ k = 2 * (p * 2 ^ (k - 1)) := by
      have : k = (k - 1) + 1 := by omega
      conv_lhs => rw [this, Nat.pow_succ]
      ring
    have h3 : t * 2 ^ 53 = 2 * (t * 2 ^ 52) := by ring
    omega
  have hn1 : 2 ^ 52 ≤ n := by
    refine le_trans ?_ hr4
    rw [Nat.le_div_iff_mul_le ht]
    rw [Nat.mul_comm]
    exact hk1
  have hn2 : n ≤ 2 ^ 53 := by
    have : p * 2 ^ k / t < 2 ^ 53 := by
      rw [Nat.div_lt_iff_lt_mul ht]
      omega
    omega
  have hT : (0 : ℚ) < (t : ℚ) := by exact_mod_cast ht
  have hK : (0 : ℚ) < (2 : ℚ) ^ k := by positivity
  have c1 : 2 * ((n : ℚ) * t) ≤ 2 * ((p : ℚ) * 2 ^ k) + t := by exact_mod_cast hr1
  have c2 : 2 * ((p : ℚ) * 2 ^ k) ≤ 2 * ((n : ℚ) * t) + t := by exact_mod_cast hr2
  have hdiff : (n : ℚ) / 2 ^ k - (p : ℚ) / (t : ℚ)
      = ((n : ℚ) * t - (p : ℚ) * 2 ^ k) / (2 ^ k * t) := by
    field_simp
    ring
  have hhalf : (1 : ℚ) / 2 ^ (k + 1) = ((t : ℚ) / 2) / (2 ^ k * t) := by
    rw [pow_succ]
    field_simp
    ring
  have hden : (0 : ℚ) < 2 ^ k * (t : ℚ) := by positivity
  refine ⟨n, k, hdd, hk, hn1, hn2, ?_, ?_⟩
  · rw [hdiff, hhalf, abs_div, abs_of_pos hden, div_le_div_iff_of_pos_right hden, abs_le]
    constructor <;> linarith
  · intro h
    rw [hdiff, hhalf, abs_div, abs_of_pos hden, div_left_inj' (ne_of_gt hden)] at h
    apply hr3
    rcases abs_eq (by positivity : (0 : ℚ) ≤ (t : ℚ) / 2) |>.1 h with h1 | h1
    · left
      have : 2 * ((n : ℚ) * t) = 2 * ((p : ℚ) * 2 ^ k) + t := by linarith
      exact_mod_cast this
    · right
      have : 2 * ((p : ℚ) * 2 ^ k) = 2 * ((n : ℚ) * t) + t := by linarith
      exact_mod_cast this

set_option maxRecDepth 100000 in
/-- The default pass-rate threshold is the double nearest to `85 / 100`: it is the
quotient `85 / 100` as `divideDouble` computes it, equally `17 / 20`, and it differs
from the exact value by less than `2 ^ -54`. -/
theorem defaultPassThreshold_spec :
    defaultPassThreshold = divideDouble 85 100 ∧
    defaultPassThreshold = divideDouble 17 20 ∧
    |defaultPassThreshold - 85 / 100| < 1 / 2 ^ 54 := by
  have hshift : significandShift 85 100 = 53 := by decide
  have hround : roundHalfEven (85 * 2 ^ 53) 100 = 7656119366529843 := by decide
  have hshift2 : significandShift 17 20 = 53 := by decide
  have hround2 : roundHalfEven (17 * 2 ^ 53) 20 = 7656119366529843 := by decide
  refine ⟨?_, ?_, ?_⟩
  · unfold divideDouble defaultPassThreshold
    rw [if_neg (by decide), hshift, hround]
    norm_num
  · unfold divideDouble defaultPassThreshold
    rw [if_neg (by decide), hshift2, hround2]
    norm_num
  · unfold defaultPassThreshold
    rw [abs_lt]
    constructor <;> norm_num


/-! ## Lemmas on the wizard's mandatory list -/

theorem isInfix_of_append_left (pat q a : JsString) (z : Char)
    (hz : pat.head? = some z) (hq : z ∉ q) (h : pat <:+: q ++ a) : pat <:+: a := by
  rw [← List.reverse_infix] at h ⊢
  rw [List.reverse_append] at h
  exact isInfix_of_append_right _ _ _ z (by rw [List.getLast?_reverse]; exact hz)
    (fun hm => hq (List.mem_reverse.1 hm)) h

theorem matchMandatory_eq_none (text : JsString)
    (h : ¬ "const mandatory = [".toList <+: text) : matchMandatory text = none := by
  unfold matchMandatory
  have hs : startsWith text "const mandatory = [".toList = false := by
    cases hb : startsWith text "const mandatory = [".toList with
    | false => rfl
    | true => exact absurd (( List.isPrefixOf_iff_prefix.1 hb)) h
  rw [hs]
  rfl

/-- No match starts inside a text that, extended by what follows, does not contain the
start of the statement. -/
theorem findMandatory_append (rest : JsString) :
    ∀ a : JsString,
      ¬ "const mandatory = [".toList
          <:+: a ++ rest.take ("const mandatory = [".toList.length - 1) →
      findMandatory (a ++ rest) = findMandatory rest := by
  intro a
  induction a with
  | nil => intro _; rfl
  | cons c a ih =>
    intro h
    show findMandatory (c :: (a ++ rest)) = _
    conv_lhs => unfold findMandatory
    have hm : matchMandatory (c :: (a ++ rest)) = none := by
      apply matchMandatory_eq_none
      intro hp
      apply h
      have h2 : c :: a ++ rest.take ("const mandatory = [".toList.length - 1)
          <+: c :: (a ++ rest) := by
        show c :: (a ++ rest.take _) <+: c :: (a ++ rest)
        rw [List.prefix_cons_inj, List.prefix_append_right_inj]
        exact List.take_prefix _ _
      have h3 : "const mandatory = [".toList.length
          ≤ (c :: a ++ rest.take ("const mandatory = [".toList.length - 1)).length := by
        have hl := hp.length_le
        have h19 : "const mandatory = [".toList.length = 19 := rfl
        simp only [List.length_append, List.length_cons, List.length_take] at hl ⊢
        rw [h19] at hl ⊢
        omega
      exact (List.prefix_of_prefix_length_le hp h2 h3).isInfix
    rw [hm]
    exact ih (fun hi => h (hi.trans (List.infix_cons (List.infix_refl _))))

theorem findMandatory_eq_none (text : JsString)
    (h : ¬ "const mandatory = [".toList <:+: text) : findMandatory text = none := by
  have h2 := findMandatory_append [] text (by
    rw [List.take_nil, List.append_nil]
    exact h)
  rw [List.append_nil] at h2
  rw [h2]
  rfl

theorem takeWhile_ne_append (body tail : JsString) (c : Char) (h : c ∉ body) :
    (body ++ c :: tail).takeWhile (fun x => x != c) = body ∧
    (body ++ c :: tail).dropWhile (fun x => x != c) = c :: tail := by
  induction body with
  | nil => simp
  | cons b body ih =>
    have hb : b ≠ c := fun e => h (e ▸ List.mem_cons_self _ _)
    have ih2 := ih (fun hm => h (List.mem_cons_of_mem _ hm))
    simp [hb, ih2.1, ih2.2]

theorem findMandatory_statement (pre body post : JsString)
    (hpre : ¬ "const mandatory = [".toList <:+: pre)
    (hbody : body ≠ []) (hclose : ']' ∉ body) :
    findMandatory (pre ++ "const mandatory = [".toList ++ body ++ "];".toList ++ post)
      = some body := by
  have e : pre ++ "const mandatory = [".toList ++ body ++ "];".toList ++ post
      = pre ++ ("const mandatory = [".toList ++ (body ++ ']' :: (';' :: post))) := by
    simp only [List.append_assoc]
    rfl
  rw [e, findMandatory_append _ pre]
  · show findMandatory ('c' :: ("onst mandatory = [".toList ++ (body ++ ']' :: (';' :: post))))
      = some body
    unfold findMandatory
    have hm : matchMandatory
        ('c' :: ("onst mandatory = [".toList ++ (body ++ ']' :: (';' :: post))))
        = some body := by
      unfold matchMandatory
      have hs : startsWith
          ('c' :: ("onst mandatory = [".toList ++ (body ++ ']' :: (';' :: post))))
          "const mandatory = [".toList = true :=
        List.isPrefixOf_iff_prefix.2 ⟨_, rfl⟩
      have hd : List.drop "const mandatory = [".toList.length
          ('c' :: ("onst mandatory = [".toList ++ (body ++ ']' :: (';' :: post))))
          = body ++ ']' :: (';' :: post) := rfl
      have hb : body.isEmpty = false := by
        cases body with
        | nil => exact absurd rfl hbody
        | cons _ _ => rfl
      have hs2 : startsWith (']' :: (';' :: post)) "];".toList = true :=
        List.isPrefixOf_iff_prefix.2 ⟨post, rfl⟩
      rw [hs, if_pos rfl, hd]
      simp only [(takeWhile_ne_append body _ ']' hclose).1,
        (takeWhile_ne_append body _ ']' hclose).2, hb, hs2, Bool.not_false, Bool.and_self,
        if_true]
    rw [hm]
  · intro h
    apply hpre
    apply isInfix_of_append_right _ _ _ '[' (by decide) _ h
    have ht : List.take ("const mandatory = [".toList.length - 1)
        ("const mandatory = [".toList ++ (body ++ ']' :: (';' :: post)))
        = "const mandatory = ".toList := rfl
    rw [ht]
    decide

theorem findMandatory_empty_literal (pre post : JsString)
    (hpre : ¬ "const mandatory = [".toList <:+: pre)
    (hpost : ¬ "const mandatory = [".toList <:+: post) :
    findMandatory (pre ++ "const mandatory = [];".toList ++ post) = none := by
  have e : pre ++ "const mandatory = [];".toList ++ post
      = pre ++ ("const mandatory = [];".toList ++ post) := by
    simp only [List.append_assoc]
  rw [e, findMandatory_append _ pre]
  · show findMandatory ('c' :: ("onst mandatory = [];".toList ++ post)) = none
    unfold findMandatory
    have hm : matchMandatory ('c' :: ("onst mandatory = [];".toList ++ post)) = none := by
      unfold matchMandatory
      have hs : startsWith ('c' :: ("onst mandatory = [];".toList ++ post))
          "const mandatory = [".toList = true :=
        List.isPrefixOf_iff_prefix.2 ⟨']' :: (';' :: post), rfl⟩
      have hd : List.drop "const mandatory = [".toList.length
          ('c' :: ("onst mandatory = [];".toList ++ post)) = ']' :: (';' :: post) := rfl
      rw [hs, if_pos rfl, hd]
      rfl
    rw [hm]
    show findMandatory ("onst mandatory = [];".toList ++ post) = none
    rw [findMandatory_append _ _]
    · exact findMandatory_eq_none post hpost
    · intro h
      apply hpost
      exact (isInfix_of_append_left _ _ _ 'c' (by decide) (by decide) h).trans
        ( List.take_prefix _ _).isInfix
  · intro h
    apply hpre
    apply isInfix_of_append_right _ _ _ '[' (by decide) _ h
    have ht : List.take ("const mandatory = [".toList.length - 1)
        ("const mandatory = [];".toList ++ post) = "const mandatory = ".toList := rfl
    rw [ht]
    decide

theorem isQuote_not_whiteSpace (q : Char) (h : isQuote q = true) :
    isWhiteSpace q = false := by
  unfold isQuote at h
  simp only [Bool.or_eq_true, beq_iff_eq] at h
  unfold isWhiteSpace
  rcases h with h | h <;> simp [h]

theorem isQuote_ne (q c : Char) (h : isQuote q = true) (hc : isQuote c = false) : q ≠ c := by
  intro e
  rw [e, hc] at h
  exact absurd h (by decide)

theorem dropWhile_whiteSpace_append (lead rest : JsString) (c : Char)
    (hl : ∀ x ∈ lead, isWhiteSpace x = true) (hc : isWhiteSpace c = false) :
    (lead ++ c :: rest).dropWhile isWhiteSpace = c :: rest := by
  induction lead with
  | nil => simp [hc]
  | cons x lead ih =>
    have hx := hl x (List.mem_cons_self _ _)
    simp only [List.cons_append, List.dropWhile_cons, hx, if_true]
    exact ih (fun y hy => hl y (List.mem_cons_of_mem _ hy))

theorem trim_quoted (lead trail name : JsString) (opening closing : Char)
    (hl : ∀ c ∈ lead, isWhiteSpace c = true) (ht : ∀ c ∈ trail, isWhiteSpace c = true)
    (ho : isQuote opening = true) (hc : isQuote closing = true) :
    trim (lead ++ opening :: name ++ closing :: trail) = opening :: name ++ [closing] := by
  unfold trim
  have e1 : lead ++ opening :: name ++ closing :: trail
      = lead ++ opening :: (name ++ closing :: trail) := by simp
  rw [e1, dropWhile_whiteSpace_append _ _ _ hl (isQuote_not_whiteSpace _ ho)]
  have e2 : (opening :: (name ++ closing :: trail)).reverse
      = trail.reverse ++ closing :: (opening :: name).reverse := by simp
  rw [e2, dropWhile_whiteSpace_append _ _ _
    (fun x hx => ht x (List.mem_reverse.1 hx)) (isQuote_not_whiteSpace _ hc)]
  simp

theorem stripQuotes_quoted (name : JsString) (opening closing : Char)
    (ho : isQuote opening = true) (hc : isQuote closing = true) :
    stripQuotes (opening :: name ++ [closing]) = name := by
  unfold stripQuotes
  show (match (if isQuote opening = true then name ++ [closing]
      else opening :: (name ++ [closing])).getLast? with
    | some c => if isQuote c = true then
        (if isQuote opening = true then name ++ [closing]
          else opening :: (name ++ [closing])).dropLast
      else (if isQuote opening = true then name ++ [closing]
          else opening :: (name ++ [closing]))
    | none => (if isQuote opening = true then name ++ [closing]
          else opening :: (name ++ [closing]))) = name
  rw [if_pos ho, List.getLast?_append_of_ne_nil _ (List.cons_ne_nil _ _)]
  simp [hc]

theorem mem_join (sep : JsString) (c : Char) :
    ∀ l : List JsString, c ∈ join sep l → c ∈ sep ∨ ∃ w ∈ l, c ∈ w := by
  intro l
  induction l with
  | nil => intro h; exact absurd h (List.not_mem_nil _)
  | cons x rest ih =>
    cases rest with
    | nil =>
      intro h
      rw [join_singleton] at h
      exact Or.inr ⟨x, List.mem_cons_self _ _, h⟩
    | cons y rest2 =>
      intro h
      rw [join_cons_cons] at h
      rcases List.mem_append.1 h with h1 | h1
      · rcases List.mem_append.1 h1 with h2 | h2
        · exact Or.inr ⟨x, List.mem_cons_self _ _, h2⟩
        · exact Or.inl h2
      · rcases ih h1 with h2 | ⟨w, hw, h2⟩
        · exact Or.inl h2
        · exact Or.inr ⟨w, List.mem_cons_of_mem _ hw, h2⟩

theorem isTokenChar_facts (c : Char) (h : isTokenChar c = true) :
    c ≠ ',' ∧ c ≠ ']' := by
  constructor <;> intro e <;> rw [e] at h <;> exact absurd h (by decide)

theorem isWhiteSpace_facts (c : Char) (h : isWhiteSpace c = true) :
    c ≠ ',' ∧ c ≠ ']' := by
  constructor <;> intro e <;> rw [e] at h <;> exact absurd h (by decide)

theorem isQuote_facts (c : Char) (h : isQuote c = true) : c ≠ ',' ∧ c ≠ ']' := by
  constructor <;> intro e <;> rw [e] at h <;> exact absurd h (by decide)

theorem IsQuotedName.facts (item name : JsString) (h : IsQuotedName item name)
    (hname : ∀ c ∈ name, isTokenChar c = true) :
    stripQuotes (trim item) = name ∧ item ≠ [] ∧ ',' ∉ item ∧ ']' ∉ item := by
  obtain ⟨lead, trail, opening, closing, hl, ht, ho, hc, e⟩ := h
  have hall : ∀ c ∈ item, c ≠ ',' ∧ c ≠ ']' := by
    intro c hm
    rw [e] at hm
    simp only [List.mem_append, List.mem_cons] at hm
    rcases hm with (h1 | h1 | h1) | h1 | h1
    · exact isWhiteSpace_facts c (hl c h1)
    · rw [h1]; exact isQuote_facts _ ho
    · exact isTokenChar_facts c (hname c h1)
    · rw [h1]; exact isQuote_facts _ hc
    · exact isWhiteSpace_facts c (ht c h1)
  refine ⟨?_, ?_, fun hm => (hall _ hm).1 rfl, fun hm => (hall _ hm).2 rfl⟩
  · rw [e, trim_quoted _ _ _ _ _ hl ht ho hc, stripQuotes_quoted _ _ _ ho hc]
  · rw [e]
    simp

theorem values_of_quoted (rendered names : List JsString)
    (h : List.Forall₂ IsQuotedName rendered names)
    (hnames : ∀ name ∈ names, name ≠ [] ∧ ∀ c ∈ name, isTokenChar c = true) :
    (((rendered.map trim).map stripQuotes).filter (fun v => !v.isEmpty)) = names ∧
    (∀ item ∈ rendered, item ≠ [] ∧ ',' ∉ item ∧ ']' ∉ item) := by
  induction h with
  | nil => exact ⟨rfl, fun _ hm => absurd hm (List.not_mem_nil _)⟩
  | @cons item name rendered names h1 _ ih =>
    have hn := hnames name (List.mem_cons_self _ _)
    obtain ⟨f1, f2, f3, f4⟩ := IsQuotedName.facts item name h1 hn.2
    obtain ⟨ih1, ih2⟩ := ih (fun n hm => hnames n (List.mem_cons_of_mem _ hm))
    constructor
    · have hne : name.isEmpty = false := by
        cases name with
        | nil => exact absurd rfl hn.1
        | cons _ _ => rfl
      simp only [List.map_cons, List.filter_cons, f1, hne, Bool.not_false, if_true, ih1]
    · intro it hm
      rcases List.mem_cons.1 hm with e | hm2
      · rw [e]; exact ⟨f2, f3, f4⟩
      · exact ih2 it hm2

/-! ## Lemmas relating the two header readers -/

theorem eatNewline_lf (cs : JsString) : eatNewline ('\n' :: cs) = some cs := rfl

theorem eatNewline_crlf (cs : JsString) : eatNewline ('\r' :: '\n' :: cs) = some cs := rfl

theorem eatNewline_other (c : Char) (cs : JsString) (h1 : c ≠ '\n')
    (h2 : ¬ (c = '\r' ∧ ∃ cs', cs = '\n' :: cs')) : eatNewline (c :: cs) = none := by
  unfold eatNewline
  split
  · rename_i heq
    have := List.cons.inj heq
    exact absurd ⟨this.1, _, this.2⟩ h2
  · rename_i heq
    exact absurd (List.cons.inj heq).1 h1
  · rfl

theorem eatNewline_isSome_iff (s : JsString) :
    (eatNewline s).isSome = true
      ↔ (startsWith s "\n".toList = true ∨ startsWith s "\r\n".toList = true) := by
  cases s with
  | nil => simp [eatNewline, startsWith, List.isPrefixOf]
  | cons c cs =>
    by_cases h1 : c = '\n'
    · subst h1
      simp [eatNewline, startsWith, List.isPrefixOf]
    · by_cases h2 : c = '\r' ∧ ∃ cs', cs = '\n' :: cs'
      · obtain ⟨hc, cs', hcs⟩ := h2
        subst hc hcs
        simp [eatNewline, startsWith, List.isPrefixOf]
      · rw [eatNewline_other c cs h1 h2]
        simp only [Option.isSome_none, Bool.false_eq_true, false_iff, not_or]
        constructor
        · intro h
          have := List.isPrefixOf_iff_prefix.1 h
          obtain ⟨t, ht⟩ := this
          exact h1 (List.cons.inj ht).1.symm
        · intro h
          obtain ⟨t, ht⟩ := List.isPrefixOf_iff_prefix.1 h
          have h3 := List.cons.inj ht
          exact h2 ⟨h3.1.symm, _, h3.2.symm⟩

/-- Whether a text at a line start begins with a line `---` and its terminator. -/
theorem dashes_line_iff (cs : JsString) :
    (match cs with
      | '-' :: '-' :: '-' :: rest => (eatNewline rest).isSome
      | _ => false) = true
    ↔ ((splitLines cs).head? = some "---".toList ∧ 2 ≤ (splitLines cs).length) := by
  rw [← startsWith_opening_iff]
  split
  · rename_i rest
    rw [eatNewline_isSome_iff]
    simp [startsWith, List.isPrefixOf]
  · rename_i hne
    simp only [Bool.false_eq_true, false_iff, not_or]
    constructor
    · intro h
      obtain ⟨t, ht⟩ := List.isPrefixOf_iff_prefix.1 h
      exact hne _ ht.symm
    · intro h
      obtain ⟨t, ht⟩ := List.isPrefixOf_iff_prefix.1 h
      exact hne _ ht.symm

theorem closesFrontmatter_lf (cs : JsString) :
    closesFrontmatter ('\n' :: cs) = true
      ↔ ((splitLines cs).head? = some "---".toList ∧ 2 ≤ (splitLines cs).length) := by
  rw [← dashes_line_iff]
  unfold closesFrontmatter
  rw [eatNewline_lf]
  cases cs with
  | nil => simp
  | cons c1 t1 =>
    by_cases h1 : c1 = '-'
    · subst h1
      cases t1 with
      | nil => simp
      | cons c2 t2 =>
        by_cases h2 : c2 = '-'
        · subst h2
          cases t2 with
          | nil => simp
          | cons c3 t3 =>
            by_cases h3 : c3 = '-'
            · subst h3
              rfl
            · simp [h3]
        · simp [h2]
    · simp [h1]

theorem closesFrontmatter_crlf (cs : JsString) :
    closesFrontmatter ('\r' :: '\n' :: cs) = closesFrontmatter ('\n' :: cs) := rfl

theorem closesFrontmatter_other (c : Char) (cs : JsString) (h1 : c ≠ '\n')
    (h2 : ¬ (c = '\r' ∧ ∃ cs', cs = '\n' :: cs')) : closesFrontmatter (c :: cs) = false := by
  unfold closesFrontmatter
  rw [eatNewline_other c cs h1 h2]

theorem frontmatterBody_cons_of_not_closes (c : Char) (cs : JsString)
    (h : closesFrontmatter (c :: cs) = false) :
    frontmatterBody (c :: cs) = (frontmatterBody cs).map (fun body => c :: body) := by
  conv_lhs => unfold frontmatterBody
  rw [h]
  rfl

theorem frontmatterBody_isPrefix :
    ∀ (t body : JsString), frontmatterBody t = some body → body <+: t := by
  intro t
  induction t with
  | nil => intro body h; cases h
  | cons c cs ih =>
    intro body h
    unfold frontmatterBody at h
    by_cases hc : closesFrontmatter (c :: cs) = true
    · rw [if_pos hc] at h
      rw [← Option.some.inj h]
      exact List.nil_prefix
    · rw [if_neg hc] at h
      cases hb : frontmatterBody cs with
      | none => rw [hb] at h; cases h
      | some b =>
        rw [hb] at h
        rw [← Option.some.inj h]
        exact (List.prefix_cons_inj c).2 (ih b hb)

/-- The capture of the lenient reader, line by line: when line `j` of the text is the
first line `---` after its first line that is followed by a line terminator, the
capture consists of the lines before it. -/
theorem frontmatterBody_lines (n : Nat) :
    ∀ (t : JsString) (j : Nat), t.length ≤ n → 1 ≤ j →
      (splitLines t)[j]? = some "---".toList →
      j + 1 < (splitLines t).length →
      (∀ i, 1 ≤ i → i < j →
        ¬ ((splitLines t)[i]? = some "---".toList ∧ i + 1 < (splitLines t).length)) →
      ∃ body, frontmatterBody t = some body ∧ splitLines body = (splitLines t).take j := by
  induction n with
  | zero =>
    intro t j hlen _ _ hnext _
    have ht : t = [] := List.length_eq_zero.1 (Nat.le_zero.1 hlen)
    subst ht
    rw [splitLines_nil] at hnext
    simp at hnext
  | succ n ih =>
    intro t j hlen hj hline hnext hbefore
    cases t with
    | nil =>
      rw [splitLines_nil] at hnext
      simp at hnext
    | cons c cs =>
      have hcs : cs.length ≤ n := by
        simp only [List.length_cons] at hlen
        omega
      -- the step over a line terminator that is followed by the text `rest`
      have hbreak : ∀ rest : JsString, rest.length ≤ n →
          splitLines (c :: cs) = [] :: splitLines rest →
          ∀ (wrap : JsString → JsString),
          (∀ b, splitLines (wrap b) = [] :: splitLines b) →
          (closesFrontmatter (c :: cs) = closesFrontmatter ('\n' :: rest)) →
          (closesFrontmatter (c :: cs) = true → frontmatterBody (c :: cs) = some []) →
          (closesFrontmatter (c :: cs) = false →
            frontmatterBody (c :: cs) = (frontmatterBody rest).map wrap) →
          ∃ body, frontmatterBody (c :: cs) = some body
            ∧ splitLines body = (splitLines (c :: cs)).take j := by
        intro rest hrest hs wrap hwrap hcl hyes hno
        rw [hs] at hline hnext hbefore ⊢
        by_cases hj1 : j = 1
        · subst hj1
          have hc : closesFrontmatter (c :: cs) = true := by
            rw [hcl, closesFrontmatter_lf]
            constructor
            · rw [List.head?_eq_getElem?]
              simpa using hline
            · simp only [List.length_cons] at hnext
              omega
          exact ⟨[], hyes hc, by rw [splitLines_nil]; rfl⟩
        · have hc : closesFrontmatter (c :: cs) = false := by
            cases hb : closesFrontmatter (c :: cs) with
            | false => rfl
            | true =>
              exfalso
              rw [hcl, closesFrontmatter_lf] at hb
              apply hbefore 1 (le_refl 1) (by omega)
              constructor
              · have := hb.1
                rw [List.head?_eq_getElem?] at this
                simpa using this
              · simp only [List.length_cons]
                omega
          obtain ⟨k, hk⟩ : ∃ k, j = k + 1 := ⟨j - 1, by omega⟩
          subst hk
          obtain ⟨body, hb1, hb2⟩ := ih rest k hrest (by omega)
            (by simpa using hline)
            (by simp only [List.length_cons] at hnext; omega)
            (by
              intro i hi1 hi2 hcon
              apply hbefore (i + 1) (by omega) (by omega)
              constructor
              · simpa using hcon.1
              · simp only [List.length_cons]
                omega)
          refine ⟨wrap body, ?_, ?_⟩
          · rw [hno hc, hb1]
            rfl
          · rw [hwrap, hb2]
            rfl
      rcases splitLines_cons_cases c cs with ⟨hc, hs⟩ | ⟨hc, cs', hcs', hs⟩ | ⟨h1, h2, w, ws, hw, hs⟩
      · subst hc
        refine hbreak cs hcs hs (fun b => '\n' :: b) (fun b => splitLines_lf b) rfl ?_ ?_
        · intro h
          unfold frontmatterBody
          rw [h]
          rfl
        · intro h
          exact frontmatterBody_cons_of_not_closes _ _ h
      · subst hc
        subst hcs'
        have hcs2 : cs'.length ≤ n := by
          simp only [List.length_cons] at hcs
          omega
        refine hbreak cs' hcs2 hs (fun b => '\r' :: '\n' :: b) (fun b => splitLines_crlf b)
          rfl ?_ ?_
        · intro h
          unfold frontmatterBody
          rw [h]
          rfl
        · intro h
          rw [frontmatterBody_cons_of_not_closes _ _ h,
            frontmatterBody_cons_of_not_closes _ _ (by
              rw [← closesFrontmatter_crlf]; exact h)]
          cases frontmatterBody cs' <;> rfl
      · have hc : closesFrontmatter (c :: cs) = false := closesFrontmatter_other c cs h1 h2
        rw [hs] at hline hnext hbefore ⊢
        obtain ⟨k, hk⟩ : ∃ k, j = k + 1 := ⟨j - 1, by omega⟩
        subst hk
        obtain ⟨body, hb1, hb2⟩ := ih cs (k + 1) hcs (by omega)
          (by rw [hw]; simpa using hline)
          (by rw [hw]; simpa using hnext)
          (by
            intro i hi1 hi2 hcon
            obtain ⟨m, hm⟩ : ∃ m, i = m + 1 := ⟨i - 1, by omega⟩
            subst hm
            apply hbefore (m + 1) hi1 hi2
            rw [hw] at hcon
            constructor
            · simpa using hcon.1
            · simpa using hcon.2)
        refine ⟨c :: body, ?_, ?_⟩
        · rw [frontmatterBody_cons_of_not_closes _ _ hc, hb1]
          rfl
        · obtain ⟨w2, ws2, hw2, hs2⟩ : ∃ w2 ws2, splitLines body = w2 :: ws2
              ∧ splitLines (c :: body) = (c :: w2) :: ws2 := by
            rcases splitLines_cons_cases c body with ⟨hc0, _⟩ | ⟨hc0, b', hb', _⟩ | ⟨_, _, w2, ws2, e1, e2⟩
            · exact absurd hc0 h1
            · exfalso
              apply h2
              refine ⟨hc0, ?_⟩
              obtain ⟨tail, ht⟩ := frontmatterBody_isPrefix cs body hb1
              rw [hb'] at ht
              exact ⟨_, ht.symm⟩
            · exact ⟨w2, ws2, e1, e2⟩
          rw [hs2]
          rw [hw2, hw] at hb2
          simp only [List.take_succ_cons] at hb2 ⊢
          rw [(List.cons.inj hb2).1, (List.cons.inj hb2).2]

theorem splitLines_opening (content : JsString)
    (hopen : startsWith content "---\n".toList = true
      ∨ startsWith content "---\r\n".toList = true) :
    ∃ text, splitLines content = "---".toList :: splitLines text ∧
      parseFrontmatter content
        = (frontmatterBody text).map
            (fun body => (splitLines body).filterMap matchKeyValue) := by
  rcases hopen with h | h
  · obtain ⟨text, ht⟩ := List.isPrefixOf_iff_prefix.1 h
    refine ⟨text, ?_, ?_⟩
    · rw [← ht]
      show splitLines ('-' :: '-' :: '-' :: '\n' :: text) = _
      rw [splitLines_other _ _ (by decide) (by simp),
        splitLines_other _ _ (by decide) (by simp),
        splitLines_other _ _ (by decide) (by simp), splitLines_lf]
      rfl
    · rw [← ht]
      rfl
  · obtain ⟨text, ht⟩ := List.isPrefixOf_iff_prefix.1 h
    refine ⟨text, ?_, ?_⟩
    · rw [← ht]
      show splitLines ('-' :: '-' :: '-' :: '\r' :: '\n' :: text) = _
      rw [splitLines_other _ _ (by decide) (by simp),
        splitLines_other _ _ (by decide) (by simp),
        splitLines_other _ _ (by decide) (by simp), splitLines_crlf]
      rfl
    · rw [← ht]
      rfl

/-- On a record whose closing line, as the validator finds it, is exactly `---` and
has a line after it, the lenient reader parses the header lines of the validator. -/
theorem parseFrontmatter_of_header (content : JsString) (index : Nat)
    (hopen : startsWith content "---\n".toList = true
      ∨ startsWith content "---\r\n".toList = true)
    (hindex : secondSepIndex (splitLines content) = some index)
    (hlines : 2 ≤ index)
    (hexact : (splitLines content)[index]? = some "---".toList)
    (hnext : index + 1 < (splitLines content).length) :
    parseFrontmatter content
      = some ((((splitLines content).take index).drop 1).filterMap matchKeyValue) := by
  obtain ⟨text, hs, hp⟩ := splitLines_opening content hopen
  rw [hs] at hindex hexact hnext ⊢
  obtain ⟨j, hj⟩ : ∃ j, index = j + 1 := ⟨index - 1, by omega⟩
  subst hj
  unfold secondSepIndex at hindex
  simp only [List.drop_one, List.tail_cons, Option.map_eq_some', Nat.add_right_cancel_iff,
    exists_eq_right] at hindex
  obtain ⟨hlt, -, hmin⟩ := List.findIdx?_eq_some_iff_getElem.1 hindex
  obtain ⟨body, hb1, hb2⟩ := frontmatterBody_lines text.length text j (le_refl _) (by omega)
    (by simpa using hexact) (by simpa using hnext)
    (by
      intro i _ hi2 hcon
      have hi : i < (splitLines text).length := by omega
      apply hmin i hi2
      have hget : (splitLines text)[i] = "---".toList := by
        have := hcon.1
        rw [List.getElem?_eq_getElem hi] at this
        exact Option.some.inj this
      rw [hget]
      decide)
  rw [hp, hb1]
  simp only [Option.map_some', List.take_succ_cons, List.drop_one, List.tail_cons, hb2]

theorem trim_dropWhile (s : JsString) : trim (s.dropWhile isWhiteSpace) = trim s := by
  unfold trim
  rw [List.dropWhile_idempotent]

theorem matchKeyValue_of_matchKey (line key : JsString)
    (hkey : matchKey line = some key)
    (hterm : ∀ c ∈ line, isLineTerminator c = false) :
    matchKeyValue line = some (key, trim (line.drop (key.length + 1))) := by
  obtain ⟨hne, hall, rest, hl⟩ := (matchKey_eq_some_iff line key).1 hkey
  have h1 : line.takeWhile isKeyChar = key := by
    rw [hl, List.takeWhile_append_of_pos hall]
    simp [isKeyChar]
  have h2 : line.dropWhile isKeyChar = ':' :: rest := by
    rw [hl, List.dropWhile_append_of_pos hall]
    simp [isKeyChar]
  have h3 : line.drop (key.length + 1) = rest := by
    rw [hl]
    have : key ++ ':' :: rest = (key ++ [':']) ++ rest := by simp
    rw [this, ← List.length_singleton ':', ← List.length_append, List.drop_left]
  have h4 : (rest.dropWhile isWhiteSpace).any isLineTerminator = false := by
    rw [List.any_eq_false]
    intro c hc
    have hc2 : c ∈ line := by
      rw [hl]
      exact List.mem_append_right _
        (List.mem_cons_of_mem _ ((List.dropWhile_suffix _).subset hc))
    rw [hterm c hc2]
    decide
  unfold matchKeyValue
  simp only [h1, h2, h3, h4, hne, trim_dropWhile, decide_False, Bool.or_self,
    Bool.false_eq_true, if_false]

theorem matchKey_of_matchKeyValue (line key value : JsString)
    (h : matchKeyValue line = some (key, value)) :
    matchKey line = some key ∧ value = trim (line.drop (key.length + 1)) := by
  unfold matchKeyValue at h
  have htd := List.takeWhile_append_dropWhile isKeyChar line
  cases hd : line.dropWhile isKeyChar with
  | nil => simp [hd] at h
  | cons c rest =>
    by_cases hc : c = ':'
    · subst hc
      rw [hd] at h htd
      simp only at h
      by_cases hcond : (decide (line.takeWhile isKeyChar = [])
          || (rest.dropWhile isWhiteSpace).any isLineTerminator) = true
      · rw [if_pos hcond] at h
        cases h
      · rw [if_neg hcond] at h
        have hk := (Prod.mk.inj (Option.some.inj h)).1
        have hv := (Prod.mk.inj (Option.some.inj h)).2
        have hne : ¬ line.takeWhile isKeyChar = [] := by
          intro e
          apply hcond
          simp [e]
        constructor
        · unfold matchKey
          rw [hk] at hne
          simp only [hd, hne, if_false, hk]
        · rw [← hv, trim_dropWhile]
          congr 1
          rw [← htd, hk]
          have : key ++ ':' :: rest = (key ++ [':']) ++ rest := by simp
          rw [this, ← List.length_singleton ':', ← List.length_append, List.drop_left]
    · exfalso
      rw [hd] at h
      revert h
      split
      · rename_i heq
        exact absurd (List.cons.inj heq).1 hc
      · intro h; cases h

theorem lookup_of_mem (key : JsString) (map : List (JsString × JsString))
    (h : ∃ kv ∈ map, kv.1 = key) :
    ∃ kv ∈ map, kv.1 = key ∧ lookup key map = some kv.2 := by
  unfold lookup
  cases hf : map.reverse.find? (fun kv => kv.1 == key) with
  | none =>
    exfalso
    obtain ⟨kv, hm, hk⟩ := h
    have := List.find?_eq_none.1 hf kv (List.mem_reverse.2 hm)
    simp [hk] at this
  | some kv =>
    refine ⟨kv, List.mem_reverse.1 (List.mem_of_find?_eq_some hf), ?_, rfl⟩
    have := List.find?_some hf
    simpa using this

/-! ## Lemmas on the generated companion file -/

theorem codeUnits_append (a b : JsString) :
    codeUnits (a ++ b) = codeUnits a ++ codeUnits b := by
  simp [codeUnits]

theorem char_ofNat_toNat (c : Char) : Char.ofNat c.toNat = c := by
  simp

theorem quoteUnit_plain (c : Char) (h : isPlainChar c = true) :
    quoteUnit c.toNat = [c] := by
  unfold isPlainChar at h
  simp only [Bool.and_eq_true, decide_eq_true_eq, bne_iff_ne, ne_eq] at h
  obtain ⟨⟨h1, h2⟩, h3⟩ := h
  unfold quoteUnit
  rw [if_neg (by omega), if_neg (by omega), if_neg (by omega), if_neg (by omega),
    if_neg (by omega), if_neg h2, if_neg h3, if_neg (by omega), char_ofNat_toNat]

theorem quoteLone_plain (c : Char) (h : isPlainChar c = true) (hb : c.toNat < 0x10000) :
    quoteLone c.toNat = [c] := by
  have hv := char_valid c
  unfold quoteLone
  rw [if_neg (by omega), quoteUnit_plain c h]

theorem quoteJSONUnits_cons_lone (u : Nat) (rest : List Nat)
    (h : ¬ ((0xD800 ≤ u ∧ u < 0xDC00)
      ∧ ∃ low rest', rest = low :: rest' ∧ 0xDC00 ≤ low ∧ low < 0xE000)) :
    quoteJSONUnits (u :: rest) = quoteLone u ++ quoteJSONUnits rest := by
  cases rest with
  | nil => simp [quoteJSONUnits]
  | cons low rest' =>
    rw [quoteJSONUnits, if_neg]
    intro hc
    exact h ⟨hc.1, low, rest', rfl, hc.2⟩

theorem quoteJSONUnits_bmp (c : Char) (rest : List Nat) (h : isPlainChar c = true)
    (hb : c.toNat < 0x10000) :
    quoteJSONUnits (c.toNat :: rest) = c :: quoteJSONUnits rest := by
  have hv := char_valid c
  rw [quoteJSONUnits_cons_lone _ _ (by omega), quoteLone_plain c h hb]
  rfl

theorem quoteJSONUnits_pair (c : Char) (high low : Nat) (rest : List Nat)
    (hb : ¬ c.toNat < 0x10000)
    (hhigh : high = 0xD800 + (c.toNat - 0x10000) / 0x400)
    (hlow : low = 0xDC00 + (c.toNat - 0x10000) % 0x400) :
    quoteJSONUnits (high :: low :: rest) = c :: quoteJSONUnits rest := by
  have hv := char_valid c
  rw [quoteJSONUnits]
  have hcond : (0xD800 ≤ high ∧ high < 0xDC00) ∧ (0xDC00 ≤ low ∧ low < 0xE000) := by omega
  rw [if_pos hcond]
  have e : 0x10000 + (high - 0xD800) * 0x400 + (low - 0xDC00) = c.toNat := by omega
  rw [e, char_ofNat_toNat]

theorem quoteJSONUnits_lone (c : Char) (high : Nat) (rest : List Nat)
    (hb : ¬ c.toNat < 0x10000)
    (hhigh : high = 0xD800 + (c.toNat - 0x10000) / 0x400)
    (hrest : ∀ low rest', rest = low :: rest' → ¬ (0xDC00 ≤ low ∧ low < 0xE000)) :
    quoteJSONUnits (high :: rest) = unicodeEscape high ++ quoteJSONUnits rest := by
  have hv := char_valid c
  rw [quoteJSONUnits_cons_lone]
  · unfold quoteLone
    rw [if_pos (by omega)]
  · rintro ⟨-, low, rest', e, h⟩
    exact hrest low rest' e h

/-- On the code units of a text of plain characters, followed by anything,
`JSON.stringify` writes the text as it is. -/
theorem quoteJSONUnits_codeUnits (s : JsString) (rest : List Nat)
    (h : ∀ c ∈ s, isPlainChar c = true) :
    quoteJSONUnits (codeUnits s ++ rest) = s ++ quoteJSONUnits rest := by
  induction s with
  | nil => rfl
  | cons c s ih =>
    have hc := h c (List.mem_cons_self _ _)
    have ih2 := ih (fun d hd => h d (List.mem_cons_of_mem _ hd))
    rw [codeUnits_cons]
    by_cases hb : c.toNat < 0x10000
    · rw [if_pos hb]
      show quoteJSONUnits (c.toNat :: (codeUnits s ++ rest)) = _
      rw [quoteJSONUnits_bmp c _ hc hb, ih2]
      rfl
    · rw [if_neg hb]
      show quoteJSONUnits (_ :: _ :: (codeUnits s ++ rest)) = _
      rw [quoteJSONUnits_pair c _ _ _ hb rfl rfl, ih2]
      rfl

theorem codeUnits_head_not_low (t : JsString) :
    ∀ low rest', codeUnits t = low :: rest' → ¬ (0xDC00 ≤ low ∧ low < 0xE000) := by
  intro low rest' h
  cases t with
  | nil => cases h
  | cons c cs =>
    have hv := char_valid c
    rw [codeUnits_cons] at h
    by_cases hb : c.toNat < 0x10000
    · rw [if_pos hb] at h
      have := (List.cons.inj h).1
      omega
    · rw [if_neg hb] at h
      have := (List.cons.inj h).1
      omega

theorem hexDigit_toNat (n : Nat) (h : n < 16) :
    (hexDigit n).toNat < 0x10000 ∧ isLineTerminator (hexDigit n) = false := by
  interval_cases n <;> decide

theorem unicodeEscape_facts (u : Nat) :
    (codeUnits (unicodeEscape u)).length = 6
      ∧ ∀ c ∈ unicodeEscape u, isLineTerminator c = false := by
  have h1 := hexDigit_toNat (u / 4096 % 16) (Nat.mod_lt _ (by decide))
  have h2 := hexDigit_toNat (u / 256 % 16) (Nat.mod_lt _ (by decide))
  have h3 := hexDigit_toNat (u / 16 % 16) (Nat.mod_lt _ (by decide))
  have h4 := hexDigit_toNat (u % 16) (Nat.mod_lt _ (by decide))
  constructor
  · unfold unicodeEscape
    simp only [codeUnits_cons, h1.1, h2.1, h3.1, h4.1, if_true]
    rfl
  · intro c hc
    unfold unicodeEscape at hc
    simp only [List.mem_cons, List.mem_singleton, List.not_mem_nil, or_false] at hc
    rcases hc with h | h | h | h | h | h <;> rw [h]
    · decide
    · decide
    · exact h1.2
    · exact h2.2
    · exact h3.2
    · exact h4.2

/-- What `JSON.stringify` writes for the first `k` code units of a text of plain
characters followed by a text of plain characters: a prefix of the first text, then
possibly the escape of a high surrogate cut from its pair, then the second text. -/
theorem quoteJSONUnits_take (t : JsString) (ht : ∀ c ∈ t, isPlainChar c = true) :
    ∀ (s : JsString) (k : Nat), (∀ c ∈ s, isPlainChar c = true) →
      ∃ s₁ e, s₁ <+: s ∧
        quoteJSONUnits ((codeUnits s).take k ++ codeUnits t) = s₁ ++ e ++ t ∧
        ((e = [] ∧ (codeUnits s₁).length ≤ k)
          ∨ (∃ u, e = unicodeEscape u ∧ (codeUnits s₁).length + 1 ≤ k)) := by
  have hbase : quoteJSONUnits (codeUnits t) = t := by
    have := quoteJSONUnits_codeUnits t [] ht
    rw [List.append_nil] at this
    rw [this]
    simp [quoteJSONUnits]
  intro s
  induction s with
  | nil =>
    intro k _
    refine ⟨[], [], List.prefix_refl _, ?_, Or.inl ⟨rfl, Nat.zero_le _⟩⟩
    show quoteJSONUnits (List.take k [] ++ codeUnits t) = _
    rw [List.take_nil, List.nil_append, hbase]
    rfl
  | cons c s ih =>
    intro k hs
    have hc := hs c (List.mem_cons_self _ _)
    have hs2 : ∀ d ∈ s, isPlainChar d = true := fun d hd => hs d (List.mem_cons_of_mem _ hd)
    cases k with
    | zero =>
      refine ⟨[], [], List.nil_prefix, ?_, Or.inl ⟨rfl, Nat.zero_le _⟩⟩
      rw [List.take_zero, List.nil_append, hbase]
      rfl
    | succ k =>
      rw [codeUnits_cons]
      by_cases hb : c.toNat < 0x10000
      · rw [if_pos hb]
        obtain ⟨s₁, e, hp, hq, hl⟩ := ih k hs2
        refine ⟨c :: s₁, e, (List.prefix_cons_inj c).2 hp, ?_, ?_⟩
        · show quoteJSONUnits (c.toNat :: (List.take k (codeUnits s) ++ codeUnits t)) = _
          rw [quoteJSONUnits_bmp c _ hc hb, hq]
          rfl
        · rw [codeUnits_cons, if_pos hb]
          simp only [List.singleton_append, List.length_cons]
          rcases hl with ⟨h1, h2⟩ | ⟨u, h1, h2⟩
          · exact Or.inl ⟨h1, by omega⟩
          · exact Or.inr ⟨u, h1, by omega⟩
      · rw [if_neg hb]
        cases k with
        | zero =>
          refine ⟨[], unicodeEscape (0xD800 + (c.toNat - 0x10000) / 0x400),
            List.nil_prefix, ?_, Or.inr ⟨_, rfl, by simp [codeUnits]⟩⟩
          show quoteJSONUnits ((0xD800 + (c.toNat - 0x10000) / 0x400) :: codeUnits t) = _
          rw [quoteJSONUnits_lone c _ _ hb rfl (codeUnits_head_not_low t), hbase]
          rfl
        | succ k =>
          obtain ⟨s₁, e, hp, hq, hl⟩ := ih k hs2
          refine ⟨c :: s₁, e, (List.prefix_cons_inj c).2 hp, ?_, ?_⟩
          · show quoteJSONUnits ((0xD800 + (c.toNat - 0x10000) / 0x400)
                :: (0xDC00 + (c.toNat - 0x10000) % 0x400)
                :: (List.take k (codeUnits s) ++ codeUnits t)) = _
            rw [quoteJSONUnits_pair c _ _ _ hb rfl rfl, hq]
            rfl
          · rw [codeUnits_cons, if_neg hb]
            simp only [List.cons_append, List.nil_append, List.length_cons]
            rcases hl with ⟨h1, h2⟩ | ⟨u, h1, h2⟩
            · exact Or.inl ⟨h1, by omega⟩
            · exact Or.inr ⟨u, h1, by omega⟩

/-! ## Lemmas on the generator and the validator of companion files -/

theorem isWhiteSpace_of_isLineTerminator (c : Char) (h : isLineTerminator c = true) :
    isWhiteSpace c = true := by
  unfold isLineTerminator at h
  simp only [Bool.or_eq_true, beq_iff_eq] at h
  unfold isWhiteSpace
  rcases h with ((h | h) | h) | h
  · rw [h]; decide
  · rw [h]; decide
  · simp [h]
  · simp [h]

theorem isPlainChar_space : isPlainChar ' ' = true := by decide

theorem normalizeDescription_chars (description : JsString)
    (h : ∀ c ∈ description, isPlainChar c = true ∨ isWhiteSpace c = true) :
    ∀ c ∈ normalizeDescription description,
      isPlainChar c = true ∧ isLineTerminator c = false := by
  intro c hc
  unfold normalizeDescription at hc
  by_cases he : description.isEmpty = true
  · rw [if_pos he] at hc
    cases hc
  · rw [if_neg he] at hc
    have hc2 := (trim_isInfix _).subset hc
    rcases mem_replaceRunsAux isWhiteSpace false description c hc2 with h1 | ⟨h1, h2⟩
    · rw [h1]
      exact ⟨by decide, by decide⟩
    · constructor
      · rcases h c h1 with h3 | h3
        · exact h3
        · rw [h2] at h3
          cases h3
      · cases ht : isLineTerminator c with
        | false => rfl
        | true =>
          rw [isWhiteSpace_of_isLineTerminator c ht] at h2
          cases h2

theorem mem_of_mem_splitRunsAux (p : Char → Bool) (b : Bool) (s w : JsString)
    (hw : w ∈ splitRunsAux p b s) : ∀ c ∈ w, c ∈ s := by
  induction s generalizing b w with
  | nil =>
    simp only [splitRunsAux, List.mem_singleton] at hw
    subst hw
    intro c hc
    cases hc
  | cons d ds ih =>
    unfold splitRunsAux at hw
    by_cases hd : p d = true
    · cases b with
      | true =>
        simp only [hd, if_true] at hw
        exact fun c hc => List.mem_cons_of_mem _ (ih true w hw c hc)
      | false =>
        simp only [hd, if_true, Bool.false_eq_true, if_false, List.mem_cons] at hw
        rcases hw with rfl | hw
        · intro c hc
          cases hc
        · exact fun c hc => List.mem_cons_of_mem _ (ih true w hw c hc)
    · simp only [hd, Bool.false_eq_true, if_false] at hw
      obtain ⟨v, vs, hv⟩ := List.exists_cons_of_ne_nil (splitRunsAux_ne_nil p false ds)
      rw [hv, consHead_eq, List.mem_cons] at hw
      rcases hw with rfl | hw
      · intro c hc
        rcases List.mem_cons.1 hc with rfl | hc2
        · exact List.mem_cons_self _ _
        · exact List.mem_cons_of_mem _ (ih false v (hv ▸ List.mem_cons_self _ _) c hc2)
      · exact fun c hc => List.mem_cons_of_mem _
          (ih false w (hv ▸ List.mem_cons_of_mem _ hw) c hc)

theorem isTokenChar_ascii (c : Char) (h : isTokenChar c = true) : c.toNat < 0x80 := by
  unfold isTokenChar at h
  simp only [Bool.or_eq_true, Bool.and_eq_true, decide_eq_true_eq, beq_iff_eq] at h
  rcases h with (h | h) | h
  · have h2 := (char_le_iff _ _).1 h.2
    have e2 : 'z'.toNat = 122 := rfl
    omega
  · have h2 := (char_le_iff _ _).1 h.2
    have e2 : '9'.toNat = 57 := rfl
    omega
  · rw [h]
    decide

theorem isTokenChar_plain (c : Char) (h : isTokenChar c = true) :
    (isPlainChar c = true ∧ isLineTerminator c = false) ∧
    (isPlainChar (upperChar c) = true ∧ isLineTerminator (upperChar c) = false) := by
  have hb : 45 ≤ c.toNat ∧ c.toNat ≤ 122 := by
    unfold isTokenChar at h
    simp only [Bool.or_eq_true, Bool.and_eq_true, decide_eq_true_eq, beq_iff_eq] at h
    rcases h with (h | h) | h
    · have h1 := (char_le_iff _ _).1 h.1
      have h2 := (char_le_iff _ _).1 h.2
      have e1 : 'a'.toNat = 97 := rfl
      have e2 : 'z'.toNat = 122 := rfl
      omega
    · have h1 := (char_le_iff _ _).1 h.1
      have h2 := (char_le_iff _ _).1 h.2
      have e1 : '0'.toNat = 48 := rfl
      have e2 : '9'.toNat = 57 := rfl
      omega
    · rw [h]
      decide
  rw [← char_ofNat_toNat c] at h ⊢
  generalize c.toNat = n at *
  obtain ⟨h1, h2⟩ := hb
  interval_cases n <;> revert h <;> decide

theorem titleCase_chars (toUpperCase : Char → JsString) (name : JsString)
    (h : ∀ c ∈ name, isTokenChar c = true) :
    ∀ c ∈ titleCase toUpperCase name, isPlainChar c = true ∧ isLineTerminator c = false := by
  intro c hc
  unfold titleCase at hc
  rcases mem_join _ _ _ hc with h1 | ⟨w, hw, h1⟩
  · have : c = ' ' := by simpa using h1
    rw [this]
    exact ⟨by decide, by decide⟩
  · obtain ⟨part, hp, hpw⟩ := List.mem_map.1 hw
    have hpart := (List.mem_filter.1 hp).1
    have hsub : ∀ d ∈ part, isTokenChar d = true := fun d hd =>
      h d (mem_of_mem_splitRunsAux _ _ _ _ hpart d hd)
    cases part with
    | nil =>
      rw [← hpw] at h1
      cases h1
    | cons d ds =>
      rw [← hpw] at h1
      have hd := hsub d (List.mem_cons_self _ _)
      have hfirst : upperFirst toUpperCase d = [upperChar d] := by
        unfold upperFirst
        rw [if_pos (isTokenChar_ascii d hd)]
      have h1' : c ∈ upperFirst toUpperCase d ++ ds := h1
      rw [hfirst] at h1'
      rcases List.mem_cons.1 h1' with h2 | h2
      · rw [h2]
        exact (isTokenChar_plain d hd).2
      · exact (isTokenChar_plain c (hsub c (List.mem_cons_of_mem _ h2))).1

theorem splitLines_line (b : JsString) :
    ∀ a : JsString, (∀ c ∈ a, isLineTerminator c = false) →
      splitLines (a ++ '\n' :: b) = a :: splitLines b := by
  intro a
  induction a with
  | nil => intro _; exact splitLines_lf b
  | cons c a ih =>
    intro h
    have hc := h c (List.mem_cons_self _ _)
    unfold isLineTerminator at hc
    simp only [Bool.or_eq_false_iff, beq_eq_false_iff_ne, ne_eq] at hc
    show splitLines (c :: (a ++ '\n' :: b)) = _
    rw [splitLines_other c _ hc.1.1.1 (fun hcon => hc.1.1.2 hcon.1),
      ih (fun d hd => h d (List.mem_cons_of_mem _ hd))]
    rfl

/-- A line `key: "..."` of the generated file, as the validator reads it. -/
theorem matchKeyValue_yamlLine (key inner : JsString)
    (hkey : key ≠ [] ∧ ∀ c ∈ key, isKeyChar c = true ∧ isLineTerminator c = false)
    (hinner : ∀ c ∈ inner, isLineTerminator c = false) :
    (∀ c ∈ key ++ ": ".toList ++ (Char.ofNat 34 :: inner ++ [Char.ofNat 34]),
      isLineTerminator c = false) ∧
    matchKeyValue (key ++ ": ".toList ++ (Char.ofNat 34 :: inner ++ [Char.ofNat 34]))
      = some (key, Char.ofNat 34 :: inner ++ [Char.ofNat 34]) := by
  have hterm : ∀ c ∈ key ++ ": ".toList ++ (Char.ofNat 34 :: inner ++ [Char.ofNat 34]),
      isLineTerminator c = false := by
    intro c hc
    simp only [List.mem_append, List.mem_cons, List.mem_singleton] at hc
    rcases hc with (h | h) | (h | h) | h | h
    · exact (hkey.2 c h).2
    · have : c = ':' ∨ c = ' ' := by simpa using h
      rcases this with e | e <;> rw [e] <;> decide
    · rw [h]; decide
    · exact hinner c h
    · rw [h]; decide
    · cases h
  refine ⟨hterm, ?_⟩
  have hmk : matchKey (key ++ ": ".toList ++ (Char.ofNat 34 :: inner ++ [Char.ofNat 34]))
      = some key :=
    (matchKey_eq_some_iff _ _).2 ⟨hkey.1, fun c hc => (hkey.2 c hc).1,
      ' ' :: (Char.ofNat 34 :: inner ++ [Char.ofNat 34]), by simp⟩
  rw [matchKeyValue_of_matchKey _ key hmk hterm]
  have hdrop : (key ++ ": ".toList ++ (Char.ofNat 34 :: inner ++ [Char.ofNat 34])).drop
      (key.length + 1) = [' '] ++ Char.ofNat 34 :: inner ++ Char.ofNat 34 :: [] := by
    have e : key ++ ": ".toList ++ (Char.ofNat 34 :: inner ++ [Char.ofNat 34])
        = (key ++ [':']) ++ ([' '] ++ Char.ofNat 34 :: inner ++ Char.ofNat 34 :: []) := by
      simp
    rw [e, ← List.length_singleton ':', ← List.length_append, List.drop_left]
  rw [hdrop, trim_quoted [' '] [] inner (Char.ofNat 34) (Char.ofNat 34)
    (by decide) (by decide) (by decide) (by decide)]

theorem quoted_strip (inner : JsString) :
    startsWith (Char.ofNat 34 :: inner ++ [Char.ofNat 34]) "\"".toList = true ∧
    endsWith (Char.ofNat 34 :: inner ++ [Char.ofNat 34]) "\"".toList = true ∧
    ((Char.ofNat 34 :: inner ++ [Char.ofNat 34]).drop 1).dropLast = inner := by
  refine ⟨?_, ?_, ?_⟩
  · exact List.isPrefixOf_iff_prefix.2 ⟨inner ++ [Char.ofNat 34], rfl⟩
  · unfold endsWith
    exact List.isPrefixOf_iff_prefix.2 ⟨(Char.ofNat 34 :: inner).reverse, by simp⟩
  · simp

/-- The generated file as the validator parses it: the four keys, each with what
`JSON.stringify` wrote between the quotes. -/
theorem parseYaml_buildYaml (a b c : List Nat)
    (ha : ∀ x ∈ quoteJSONUnits a, isLineTerminator x = false)
    (hb : ∀ x ∈ quoteJSONUnits b, isLineTerminator x = false)
    (hc : ∀ x ∈ quoteJSONUnits c, isLineTerminator x = false) :
    parseYaml (readUtf8 (buildYaml a b c))
      = [("version".toList, "1".toList),
         ("display_name".toList, quoteJSONUnits a),
         ("short_description".toList, quoteJSONUnits b),
         ("default_prompt".toList, quoteJSONUnits c)] := by
  obtain ⟨ta, ma⟩ := matchKeyValue_yamlLine "display_name".toList (quoteJSONUnits a)
    (by decide) ha
  obtain ⟨tb, mb⟩ := matchKeyValue_yamlLine "short_description".toList (quoteJSONUnits b)
    (by decide) hb
  obtain ⟨tc, mc⟩ := matchKeyValue_yamlLine "default_prompt".toList (quoteJSONUnits c)
    (by decide) hc
  have hbuild : readUtf8 (buildYaml a b c)
      = "version: 1".toList ++ '\n' ::
        (("display_name".toList ++ ": ".toList
            ++ (Char.ofNat 34 :: quoteJSONUnits a ++ [Char.ofNat 34])) ++ '\n' ::
          (("short_description".toList ++ ": ".toList
              ++ (Char.ofNat 34 :: quoteJSONUnits b ++ [Char.ofNat 34])) ++ '\n' ::
            (("default_prompt".toList ++ ": ".toList
                ++ (Char.ofNat 34 :: quoteJSONUnits c ++ [Char.ofNat 34])) ++ '\n' ::
              []))) := by
    unfold buildYaml jsonStringify
    simp only [join_cons_cons, join_singleton]
    simp [readUtf8]
  unfold parseYaml
  rw [hbuild, splitLines_line _ _ (by decide), splitLines_line _ _ ta,
    splitLines_line _ _ tb, splitLines_line _ _ tc, splitLines_nil]
  have hv : matchKeyValue "version: 1".toList = some ("version".toList, "1".toList) := by
    decide
  have e1 : ("version: 1".toList).isEmpty = false := rfl
  have e2 : ∀ inner : JsString, ("display_name".toList ++ ": ".toList
      ++ (Char.ofNat 34 :: inner ++ [Char.ofNat 34])).isEmpty = false := fun _ => rfl
  have e3 : ∀ inner : JsString, ("short_description".toList ++ ": ".toList
      ++ (Char.ofNat 34 :: inner ++ [Char.ofNat 34])).isEmpty = false := fun _ => rfl
  have e4 : ∀ inner : JsString, ("default_prompt".toList ++ ": ".toList
      ++ (Char.ofNat 34 :: inner ++ [Char.ofNat 34])).isEmpty = false := fun _ => rfl
  have s1 : startsWith "1".toList "\"".toList = false := by decide
  have s2 : startsWith "1".toList "'".toList = false := by decide
  simp only [List.filter_cons, e1, e2, e3, e4, Bool.not_false, if_true, List.isEmpty_nil,
    Bool.not_true, Bool.false_eq_true, if_false, List.filter_nil, List.filterMap_cons,
    List.filterMap_nil, hv, ma, mb, mc, Option.map_some', s1, s2, Bool.false_and,
    Bool.or_self, (quoted_strip _).1, (quoted_strip _).2.1, (quoted_strip _).2.2,
    Bool.and_self, Bool.true_or]

theorem lookup_four (v display short prompt : JsString) :
    lookup "version".toList
        [("version".toList, v), ("display_name".toList, display),
         ("short_description".toList, short), ("default_prompt".toList, prompt)] = some v ∧
    lookup "display_name".toList
        [("version".toList, v), ("display_name".toList, display),
         ("short_description".toList, short), ("default_prompt".toList, prompt)]
      = some display ∧
    lookup "short_description".toList
        [("version".toList, v), ("display_name".toList, display),
         ("short_description".toList, short), ("default_prompt".toList, prompt)]
      = some short ∧
    lookup "default_prompt".toList
        [("version".toList, v), ("display_name".toList, display),
         ("short_description".toList, short), ("default_prompt".toList, prompt)]
      = some prompt := by
  refine ⟨?_, ?_, ?_, ?_⟩ <;> simp [lookup, List.find?]

theorem companionIssues_of_parsed (toUpperCase : Char → JsString)
    (relDir declaredName yaml v display short prompt : JsString)
    (hp : parseYaml (readUtf8 yaml)
      = [("version".toList, v), ("display_name".toList, display),
         ("short_description".toList, short), ("default_prompt".toList, prompt)])
    (hd : display = titleCase toUpperCase declaredName)
    (hs : (codeUnits short).length ≤ 160) :
    companionIssues toUpperCase relDir declaredName (some yaml) = ([], []) := by
  obtain ⟨l1, l2, l3, l4⟩ := lookup_four v display short prompt
  unfold companionIssues
  simp only [hp, l2, l3]
  have hreq : requiredYamlKeys.filter (fun key =>
      (lookup key [("version".toList, v), ("display_name".toList, display),
         ("short_description".toList, short), ("default_prompt".toList, prompt)]).isNone)
      = [] := by
    show List.filter _ ["version".toList, "display_name".toList,
      "short_description".toList, "default_prompt".toList] = []
    simp only [List.filter_cons, l1, l2, l3, l4, Option.isNone_some, Bool.false_eq_true,
      if_false, List.filter_nil]
  rw [hreq, hd]
  have hs2 : ¬ (codeUnits short).length > 160 := by omega
  simp [hs2]

theorem quoteJSONUnits_plain (s : JsString) (h : ∀ c ∈ s, isPlainChar c = true) :
    quoteJSONUnits (codeUnits s) = s := by
  have := quoteJSONUnits_codeUnits s [] h
  rw [List.append_nil] at this
  rw [this]
  simp [quoteJSONUnits]

/-- The short description that the generator writes, as the validator reads it: at
most 145 code units, none of them a line terminator. -/
theorem shortDescription_facts (nd : JsString)
    (hnd : ∀ c ∈ nd, isPlainChar c = true ∧ isLineTerminator c = false) :
    (codeUnits (quoteJSONUnits
        (if (codeUnits nd).length > 140 then
          (codeUnits nd).take 137 ++ codeUnits "...".toList
        else codeUnits nd))).length ≤ 145 ∧
    ∀ c ∈ quoteJSONUnits
        (if (codeUnits nd).length > 140 then
          (codeUnits nd).take 137 ++ codeUnits "...".toList
        else codeUnits nd), isLineTerminator c = false := by
  by_cases hlen : (codeUnits nd).length > 140
  · rw [if_pos hlen]
    obtain ⟨s₁, e, hp, hq, hl⟩ := quoteJSONUnits_take "...".toList (by decide) nd 137
      (fun c hc => (hnd c hc).1)
    rw [hq]
    constructor
    · rw [codeUnits_append, codeUnits_append]
      simp only [List.length_append]
      have h3 : (codeUnits "...".toList).length = 3 := by decide
      rcases hl with ⟨h1, h2⟩ | ⟨u, h1, h2⟩
      · rw [h1]
        have h0 : (codeUnits ([] : JsString)).length = 0 := rfl
        rw [h0]
        omega
      · rw [h1, (unicodeEscape_facts u).1]
        omega
    · intro c hc
      simp only [List.mem_append] at hc
      rcases hc with (h | h) | h
      · exact (hnd c (hp.subset h)).2
      · rcases hl with ⟨h1, -⟩ | ⟨u, h1, -⟩
        · rw [h1] at h
          cases h
        · rw [h1] at h
          exact (unicodeEscape_facts u).2 c h
      · have : c = '.' := by simpa using h
        rw [this]
        decide
  · rw [if_neg hlen, quoteJSONUnits_plain nd (fun c hc => (hnd c hc).1)]
    exact ⟨by omega, fun c hc => (hnd c hc).2⟩

/-! ## Lemmas on `normalizeLinkTarget` -/

theorem headD_split_append (sep : Char) (x : JsString) :
    ∀ a : JsString, sep ∉ a →
      (split sep (a ++ x)).headD [] = a ++ (split sep x).headD [] := by
  intro a
  induction a with
  | nil => intro _; rfl
  | cons c a ih =>
    intro h
    have hc : c ≠ sep := fun e => h (e ▸ List.mem_cons_self _ _)
    obtain ⟨w, ws, h1, h2⟩ := split_cons_ne sep c (a ++ x) hc
    show (split sep (c :: (a ++ x))).headD [] = _
    rw [h2]
    have ih2 := ih (fun hm => h (List.mem_cons_of_mem _ hm))
    rw [h1] at ih2
    show c :: w = c :: (a ++ (split sep x).headD [])
    rw [← ih2]
    rfl

theorem headD_split_of_not_mem (sep : Char) (a : JsString) (h : sep ∉ a) :
    (split sep a).headD [] = a := by
  rw [split_eq_singleton sep a h]
  rfl

theorem headD_split_sep (sep : Char) (a b : JsString) (h : sep ∉ a) :
    (split sep (a ++ sep :: b)).headD [] = a := by
  rw [headD_split_append sep _ a h, split_cons_sep]
  simp

/-- The characters that end the path of a link target, or that `trim` removes. -/
theorem lowerChar_of_delimiter (c : Char)
    (h : c = ' ' ∨ c = '#' ∨ c = '?' ∨ c = '<' ∨ isWhiteSpace c = true) :
    lowerChar c = [c] := by
  rcases h with h | h | h | h | h
  · rw [h]; decide
  · rw [h]; decide
  · rw [h]; decide
  · rw [h]; decide
  · rw [isWhiteSpace_iff] at h
    unfold lowerChar
    have hA : 'A'.toNat = 65 := rfl
    have hZ : 'Z'.toNat = 90 := rfl
    have hK : (Char.ofNat 0x212A).toNat = 0x212A := rfl
    have hI : (Char.ofNat 0x0130).toNat = 0x0130 := rfl
    rw [if_neg, if_neg, if_neg]
    · rw [char_eq_iff, hI]; omega
    · rw [char_eq_iff, hK]; omega
    · rw [char_le_iff, char_le_iff, hA, hZ]; omega

theorem rdropWhile_append_of_last (a : JsString)
    (hws : ∀ c ∈ a, isWhiteSpace c = false) :
    ∀ z : JsString, ∃ z', (a ++ z).rdropWhile isWhiteSpace = a ++ z' := by
  intro z
  induction z using List.reverseRecOn with
  | nil =>
    refine ⟨[], ?_⟩
    rw [List.append_nil]
    apply List.rdropWhile_eq_self_iff.2
    intro hne
    have hl := hws _ (List.getLast_mem hne)
    rw [hl]
    decide
  | append_singleton z d ih =>
    by_cases hd : isWhiteSpace d = true
    · obtain ⟨z', hz'⟩ := ih
      refine ⟨z', ?_⟩
      rw [← List.append_assoc, List.rdropWhile_concat_pos _ _ _ hd]
      exact hz'
    · refine ⟨z ++ [d], ?_⟩
      rw [← List.append_assoc, List.rdropWhile_concat_neg _ _ _ hd]

theorem trim_append_of_head (a z : JsString) (ha : a ≠ [])
    (hws : ∀ c ∈ a, isWhiteSpace c = false) : ∃ z', trim (a ++ z) = a ++ z' := by
  have h1 : (a ++ z).dropWhile isWhiteSpace = a ++ z := by
    cases a with
    | nil => exact absurd rfl ha
    | cons c a =>
      show (c :: (a ++ z)).dropWhile isWhiteSpace = _
      rw [List.dropWhile_cons, hws c (List.mem_cons_self _ _)]
      rfl
  rw [trim_eq, h1]
  exact rdropWhile_append_of_last a hws z

/-- A raw target that begins with characters none of which is a blank, `#`, `?`, `<`
or white space keeps them at the start of its reduced target. -/
theorem normalizeLinkTarget_append (r₁ r₂ : JsString) (hne : r₁ ≠ [])
    (hsafe : ∀ c ∈ r₁, c ≠ ' ' ∧ c ≠ '#' ∧ c ≠ '?' ∧ c ≠ '<' ∧ isWhiteSpace c = false) :
    ∃ z, normalizeLinkTarget (r₁ ++ r₂) = r₁ ++ z := by
  have hstart : startsWith (r₁ ++ r₂) "<".toList = false := by
    cases r₁ with
    | nil => exact absurd rfl hne
    | cons c r =>
      have hc := (hsafe c (List.mem_cons_self _ _)).2.2.2.1
      cases hb : startsWith (c :: r ++ r₂) "<".toList with
      | false => rfl
      | true =>
        obtain ⟨t, ht⟩ := List.isPrefixOf_iff_prefix.1 hb
        exact absurd (List.cons.inj ht).1.symm hc
  have h2 : ∃ y, (if ' ' ∈ r₁ ++ r₂ then (split ' ' (r₁ ++ r₂)).headD [] else r₁ ++ r₂)
      = r₁ ++ y := by
    by_cases hsp : ' ' ∈ r₁ ++ r₂
    · rw [if_pos hsp, headD_split_append ' ' r₂ r₁ (fun hm => (hsafe _ hm).1 rfl)]
      exact ⟨_, rfl⟩
    · rw [if_neg hsp]
      exact ⟨_, rfl⟩
  obtain ⟨y, hy⟩ := h2
  unfold normalizeLinkTarget
  simp only [hstart, Bool.false_and, Bool.false_eq_true, if_false, hy]
  rw [headD_split_append '#' y r₁ (fun hm => (hsafe _ hm).2.1 rfl),
    headD_split_append '?' _ r₁ (fun hm => (hsafe _ hm).2.2.1 rfl)]
  exact trim_append_of_head r₁ _ hne (fun c hc => (hsafe c hc).2.2.2.2)

theorem toLowerCase_append (a b : JsString) :
    toLowerCase (a ++ b) = toLowerCase a ++ toLowerCase b := by
  simp [toLowerCase]

/-- A text that lower-cases to a pattern without blank, `#`, `?`, `<` and white space
contains none of these characters. -/
theorem safe_of_toLowerCase_eq (r pat : JsString) (h : toLowerCase r = pat)
    (hpat : ∀ d ∈ pat, d ≠ ' ' ∧ d ≠ '#' ∧ d ≠ '?' ∧ d ≠ '<' ∧ isWhiteSpace d = false) :
    ∀ c ∈ r, c ≠ ' ' ∧ c ≠ '#' ∧ c ≠ '?' ∧ c ≠ '<' ∧ isWhiteSpace c = false := by
  intro c hc
  by_contra hcon
  have hdel : c = ' ' ∨ c = '#' ∨ c = '?' ∨ c = '<' ∨ isWhiteSpace c = true := by
    by_contra hn
    apply hcon
    simp only [not_or] at hn
    refine ⟨hn.1, hn.2.1, hn.2.2.1, hn.2.2.2.1, ?_⟩
    simpa using hn.2.2.2.2
  have hl := lowerChar_of_delimiter c hdel
  have hmem : c ∈ pat := by
    rw [← h]
    unfold toLowerCase
    rw [List.mem_flatMap]
    exact ⟨c, hc, by rw [hl]; exact List.mem_singleton_self _⟩
  exact hcon (hpat c hmem)

/-- No error for a raw target a prefix of which lower-cases to `http://`, `https://`,
`mailto:`, `tel:` or `#`. -/
theorem not_reported_of_external (targetExists : JsString → Bool) (content : JsString)
    (r₁ r₂ pat : JsString) (hlower : toLowerCase r₁ = pat)
    (hpat : pat ∈ ["http://".toList, "https://".toList, "mailto:".toList, "tel:".toList,
      "#".toList]) :
    r₁ ++ r₂ ∉ checkMarkdownLinks targetExists content := by
  intro hmem
  unfold checkMarkdownLinks at hmem
  have hcond := (List.mem_filter.1 hmem).2
  simp only [Bool.and_eq_true, Bool.not_eq_true', Bool.or_eq_false_iff] at hcond
  obtain ⟨⟨hempty, hext⟩, -⟩ := hcond
  by_cases hhash : pat = "#".toList
  · -- the piece before `#` is empty
    have hr : r₁ = ['#'] := by
      rw [hhash] at hlower
      cases r₁ with
      | nil => cases hlower
      | cons c r =>
        have hlen : (lowerChar c).length ≥ 1 := by
          unfold lowerChar
          split_ifs <;> simp
        have hsplit : toLowerCase (c :: r) = lowerChar c ++ toLowerCase r := by
          simp [toLowerCase]
        rw [hsplit] at hlower
        have hl : (lowerChar c ++ toLowerCase r).length = 1 := by rw [hlower]; rfl
        rw [List.length_append] at hl
        have hr0 : (toLowerCase r).length = 0 := by omega
        have hr1 : toLowerCase r = [] := List.length_eq_zero.1 hr0
        rw [hr1, List.append_nil] at hlower
        have hrnil : r = [] := by
          cases r with
          | nil => rfl
          | cons d ds =>
            exfalso
            have : (lowerChar d).length ≥ 1 := by
              unfold lowerChar
              split_ifs <;> simp
            have hs : toLowerCase (d :: ds) = lowerChar d ++ toLowerCase ds := by
              simp [toLowerCase]
            rw [hs] at hr0
            rw [List.length_append] at hr0
            omega
        rw [hrnil]
        congr 1
        unfold lowerChar at hlower
        split_ifs at hlower with h1 h2 h3
        · exfalso
          have h4 := (List.cons.inj hlower).1
          have h5 := (char_le_iff _ _).1 h1.1
          have h6 := (char_le_iff _ _).1 h1.2
          have hA : 'A'.toNat = 65 := rfl
          have hZ : 'Z'.toNat = 90 := rfl
          rw [hA] at h5
          rw [hZ] at h6
          have h7 : (Char.ofNat (c.toNat + 32)).toNat = c.toNat + 32 := by
            have hc : c = Char.ofNat c.toNat := by simp
            generalize c.toNat = n at *
            interval_cases n <;> rfl
          have h8 : (Char.ofNat (c.toNat + 32)).toNat = '#'.toNat := by rw [h4]
          have h9 : '#'.toNat = 35 := rfl
          omega
        · cases hlower
        · cases hlower
        · exact (List.cons.inj hlower).1
    have hnorm : normalizeLinkTarget (r₁ ++ r₂) = [] := by
      rw [hr]
      unfold normalizeLinkTarget
      have hstart : startsWith (['#'] ++ r₂) "<".toList = false := by
        cases hb : startsWith (['#'] ++ r₂) "<".toList with
        | false => rfl
        | true =>
          obtain ⟨t, ht⟩ := List.isPrefixOf_iff_prefix.1 hb
          exact absurd (List.cons.inj ht).1 (by decide)
      have h2 : ∃ y, (if ' ' ∈ ['#'] ++ r₂ then (split ' ' (['#'] ++ r₂)).headD []
          else ['#'] ++ r₂) = '#' :: y := by
        by_cases hsp : ' ' ∈ ['#'] ++ r₂
        · rw [if_pos hsp, headD_split_append ' ' r₂ ['#'] (by decide)]
          exact ⟨_, rfl⟩
        · rw [if_neg hsp]
          exact ⟨_, rfl⟩
      obtain ⟨y, hy⟩ := h2
      simp only [hstart, Bool.false_and, Bool.false_eq_true, if_false, hy]
      rw [split_cons_sep]
      rfl
    rw [hnorm] at hempty
    cases hempty
  · have hsafe : ∀ d ∈ pat, d ≠ ' ' ∧ d ≠ '#' ∧ d ≠ '?' ∧ d ≠ '<'
        ∧ isWhiteSpace d = false := by
      simp only [List.mem_cons, List.mem_singleton, List.not_mem_nil, or_false] at hpat
      rcases hpat with h | h | h | h | h
      · rw [h]; decide
      · rw [h]; decide
      · rw [h]; decide
      · rw [h]; decide
      · exact absurd h hhash
    have hne : r₁ ≠ [] := by
      intro e
      rw [e] at hlower
      rw [← hlower] at hpat
      revert hpat
      decide
    obtain ⟨z, hz⟩ := normalizeLinkTarget_append r₁ r₂ hne
      (safe_of_toLowerCase_eq r₁ pat hlower hsafe)
    have hpre : pat <+: toLowerCase (normalizeLinkTarget (r₁ ++ r₂)) := by
      rw [hz, toLowerCase_append, hlower]
      exact List.prefix_append _ _
    have hext2 : isExternalLink (normalizeLinkTarget (r₁ ++ r₂)) = true := by
      unfold isExternalLink startsWith
      simp only [Bool.or_eq_true]
      have hb := List.isPrefixOf_iff_prefix.2 hpre
      simp only [List.mem_cons, List.mem_singleton, List.not_mem_nil, or_false] at hpat
      rcases hpat with h | h | h | h | h
      · rw [h] at hb; exact Or.inl (Or.inl (Or.inl (Or.inl hb)))
      · rw [h] at hb; exact Or.inl (Or.inl (Or.inl (Or.inr hb)))
      · rw [h] at hb; exact Or.inl (Or.inl (Or.inr hb))
      · rw [h] at hb; exact Or.inl (Or.inr hb)
      · exact absurd h hhash
    rw [hext2] at hext
    cases hext

/-- The steps of `normalizeLinkTarget` after the angle brackets: of a path without
blank, `#` and `?`, followed by an optional fragment or query without blank and by an
optional title after a blank, the path is left. -/
theorem reduce_parts (path suffix title : JsString)
    (hpath : ' ' ∉ path ∧ '#' ∉ path ∧ '?' ∉ path)
    (hsuffix : suffix = [] ∨ ∃ c rest, suffix = c :: rest ∧ (c = '#' ∨ c = '?') ∧ ' ' ∉ rest)
    (htitle : title = [] ∨ ∃ rest, title = ' ' :: rest) :
    (split '?' ((split '#'
        (if ' ' ∈ path ++ suffix ++ title then (split ' ' (path ++ suffix ++ title)).headD []
          else path ++ suffix ++ title)).headD [])).headD [] = path := by
  have hps : ' ' ∉ path ++ suffix := by
    intro hm
    rcases List.mem_append.1 hm with h | h
    · exact hpath.1 h
    · rcases hsuffix with e | ⟨c, rest, e, hc, hr⟩
      · rw [e] at h; cases h
      · rw [e] at h
        rcases List.mem_cons.1 h with h1 | h1
        · rcases hc with e1 | e1 <;> rw [e1] at h1 <;> exact absurd h1 (by decide)
        · exact hr h1
  have h2 : (if ' ' ∈ path ++ suffix ++ title
      then (split ' ' (path ++ suffix ++ title)).headD []
      else path ++ suffix ++ title) = path ++ suffix := by
    rcases htitle with e | ⟨rest, e⟩
    · rw [e, List.append_nil, if_neg hps]
    · rw [e, if_pos (List.mem_append_right _ (List.mem_cons_self _ _)),
        headD_split_sep ' ' _ rest hps]
  rw [h2]
  rcases hsuffix with e | ⟨c, rest, e, hc, -⟩
  · rw [e, List.append_nil, headD_split_of_not_mem '#' path hpath.2.1,
      headD_split_of_not_mem '?' path hpath.2.2]
  · rw [e]
    rcases hc with e1 | e1
    · rw [e1, headD_split_sep '#' path rest hpath.2.1,
        headD_split_of_not_mem '?' path hpath.2.2]
    · have hq : '#' ∉ path ++ ['?'] := by
        intro hm
        rcases List.mem_append.1 hm with h | h
        · exact hpath.2.1 h
        · exact absurd (List.mem_singleton.1 h) (by decide)
      have h3 : (split '#' (path ++ '?' :: rest)).headD []
          = path ++ '?' :: (split '#' rest).headD [] := by
        have h4 := headD_split_append '#' rest (path ++ ['?']) hq
        simpa using h4
      rw [e1, h3, headD_split_sep '?' path _ hpath.2.2]

theorem normalizeLinkTarget_parts (path suffix title : JsString)
    (hpath : ' ' ∉ path ∧ '#' ∉ path ∧ '?' ∉ path)
    (hsuffix : suffix = [] ∨ ∃ c rest, suffix = c :: rest ∧ (c = '#' ∨ c = '?') ∧ ' ' ∉ rest)
    (htitle : title = [] ∨ ∃ rest, title = ' ' :: rest) :
    (path.head? ≠ some '<' → normalizeLinkTarget (path ++ suffix ++ title) = trim path) ∧
    (title = [] →
      normalizeLinkTarget ("<".toList ++ path ++ suffix ++ ">".toList) = trim path) := by
  constructor
  · intro hhead
    have hstart : startsWith (path ++ suffix ++ title) "<".toList = false := by
      cases hb : startsWith (path ++ suffix ++ title) "<".toList with
      | false => rfl
      | true =>
        exfalso
        obtain ⟨t, ht⟩ := List.isPrefixOf_iff_prefix.1 hb
        cases path with
        | cons c r =>
          apply hhead
          have := (List.cons.inj ht).1
          rw [← this]
          rfl
        | nil =>
          rcases hsuffix with e | ⟨c, rest, e, hc, -⟩
          · rcases htitle with e2 | ⟨rest2, e2⟩
            · rw [e, e2] at ht
              cases ht
            · rw [e, e2] at ht
              exact absurd (List.cons.inj ht).1 (by decide)
          · rw [e] at ht
            have h1 := (List.cons.inj ht).1
            rcases hc with e1 | e1 <;> rw [e1] at h1 <;> exact absurd h1 (by decide)
    unfold normalizeLinkTarget
    simp only [hstart, Bool.false_and, Bool.false_eq_true, if_false]
    rw [reduce_parts path suffix title hpath hsuffix htitle]
  · intro ht
    have hraw : "<".toList ++ path ++ suffix ++ ">".toList
        = '<' :: (path ++ suffix) ++ ['>'] := by simp
    have hstart : startsWith ('<' :: (path ++ suffix) ++ ['>']) "<".toList = true :=
      List.isPrefixOf_iff_prefix.2 ⟨path ++ suffix ++ ['>'], by simp⟩
    have hend : endsWith ('<' :: (path ++ suffix) ++ ['>']) ">".toList = true := by
      unfold endsWith
      exact List.isPrefixOf_iff_prefix.2 ⟨('<' :: (path ++ suffix)).reverse, by simp⟩
    have hin : (('<' :: (path ++ suffix) ++ ['>']).drop 1).dropLast = path ++ suffix ++ [] := by
      simp
    have hred := reduce_parts path suffix [] hpath hsuffix (Or.inl rfl)
    unfold normalizeLinkTarget
    rw [hraw]
    simp only [hstart, hend, Bool.and_self, if_true, hin]
    rw [hred]

set_option maxRecDepth 100000 in
/-- A target in angle brackets that is followed by a title keeps its brackets, since
the brackets are removed only when they enclose the whole target: the link
`<exists.md>` followed by a blank and a quoted title is reduced to `<exists.md>` and
reported although the file `exists.md` exists. -/
theorem checkMarkdownLinks_bracket_title :
    normalizeLinkTarget ("<exists.md> ".toList ++ [Char.ofNat 34] ++ "title".toList
        ++ [Char.ofNat 34]) = "<exists.md>".toList ∧
    checkMarkdownLinks (fun target => target == "exists.md".toList)
        ("[t](<exists.md> ".toList ++ [Char.ofNat 34] ++ "title".toList
          ++ [Char.ofNat 34] ++ ")".toList)
      = ["<exists.md> ".toList ++ [Char.ofNat 34] ++ "title".toList
          ++ [Char.ofNat 34]] := by
  decide
/-! ## Selection and judgment (`evaluateCase`) -/

/-- C1 (as amended).  For every non-empty catalog, prompt and threshold, under a
consistent collation, the winner whose score `evaluateCase` reports is the scored
image of a catalog record, its score is maximal over the catalog, and among the
records with that score its name is smallest.  In particular, when `a-tool` sorts
before `b-tool`, records of both names score 5, no record scores more and every
record scoring 5 bears one of the two names, the winner is `a-tool`, in whatever
order the catalog lists its records. -/
theorem evaluateCase_winner (localeCompare : JsString → JsString → Int)
    (hlc : ConsistentComparator localeCompare) (testCase : TestCase)
    (skills : List Skill) (noneThreshold : ℚ) (hne : skills ≠ []) :
    ∃ best result,
      bestScored localeCompare testCase.prompt skills = some best ∧
      evaluateCase localeCompare testCase skills noneThreshold = some result ∧
      result.score = best.score ∧
      (∃ s ∈ skills, s.name = best.name ∧ scoreSkill testCase.prompt s = best.score) ∧
      (∀ s ∈ skills, scoreSkill testCase.prompt s ≤ best.score) ∧
      (∀ s ∈ skills, scoreSkill testCase.prompt s = best.score →
        localeCompare best.name s.name ≤ 0) ∧
      (localeCompare "a-tool".toList "b-tool".toList < 0 →
        (∃ a ∈ skills, a.name = "a-tool".toList ∧ scoreSkill testCase.prompt a = 5) →
        (∃ b ∈ skills, b.name = "b-tool".toList ∧ scoreSkill testCase.prompt b = 5) →
        (∀ s ∈ skills, scoreSkill testCase.prompt s ≤ 5) →
        (∀ s ∈ skills, scoreSkill testCase.prompt s = 5 →
          s.name = "a-tool".toList ∨ s.name = "b-tool".toList) →
        best.name = "a-tool".toList) := by
  obtain ⟨best, hbest, s0, hs0, hname0, hscore0⟩ :=
    bestScored_some localeCompare testCase.prompt skills hne
  have hmin := bestScored_min hlc testCase.prompt skills best hbest
  have hres : ∃ result, evaluateCase localeCompare testCase skills noneThreshold
      = some result ∧ result.score = best.score := by
    unfold evaluateCase
    rw [hbest]
    cases testCase.expected with
    | none => exact ⟨_, rfl, rfl⟩
    | some e => exact ⟨_, rfl, rfl⟩
  obtain ⟨result, hresult, hrs⟩ := hres
  refine ⟨best, result, hbest, hresult, hrs, ⟨s0, hs0, hname0, hscore0⟩, ?_, ?_, ?_⟩
  · intro s hs
    rcases hmin s hs with h | ⟨h, _⟩ <;> omega
  · intro s hs heq
    rcases hmin s hs with h | ⟨_, h⟩
    · omega
    · exact h
  · intro hab ⟨a, ha, haname, hascore⟩ _ hle hnames
    have hb5 : best.score = 5 := by
      have h1 := hle s0 hs0
      rcases hmin a ha with h | ⟨h, _⟩ <;> omega
    rcases hnames s0 hs0 (by omega) with h | h
    · rw [← hname0]; exact h
    · exfalso
      rcases hmin a ha with h2 | ⟨_, h2⟩
      · omega
      · rw [← hname0, h, haname] at h2
        have := (hlc.1 _ _).1 hab
        omega

/-- C2.  For a case that expects no match and a non-empty catalog, `evaluateCase`
passes exactly when the winner's score is at most the threshold, and reports the
sentinel as actual exactly when it passes (the winner's name otherwise); a winner
scoring exactly the threshold passes and one scoring one more fails. -/
theorem evaluateCase_no_match (localeCompare : JsString → JsString → Int)
    (testCase : TestCase) (skills : List Skill) (noneThreshold : ℚ)
    (hexp : testCase.expected = none) (hne : skills ≠ []) :
    ∃ best result,
      bestScored localeCompare testCase.prompt skills = some best ∧
      evaluateCase localeCompare testCase skills noneThreshold = some result ∧
      result.score = best.score ∧
      (result.pass = true ↔ (best.score : ℚ) ≤ noneThreshold) ∧
      (result.actual = none ↔ result.pass = true) ∧
      (result.pass = false → result.actual = some best.name) ∧
      ((best.score : ℚ) = noneThreshold → result.pass = true) ∧
      ((best.score : ℚ) = noneThreshold + 1 → result.pass = false) := by
  obtain ⟨best, hbest, _⟩ := bestScored_some localeCompare testCase.prompt skills hne
  have hev : evaluateCase localeCompare testCase skills noneThreshold
      = some { id := testCase.id
               prompt := testCase.prompt
               expected := none
               actual := if decide ((best.score : ℚ) ≤ noneThreshold) then none
                         else some best.name
               score := best.score
               pass := decide ((best.score : ℚ) ≤ noneThreshold) } := by
    unfold evaluateCase
    rw [hbest, hexp]
  refine ⟨best, _, hbest, hev, rfl, ?_, ?_, ?_, ?_, ?_⟩
  · simp
  · by_cases h : (best.score : ℚ) ≤ noneThreshold <;> simp [h]
  · intro h
    simp only [decide_eq_false_iff_not] at h
    simp [h]
  · intro h
    simp only [decide_eq_true_eq]
    exact le_of_eq h
  · intro h
    simp only [decide_eq_false_iff_not]
    rw [h]
    linarith

/-- C3.  For a case that expects a skill name and a non-empty catalog,
`evaluateCase` passes exactly when the winner's name is the expected name and reports
the winner's name as actual; the result is the same for every threshold; a case
expecting a name absent from the catalog fails; and when the prompt yields no token
(so every record scores 0), under a consistent collation that separates the names of
the catalog, the case passes exactly when the expected name is the smallest name of
the catalog. -/
theorem evaluateCase_expected_name (localeCompare : JsString → JsString → Int)
    (testCase : TestCase) (skills : List Skill) (noneThreshold : ℚ)
    (expected : JsString) (hexp : testCase.expected = some expected)
    (hne : skills ≠ []) :
    ∃ best result,
      bestScored localeCompare testCase.prompt skills = some best ∧
      evaluateCase localeCompare testCase skills noneThreshold = some result ∧
      (result.pass = true ↔ best.name = expected) ∧
      result.actual = some best.name ∧
      (∀ t, evaluateCase localeCompare testCase skills t = some result) ∧
      ((∀ s ∈ skills, s.name ≠ expected) → result.pass = false) ∧
      (tokenize testCase.prompt = [] →
        (∀ s ∈ skills, scoreSkill testCase.prompt s = 0) ∧
        (ConsistentComparator localeCompare →
          (∀ s₁ ∈ skills, ∀ s₂ ∈ skills,
            localeCompare s₁.name s₂.name = 0 → s₁.name = s₂.name) →
          (result.pass = true ↔
            (∃ s ∈ skills, s.name = expected) ∧
            ∀ s ∈ skills, localeCompare expected s.name ≤ 0))) := by
  obtain ⟨best, hbest, s0, hs0, hname0, hscore0⟩ :=
    bestScored_some localeCompare testCase.prompt skills hne
  have hev : ∀ t, evaluateCase localeCompare testCase skills t
      = some { id := testCase.id
               prompt := testCase.prompt
               expected := some expected
               actual := some best.name
               score := best.score
               pass := decide (best.name = expected) } := by
    intro t
    unfold evaluateCase
    rw [hbest, hexp]
  refine ⟨best, _, hbest, hev noneThreshold, by simp, rfl, hev, ?_, ?_⟩
  · intro hall
    simp only [decide_eq_false_iff_not]
    rw [← hname0]
    exact hall s0 hs0
  · intro htok
    have hzero : ∀ s ∈ skills, scoreSkill testCase.prompt s = 0 := by
      intro s _
      rw [scoreSkill_eq, htok]
      simp
    refine ⟨hzero, ?_⟩
    intro hlc hsep
    have hmin := bestScored_min hlc testCase.prompt skills best hbest
    have hb0 : best.score = 0 := by rw [← hscore0]; exact hzero s0 hs0
    simp only [decide_eq_true_eq]
    constructor
    · intro hbe
      refine ⟨⟨s0, hs0, by rw [hname0, hbe]⟩, ?_⟩
      intro s hs
      rcases hmin s hs with h | ⟨_, h⟩
      · omega
      · rw [← hbe]; exact h
    · rintro ⟨⟨e, he, hename⟩, hsmall⟩
      have h1 : localeCompare expected s0.name ≤ 0 := hsmall s0 hs0
      have h2 : localeCompare best.name e.name ≤ 0 := by
        rcases hmin e he with h | ⟨_, h⟩
        · omega
        · exact h
      rw [← hname0, hename] at h2
      have h3 : localeCompare expected s0.name = 0 := by
        by_contra hc
        have hlt : localeCompare expected s0.name < 0 := by omega
        have := (hlc.1 _ _).1 hlt
        omega
      rw [← hename] at h3
      rw [← hname0, ← hsep e he s0 hs0 h3, hename]

/-! ## Scoring (`scoreSkill`) -/

/-- C4 (as amended).  The score is 4 times the number of entries of `nameTokens`
(with multiplicity) that are in the set of prompt tokens plus the number of entries
of `descTokens` (with multiplicity) that are in it; it depends on the prompt only
through that set, so prompts with the same set of tokens, such as one whose token
list repeats a token of the other, score alike. -/
theorem scoreSkill_formula (prompt : JsString) (skill : Skill) :
    scoreSkill prompt skill
        = 4 * skill.nameTokens.countP (fun t => decide (t ∈ tokenize prompt))
          + 1 * skill.descTokens.countP (fun t => decide (t ∈ tokenize prompt)) ∧
    (∀ prompt₂, (∀ t, t ∈ tokenize prompt₂ ↔ t ∈ tokenize prompt) →
      scoreSkill prompt₂ skill = scoreSkill prompt skill) ∧
    (∀ prompt₂ t, t ∈ tokenize prompt → tokenize prompt₂ = tokenize prompt ++ [t] →
      scoreSkill prompt₂ skill = scoreSkill prompt skill) := by
  have hset : ∀ prompt₂, (∀ t, t ∈ tokenize prompt₂ ↔ t ∈ tokenize prompt) →
      scoreSkill prompt₂ skill = scoreSkill prompt skill := by
    intro prompt₂ h
    rw [scoreSkill_eq, scoreSkill_eq]
    have e : (fun t => decide (t ∈ tokenize prompt₂))
        = (fun t => decide (t ∈ tokenize prompt)) := by
      funext t
      simp [h t]
    rw [e]
  refine ⟨scoreSkill_eq prompt skill, hset, ?_⟩
  intro prompt₂ t ht heq
  apply hset
  intro u
  rw [heq, List.mem_append, List.mem_singleton]
  constructor
  · rintro (h | rfl)
    · exact h
    · exact ht
  · exact Or.inl

/-- C5.  Appending one more occurrence of a token to `nameTokens` raises the score by
exactly 4 when the token is in the prompt's token set and leaves it unchanged
otherwise; appending it to `descTokens` raises the score by exactly 1 when the token
is in the set and leaves it unchanged otherwise. -/
theorem scoreSkill_append_token (prompt : JsString) (skill : Skill) (t : JsString) :
    scoreSkill prompt { skill with nameTokens := skill.nameTokens ++ [t] }
        = scoreSkill prompt skill + (if t ∈ tokenize prompt then 4 else 0) ∧
    scoreSkill prompt { skill with descTokens := skill.descTokens ++ [t] }
        = scoreSkill prompt skill + (if t ∈ tokenize prompt then 1 else 0) := by
  simp only [scoreSkill_eq, List.countP_append, List.countP_cons, List.countP_nil]
  by_cases h : t ∈ tokenize prompt
  · simp [h]; constructor <;> ring
  · simp [h]

/-- C1, instance.  The catalog `[b-tool, a-tool]`, both scoring 5 on the prompt
`tool`, under the ordinal collation: the winner is `a-tool`. -/
theorem evaluateCase_winner_witness :
    (bestScored defaultCompare "tool".toList
      [mkSkill "core".toList "b-tool".toList "tool".toList,
       mkSkill "core".toList "a-tool".toList "tool".toList]).map Scored.name
      = some "a-tool".toList := by
  obtain ⟨best, result, hbest, -, -, -, -, -, hinst⟩ :=
    evaluateCase_winner defaultCompare defaultCompare_consistent
      { id := "t1".toList, prompt := "tool".toList, expected := some "a-tool".toList }
      [mkSkill "core".toList "b-tool".toList "tool".toList,
       mkSkill "core".toList "a-tool".toList "tool".toList]
      4 (by decide)
  have hname := hinst (by decide) (by decide) (by decide) (by decide) (by decide)
  simp only at hbest
  rw [hbest, Option.map_some', hname]

/-- C1, counterexample to the instance as first stated.  In the catalog
`[a-team, a-tool, b-tool]` all three records score 5 on the prompt `tool`, so
`a-tool` and `b-tool` both score 5 and no record scores more, yet the winner is
`a-team`. -/
theorem evaluateCase_winner_third_tie :
    scoreSkill "tool".toList (mkSkill "core".toList "a-tool".toList "tool".toList) = 5 ∧
    scoreSkill "tool".toList (mkSkill "core".toList "b-tool".toList "tool".toList) = 5 ∧
    scoreSkill "tool".toList
      (mkSkill "core".toList "a-team".toList "tool tool tool tool tool".toList) = 5 ∧
    defaultCompare "a-tool".toList "b-tool".toList < 0 ∧
    (evaluateCase defaultCompare
      { id := "t1".toList, prompt := "tool".toList, expected := some "a-tool".toList }
      [mkSkill "core".toList "a-team".toList "tool tool tool tool tool".toList,
       mkSkill "core".toList "a-tool".toList "tool".toList,
       mkSkill "core".toList "b-tool".toList "tool".toList]
      4).map (fun r => (r.actual, r.score, r.pass))
      = some (some "a-team".toList, 5, false) := by
  decide

/-- C2, instance.  A single record scoring 5 against a case expecting no match, with
threshold 5: the case passes and the sentinel is reported. -/
theorem evaluateCase_no_match_witness :
    ∃ result,
      evaluateCase defaultCompare
        { id := "t2".toList, prompt := "tool".toList, expected := none }
        [mkSkill "core".toList "a-tool".toList "tool".toList] 5 = some result ∧
      result.score = 5 ∧ result.pass = true ∧ result.actual = none := by
  obtain ⟨best, result, hbest, hev, hscore, -, hactual, -, hat, -⟩ :=
    evaluateCase_no_match defaultCompare
      { id := "t2".toList, prompt := "tool".toList, expected := none }
      [mkSkill "core".toList "a-tool".toList "tool".toList] 5 rfl (by decide)
  have hb : bestScored defaultCompare "tool".toList
      [mkSkill "core".toList "a-tool".toList "tool".toList]
      = some { name := "a-tool".toList, score := 5 } := by decide
  simp only at hbest
  rw [hb] at hbest
  have hbe := Option.some.inj hbest
  subst hbe
  exact ⟨result, hev, hscore, hat (by norm_num), hactual.2 (hat (by norm_num))⟩

/-- C3, instance.  A prompt without usable token against the catalog
`[b-tool, a-tool]`: the case expecting `a-tool`, the smallest name, passes. -/
theorem evaluateCase_expected_name_witness :
    ∃ result,
      evaluateCase defaultCompare
        { id := "t3".toList, prompt := "to me".toList, expected := some "a-tool".toList }
        [mkSkill "core".toList "b-tool".toList "tool".toList,
         mkSkill "core".toList "a-tool".toList "tool".toList] 4 = some result ∧
      result.pass = true := by
  obtain ⟨best, result, -, hev, -, -, -, -, hzero⟩ :=
    evaluateCase_expected_name defaultCompare
      { id := "t3".toList, prompt := "to me".toList, expected := some "a-tool".toList }
      [mkSkill "core".toList "b-tool".toList "tool".toList,
       mkSkill "core".toList "a-tool".toList "tool".toList] 4
      "a-tool".toList rfl (by decide)
  refine ⟨result, hev, ?_⟩
  exact ((hzero (by decide)).2 defaultCompare_consistent (by decide)).2 (by decide)

/-- C4, instance.  The prompts `deploy docker` and `deploy docker deploy` have the
same token set and score alike. -/
theorem scoreSkill_formula_witness :
    scoreSkill "deploy docker deploy".toList
        (mkSkill "infra".toList "docker-deploy".toList "Deploy containers".toList)
      = scoreSkill "deploy docker".toList
        (mkSkill "infra".toList "docker-deploy".toList "Deploy containers".toList) :=
  (scoreSkill_formula "deploy docker".toList
    (mkSkill "infra".toList "docker-deploy".toList "Deploy containers".toList)).2.2
    "deploy docker deploy".toList "deploy".toList (by decide) (by decide)

/-- C4, counterexample to the rider as first stated.  Repeating the word `query` of
the prompt `query rtk` turns the tokens `query`, `rtk` into `query`, `rtk-query`, and
the record named `rtk` falls from 4 to 0; repeating the word `rtk` of the prompt
`rtk query` in place adds the token `rtk`, and the record rises from 0 to 4. -/
theorem scoreSkill_repeated_word :
    "query".toList ∈ tokenize "query rtk".toList ∧
    scoreSkill "query rtk".toList
      (mkSkill "frontend".toList "rtk".toList "Redux toolkit".toList) = 4 ∧
    scoreSkill "query rtk query".toList
      (mkSkill "frontend".toList "rtk".toList "Redux toolkit".toList) = 0 ∧
    scoreSkill "rtk query".toList
      (mkSkill "frontend".toList "rtk".toList "Redux toolkit".toList) = 0 ∧
    scoreSkill "rtk rtk query".toList
      (mkSkill "frontend".toList "rtk".toList "Redux toolkit".toList) = 4 := by
  decide

/-! ## Normalization and tokenization -/

/-- C6 (as amended).  `normalizeText` is idempotent on every text whose normalized
form contains neither `rtk query` nor `tanstack query`. -/
theorem normalizeText_idempotent (s : JsString)
    (hrtk : ¬ "rtk query".toList <:+: normalizeText s)
    (htanstack : ¬ "tanstack query".toList <:+: normalizeText s) :
    normalizeText (normalizeText s) = normalizeText s :=
  normalizeText_eq_self (normalizeText s) (normalizeText_chars s)
    (normalizeText_wellSpaced s) (trim_normalizeText s) hrtk htanstack

/-- C6, instance.  The text `Use  RTK Query, with Next.js!` normalizes to
`use rtk-query with nextjs`, which normalizes to itself. -/
theorem normalizeText_idempotent_witness :
    normalizeText "Use  RTK Query, with Next.js!".toList
        = "use rtk-query with nextjs".toList ∧
    normalizeText (normalizeText "Use  RTK Query, with Next.js!".toList)
        = normalizeText "Use  RTK Query, with Next.js!".toList :=
  ⟨by decide,
   normalizeText_idempotent "Use  RTK Query, with Next.js!".toList
     (by decide) (by decide)⟩

/-- C6, counterexample.  `rtk  query`, with two spaces, normalizes to `rtk query`,
which normalizes to `rtk-query`. -/
theorem normalizeText_not_idempotent :
    normalizeText "rtk  query".toList = "rtk query".toList ∧
    normalizeText (normalizeText "rtk  query".toList) = "rtk-query".toList ∧
    normalizeText (normalizeText "rtk  query".toList)
      ≠ normalizeText "rtk  query".toList := by
  decide

/-- C7 (as amended).  The record built from the name `api-patterns` and the
description "Use this skill when designing REST APIs and error handling" has the name
tokens `api` and the description tokens `designing`, `rest`, `apis`, `error`,
`handling`; the prompt "help me design REST APIs" has the tokens `help`, `design`,
`rest`, `apis`; the score is 2, one point each for `rest` and `apis`. -/
theorem scoreSkill_api_patterns :
    (mkSkill "backend".toList "api-patterns".toList
      "Use this skill when designing REST APIs and error handling".toList).nameTokens
      = ["api".toList] ∧
    (mkSkill "backend".toList "api-patterns".toList
      "Use this skill when designing REST APIs and error handling".toList).descTokens
      = ["designing".toList, "rest".toList, "apis".toList, "error".toList,
         "handling".toList] ∧
    tokenize "help me design REST APIs".toList
      = ["help".toList, "design".toList, "rest".toList, "apis".toList] ∧
    scoreSkill "help me design REST APIs".toList
      (mkSkill "backend".toList "api-patterns".toList
        "Use this skill when designing REST APIs and error handling".toList) = 2 := by
  decide

/-- C7, counterexample.  The score of the `api-patterns` record against the prompt
"help me design REST APIs" is not 4 or more. -/
theorem scoreSkill_api_patterns_lt_four :
    ¬ (4 ≤ scoreSkill "help me design REST APIs".toList
      (mkSkill "backend".toList "api-patterns".toList
        "Use this skill when designing REST APIs and error handling".toList)) := by
  decide

/-- C8.  `tokenize s` is the list, in order, of the pieces of `normalizeText s`
between single spaces that have at least 3 characters and are not stop words; every
token has at least 3 characters, is not a stop word and consists of characters of
`[a-z0-9-]`. -/
theorem tokenize_spec (s : JsString) :
    tokenize s
      = (split ' ' (normalizeText s)).filter
          (fun piece => decide (piece.length ≥ 3) && !STOPWORDS.contains piece) ∧
    ∀ token ∈ tokenize s,
      3 ≤ token.length ∧ token ∉ STOPWORDS ∧
      ∀ c ∈ token, ('a' ≤ c ∧ c ≤ 'z') ∨ ('0' ≤ c ∧ c ≤ '9') ∨ c = '-' := by
  refine ⟨tokenize_eq s, ?_⟩
  intro token htoken
  rw [tokenize_eq, List.mem_filter] at htoken
  obtain ⟨hmem, hkeep⟩ := htoken
  unfold keepToken at hkeep
  simp only [Bool.and_eq_true, decide_eq_true_eq, Bool.not_eq_true'] at hkeep
  have hstop : token ∉ STOPWORDS := by
    intro hin
    have : STOPWORDS.contains token = true := List.elem_iff.2 hin
    rw [hkeep.2] at this
    cases this
  refine ⟨hkeep.1, hstop, ?_⟩
  intro c hc
  have := (trim_piece s token hmem).2 c hc
  unfold isTokenChar at this
  simpa [Bool.or_eq_true, Bool.and_eq_true, or_assoc] using this

/-! ## Name tokens (`loadSkills`) -/

/-- C9 (as amended).  When the text in which `normalizeText` looks for the two-word
terms (the name with hyphens replaced by spaces, lower-cased, `next.js` rewritten)
contains neither `rtk query` nor `tanstack query`, the name tokens that `loadSkills`
computes are the concatenation of `tokenize w` over the hyphen-separated words `w` of
the name, and no name token contains a hyphen. -/
theorem nameTokens_hyphen_words (category name description : JsString)
    (hrtk : ¬ "rtk query".toList
      <:+: beforeTerms (replaceAll "-".toList " ".toList name))
    (htanstack : ¬ "tanstack query".toList
      <:+: beforeTerms (replaceAll "-".toList " ".toList name)) :
    (mkSkill category name description).nameTokens
      = (split '-' name).flatMap tokenize ∧
    ∀ token ∈ (mkSkill category name description).nameTokens, '-' ∉ token := by
  have hK : keepToken [] = false := by decide
  have hname : (mkSkill category name description).nameTokens
      = tokenize (replaceAll "-".toList " ".toList name) := rfl
  have htok : tokenize (replaceAll "-".toList " ".toList name)
      = (splitAt (fun c => !isTokenChar c)
          (beforeTerms (replaceAll "-".toList " ".toList name))).filter keepToken := by
    rw [tokenize_eq_splitAt, afterTerms_eq_beforeTerms _ hrtk htanstack]
  have hjoin : replaceAll "-".toList " ".toList name = join [' '] (split '-' name) := by
    rw [replaceAll_hyphen, map_hyphen_eq_join]
  constructor
  · rw [hname, htok, hjoin, beforeTerms_join _ (split_ne_nil '-' name),
      filter_splitAt_join _ (by decide) keepToken hK, List.flatMap_map]
    apply List.flatMap_congr
    intro w hw
    have hinf : beforeTerms w <:+: beforeTerms (replaceAll "-".toList " ".toList name) := by
      rw [hjoin, beforeTerms_join _ (split_ne_nil '-' name)]
      exact isInfix_join _ _ _ (List.mem_map_of_mem _ hw)
    rw [tokenize_eq_splitAt,
      afterTerms_eq_beforeTerms w (fun h => hrtk (h.trans hinf))
        (fun h => htanstack (h.trans hinf))]
  · intro token htoken hmem
    rw [hname, htok, List.mem_filter] at htoken
    have h1 := mem_of_mem_splitAt _ _ _ _ htoken.1 hmem
    refine not_hyphen_mem_beforeTerms _ ?_ h1
    rw [replaceAll_hyphen]
    intro h2
    obtain ⟨c, _, hc⟩ := List.mem_map.1 h2
    by_cases hh : c = '-'
    · rw [if_pos hh] at hc
      exact absurd hc (by decide)
    · rw [if_neg hh] at hc
      exact hh hc

/-- C9, instance.  The name `api-patterns` has the words `api` and `patterns`; its
name tokens are those of `api` followed by those of `patterns` (a stop word). -/
theorem nameTokens_hyphen_words_witness :
    (mkSkill "backend".toList "api-patterns".toList "REST".toList).nameTokens
      = (split '-' "api-patterns".toList).flatMap tokenize ∧
    ∀ token ∈ (mkSkill "backend".toList "api-patterns".toList "REST".toList).nameTokens,
      '-' ∉ token :=
  nameTokens_hyphen_words "backend".toList "api-patterns".toList "REST".toList
    (by decide) (by decide)

/-- C9, counterexample.  The name `tanstack-query` has the words `tanstack` and
`query`, whose tokens are `tanstack` and `query`; the name tokens computed by
`loadSkills` are the single token `tanstack-query`, which contains a hyphen. -/
theorem nameTokens_tanstack_query :
    split '-' "tanstack-query".toList = ["tanstack".toList, "query".toList] ∧
    (split '-' "tanstack-query".toList).flatMap tokenize
      = ["tanstack".toList, "query".toList] ∧
    (mkSkill "frontend".toList "tanstack-query".toList "Caching".toList).nameTokens
      = ["tanstack-query".toList] ∧
    '-' ∈ "tanstack-query".toList := by
  decide

/-! ## Cross-source drift (`checkCatalogDrift`) -/

/-- C10 (as amended).  When the essential references of the bundle have the last
segments `[x, y]` with `x ≠ y`, the install configuration lists `[x]`, the wizard
lists a permutation of `[x, y]` and every agent-category name is in the discovery
table, exactly one error is collected; its message shows the two expected names in
sorted order, joined by `, `, and the actual list `x`: the expected list reads
`x, y` when `x` sorts before `y` and `y, x` otherwise. -/
theorem checkCatalogDrift_config_drift (essentialBundle wizard agentSkills found : List JsString)
    (x y : JsString) (hsegments : essentialBundle.map normalizeSkillName = [x, y])
    (hxy : x ≠ y) (hwizard : wizard.Perm [x, y])
    (hagent : ∀ name ∈ agentSkills, name ∈ found) :
    checkCatalogDrift essentialBundle [x] (some wizard) agentSkills (some found)
      = ["Mandatory skills drift between bundles.json and skills.config.json: expected [".toList
          ++ join ", ".toList (sortDefault [x, y]) ++ "], got [".toList
          ++ x ++ "]".toList] ∧
    (defaultCompare x y ≤ 0 →
      join ", ".toList (sortDefault [x, y]) = x ++ ", ".toList ++ y) ∧
    (¬ defaultCompare x y ≤ 0 →
      join ", ".toList (sortDefault [x, y]) = y ++ ", ".toList ++ x) := by
  have hwiz : sortDefault wizard = sortDefault [x, y] := by
    have hlen := hwizard.length_eq
    match wizard, hlen, hwizard with
    | [a, b], _, hp =>
      have ha : a ∈ [x, y] := hp.subset (List.mem_cons_self _ _)
      have hb : b ∈ [x, y] := hp.subset (List.mem_cons_of_mem _ (List.mem_cons_self _ _))
      have hx : x ∈ [a, b] := hp.symm.subset (List.mem_cons_self _ _)
      have hy : y ∈ [a, b] :=
        hp.symm.subset (List.mem_cons_of_mem _ (List.mem_cons_self _ _))
      simp only [List.mem_cons, List.mem_singleton, List.not_mem_nil, or_false]
        at ha hb hx hy
      rcases ha with ha | ha
      · rcases hb with hb | hb
        · rw [ha, hb] at hy
          exact absurd (hy.elim id id).symm hxy
        · rw [ha, hb]
      · rcases hb with hb | hb
        · rw [ha, hb]
          exact sortDefault_pair_comm x y hxy
        · rw [ha, hb] at hx
          exact absurd (hx.elim id id) hxy
  have hconfig : ¬ join "|".toList (sortDefault [x, y]) = x := by
    intro h
    have hl := congrArg List.length h
    rw [sortDefault_pair] at hl
    by_cases hc : defaultCompare x y ≤ 0
    · rw [if_pos hc, length_join_pair] at hl
      have : "|".toList.length = 1 := rfl
      omega
    · rw [if_neg hc, length_join_pair] at hl
      have : "|".toList.length = 1 := rfl
      omega
  have hmissing : (sortDefault agentSkills).filter
      (fun name => !(sortDefault (setFromArray found)).contains name) = [] := by
    rw [List.filter_eq_nil_iff]
    intro name hname
    have h1 : name ∈ found := hagent name ((mem_sortBy _ _ _).1 hname)
    have h2 : name ∈ sortDefault (setFromArray found) :=
      (mem_sortBy _ _ _).2 ((mem_setFromArray _ _).2 h1)
    have h3 : (sortDefault (setFromArray found)).contains name = true := List.elem_iff.2 h2
    rw [h3]
    decide
  refine ⟨?_, ?_, ?_⟩
  · unfold checkCatalogDrift
    simp only [hsegments, hwiz, hmissing, ne_eq, not_true_eq_false,
      if_false, List.length_nil, gt_iff_lt, lt_self_iff_false, List.append_nil,
      sortDefault_singleton, join_singleton]
    rw [if_pos hconfig]
  · intro h
    rw [sortDefault_pair, if_pos h]
    rfl
  · intro h
    rw [sortDefault_pair, if_neg h]
    rfl

set_option maxRecDepth 100000 in
/-- C10, instance.  Bundle references `core/git` and `core/errors`, configuration
`[git]`, wizard `[git, errors]`: the single error reads
`expected [errors, git], got [git]`. -/
theorem checkCatalogDrift_config_drift_witness :
    checkCatalogDrift ["core/git".toList, "core/errors".toList] ["git".toList]
      (some ["git".toList, "errors".toList]) ["find-skills".toList]
      (some ["find-skills".toList])
      = [("Mandatory skills drift between bundles.json and skills.config.json: "
          ++ "expected [errors, git], got [git]").toList] := by
  have h := (checkCatalogDrift_config_drift
    ["core/git".toList, "core/errors".toList] ["git".toList, "errors".toList]
    ["find-skills".toList] ["find-skills".toList] "git".toList "errors".toList
    (by decide) (by decide) (List.Perm.refl _) (by decide)).1
  rw [h]
  decide

set_option maxRecDepth 100000 in
/-- C10, counterexample.  With the references `core/b`, `core/a` (so `x = b`,
`y = a`), the configuration `[b]` and the wizard `[a, b]`, the single error reads
`expected [a, b], got [b]`: it does not contain the text `b, a`. -/
theorem checkCatalogDrift_expected_sorted :
    ["core/b".toList, "core/a".toList].map normalizeSkillName = ["b".toList, "a".toList] ∧
    checkCatalogDrift ["core/b".toList, "core/a".toList] ["b".toList]
      (some ["a".toList, "b".toList]) [] (some [])
      = [("Mandatory skills drift between bundles.json and skills.config.json: "
          ++ "expected [a, b], got [b]").toList] ∧
    ¬ ("b, a".toList <:+:
        ("Mandatory skills drift between bundles.json and skills.config.json: "
          ++ "expected [a, b], got [b]").toList) := by
  decide

/-! ## Size limits (`checkSkillFiles`, lines 168-182) -/

/-- C17.  For a record whose text has `L` lines and `W` words, `W` being the number
of maximal runs of characters that are not white space: the hard-line-limit error is
collected exactly when `L > 500`, the soft-line-budget warning exactly when
`300 < L ≤ 500`, the hard-word-limit error exactly when `W > 1400` and the
soft-word-budget warning exactly when `900 < W ≤ 1400`; each is collected once, the
error and the warning of one measure never together, whatever the other checks of
the record find. -/
theorem checkSkillDir_size_limits (toUpperCase : Char → JsString)
    (targetExists : JsString → JsString → Bool)
    (category : JsString) (entry : SkillEntry) (raw : JsString)
    (hdir : entry.isDirectory = true) (hfile : entry.skillFile = some raw) :
    countWords (readUtf8 raw) = wordRuns (readUtf8 raw) ∧
    ofKind .hardLineLimit (checkSkillDir toUpperCase targetExists category entry).1
      = (if 500 < (splitLines (readUtf8 raw)).length then
          [Issue.hardLineLimit (relFileOf category entry)
            (splitLines (readUtf8 raw)).length] else []) ∧
    ofKind .softLineBudget (checkSkillDir toUpperCase targetExists category entry).2
      = (if 300 < (splitLines (readUtf8 raw)).length
            ∧ (splitLines (readUtf8 raw)).length ≤ 500 then
          [Issue.softLineBudget (relFileOf category entry)
            (splitLines (readUtf8 raw)).length] else []) ∧
    ofKind .hardWordLimit (checkSkillDir toUpperCase targetExists category entry).1
      = (if 1400 < wordRuns (readUtf8 raw) then
          [Issue.hardWordLimit (relFileOf category entry) (wordRuns (readUtf8 raw))]
         else []) ∧
    ofKind .softWordBudget (checkSkillDir toUpperCase targetExists category entry).2
      = (if 900 < wordRuns (readUtf8 raw) ∧ wordRuns (readUtf8 raw) ≤ 1400 then
          [Issue.softWordBudget (relFileOf category entry) (wordRuns (readUtf8 raw))]
         else []) := by
  obtain ⟨laterErrors, laterWarnings, hshape, hE, hW⟩ :=
    checkSkillDir_shape toUpperCase targetExists category entry raw hdir hfile
  refine ⟨countWords_eq_wordRuns _, ?_⟩
  rw [hshape, ← countWords_eq_wordRuns]
  simp only [ofKind_append]
  rw [ofKind_of_kinds _ laterErrors _ hE (by decide),
    ofKind_of_kinds _ laterErrors _ hE (by decide),
    ofKind_of_kinds _ laterWarnings _ hW (by decide),
    ofKind_of_kinds _ laterWarnings _ hW (by decide)]
  generalize (splitLines (readUtf8 raw)).length = L
  generalize countWords (readUtf8 raw) = W
  unfold sizeErrors sizeWarnings HARD_LINE_LIMIT HARD_WORD_LIMIT SOFT_LINE_BUDGET
    SOFT_WORD_BUDGET
  simp only [ofKind_append, List.append_nil]
  refine ⟨?_, ?_, ?_, ?_⟩
  · by_cases h1 : 500 < L <;> by_cases h2 : 1400 < W <;>
      simp [ofKind, Issue.kind, h1, h2]
  · by_cases h1 : 500 < L
    · have h3 : ¬ (300 < L ∧ L ≤ 500) := by omega
      by_cases h2 : 1400 < W <;> by_cases h4 : 900 < W <;>
        simp [ofKind, Issue.kind, h1, h2, h3, h4]
    · by_cases h5 : 300 < L
      · have h3 : 300 < L ∧ L ≤ 500 := by omega
        by_cases h2 : 1400 < W <;> by_cases h4 : 900 < W <;>
          simp [ofKind, Issue.kind, h1, h2, h3, h4, h5]
      · have h3 : ¬ (300 < L ∧ L ≤ 500) := by omega
        by_cases h2 : 1400 < W <;> by_cases h4 : 900 < W <;>
          simp [ofKind, Issue.kind, h1, h2, h3, h4, h5]
  · by_cases h1 : 500 < L <;> by_cases h2 : 1400 < W <;>
      simp [ofKind, Issue.kind, h1, h2]
  · by_cases h2 : 1400 < W
    · have h3 : ¬ (900 < W ∧ W ≤ 1400) := by omega
      by_cases h1 : 500 < L <;> by_cases h5 : 300 < L <;>
        simp [ofKind, Issue.kind, h1, h2, h3, h5]
    · by_cases h4 : 900 < W
      · have h3 : 900 < W ∧ W ≤ 1400 := by omega
        by_cases h1 : 500 < L <;> by_cases h5 : 300 < L <;>
          simp [ofKind, Issue.kind, h1, h2, h3, h4, h5]
      · have h3 : ¬ (900 < W ∧ W ≤ 1400) := by omega
        by_cases h1 : 500 < L <;> by_cases h5 : 300 < L <;>
          simp [ofKind, Issue.kind, h1, h2, h3, h4, h5]

/-! ## Header checks (`checkSkillFiles`, lines 184-219) -/

/-- C16 (as amended).  For a record text, the opening-separator error is collected
exactly when the text does not begin with a line `---` followed by a line break, and
the closing-separator error exactly when it does but no later line is `---` once its
surrounding white space is trimmed; so a header-delimiter error is collected exactly
when the first line is not `---` or no later line trims to `---`. -/
theorem checkSkillDir_header_delimiters (toUpperCase : Char → JsString)
    (targetExists : JsString → JsString → Bool)
    (category : JsString) (entry : SkillEntry) (raw : JsString)
    (hdir : entry.isDirectory = true) (hfile : entry.skillFile = some raw) :
    ofKind .missingOpening (checkSkillDir toUpperCase targetExists category entry).1
      = (if (splitLines (readUtf8 raw)).head? = some "---".toList
            ∧ 2 ≤ (splitLines (readUtf8 raw)).length then []
         else [Issue.missingOpening (relFileOf category entry)]) ∧
    ofKind .missingClosing (checkSkillDir toUpperCase targetExists category entry).1
      = (if ((splitLines (readUtf8 raw)).head? = some "---".toList
              ∧ 2 ≤ (splitLines (readUtf8 raw)).length)
            ∧ ¬ ∃ line ∈ (splitLines (readUtf8 raw)).tail, trim line = "---".toList then
           [Issue.missingClosing (relFileOf category entry)]
         else []) ∧
    ((ofKind .missingOpening (checkSkillDir toUpperCase targetExists category entry).1 ≠ []
        ∨ ofKind .missingClosing (checkSkillDir toUpperCase targetExists category entry).1 ≠ [])
      ↔ ¬ ((splitLines (readUtf8 raw)).head? = some "---".toList
            ∧ ∃ line ∈ (splitLines (readUtf8 raw)).tail, trim line = "---".toList)) := by
  have hsize := kinds_sizeErrors (relFileOf category entry)
    (splitLines (readUtf8 raw)).length (countWords (readUtf8 raw))
  have hs1 := ofKind_of_kinds .missingOpening _ _ hsize (by decide)
  have hs2 := ofKind_of_kinds .missingClosing _ _ hsize (by decide)
  have hmain :
      ofKind .missingOpening (checkSkillDir toUpperCase targetExists category entry).1
        = (if (splitLines (readUtf8 raw)).head? = some "---".toList
              ∧ 2 ≤ (splitLines (readUtf8 raw)).length then []
           else [Issue.missingOpening (relFileOf category entry)]) ∧
      ofKind .missingClosing (checkSkillDir toUpperCase targetExists category entry).1
        = (if ((splitLines (readUtf8 raw)).head? = some "---".toList
                ∧ 2 ≤ (splitLines (readUtf8 raw)).length)
              ∧ ¬ ∃ line ∈ (splitLines (readUtf8 raw)).tail, trim line = "---".toList then
             [Issue.missingClosing (relFileOf category entry)]
           else []) := by
    by_cases hopen : startsWith (readUtf8 raw) "---\n".toList = true
        ∨ startsWith (readUtf8 raw) "---\r\n".toList = true
    · have hA := (startsWith_opening_iff (readUtf8 raw)).1 hopen
      rw [if_pos hA]
      cases hidx : secondSepIndex (splitLines (readUtf8 raw)) with
      | none =>
        have hB : ¬ ∃ line ∈ (splitLines (readUtf8 raw)).tail, trim line = "---".toList := by
          rintro ⟨line, hl, ht⟩
          exact (secondSepIndex_eq_none_iff _).1 hidx line hl ht
        rw [if_pos ⟨hA, hB⟩,
          checkSkillDir_no_closing toUpperCase targetExists category entry raw hdir hfile hopen hidx]
        simp only [ofKind_append, hs1, hs2, ofKind_singleton, Issue.kind]
        simp
      | some index =>
        have hB : ∃ line ∈ (splitLines (readUtf8 raw)).tail, trim line = "---".toList := by
          by_contra hn
          have : secondSepIndex (splitLines (readUtf8 raw)) = none := by
            rw [secondSepIndex_eq_none_iff]
            intro line hl ht
            exact hn ⟨line, hl, ht⟩
          rw [this] at hidx
          cases hidx
        have hlines : frontmatterLinesOf (readUtf8 raw)
            = some (((splitLines (readUtf8 raw)).take index).drop 1) := by
          unfold frontmatterLinesOf
          rw [hidx]
          rfl
        obtain ⟨later, hshape, hlater⟩ := checkSkillDir_after_header toUpperCase targetExists category
          entry raw _ hdir hfile hopen hlines
        rw [if_neg (fun h => h.2 hB), hshape]
        simp only [ofKind_append, hs1, hs2,
          ofKind_of_kinds .missingOpening _ _ (kinds_keyErrors _ _) (by decide),
          ofKind_of_kinds .missingClosing _ _ (kinds_keyErrors _ _) (by decide),
          ofKind_of_kinds .missingOpening _ _ hlater (by decide),
          ofKind_of_kinds .missingClosing _ _ hlater (by decide)]
        simp
    · have hA : ¬ ((splitLines (readUtf8 raw)).head? = some "---".toList
          ∧ 2 ≤ (splitLines (readUtf8 raw)).length) :=
        fun h => hopen ((startsWith_opening_iff (readUtf8 raw)).2 h)
      have hopen2 : startsWith (readUtf8 raw) "---\n".toList = false
          ∧ startsWith (readUtf8 raw) "---\r\n".toList = false := by
        constructor
        · by_contra h
          exact hopen (Or.inl (by simpa using h))
        · by_contra h
          exact hopen (Or.inr (by simpa using h))
      rw [if_neg hA, if_neg (fun h => hA h.1),
        checkSkillDir_no_opening toUpperCase targetExists category entry raw hdir hfile hopen2]
      simp only [ofKind_append, hs1, hs2, ofKind_singleton, Issue.kind]
      simp
  refine ⟨hmain.1, hmain.2, ?_⟩
  rw [hmain.1, hmain.2]
  by_cases hA : (splitLines (readUtf8 raw)).head? = some "---".toList
      ∧ 2 ≤ (splitLines (readUtf8 raw)).length
  · by_cases hB : ∃ line ∈ (splitLines (readUtf8 raw)).tail, trim line = "---".toList
    · rw [if_pos hA, if_neg (fun h => h.2 hB)]
      exact ⟨fun h => h.elim (fun h => absurd rfl h) (fun h => absurd rfl h),
        fun h => absurd ⟨hA.1, hB⟩ h⟩
    · rw [if_pos hA, if_pos ⟨hA, hB⟩]
      exact ⟨fun _ h => hB h.2, fun _ => Or.inr (List.cons_ne_nil _ _)⟩
  · have hn : ¬ ((splitLines (readUtf8 raw)).head? = some "---".toList
        ∧ ∃ line ∈ (splitLines (readUtf8 raw)).tail, trim line = "---".toList) := by
      rintro ⟨h1, line, hl, _⟩
      apply hA
      refine ⟨h1, ?_⟩
      cases hs : splitLines (readUtf8 raw) with
      | nil => rw [hs] at hl; cases hl
      | cons a t =>
        rw [hs] at hl
        cases t with
        | nil => cases hl
        | cons b u => simp
    rw [if_neg hA, if_neg (fun h => hA h.1)]
    exact ⟨fun _ => hn, fun _ => Or.inl (List.cons_ne_nil _ _)⟩

/-- C15.  For a record with both header delimiters, whose header keys are the keys
`k` of the header lines of the form `k:...` with `k` a non-empty run of characters of
`[A-Za-z0-9_-]`: the unsupported-keys error is collected exactly when some header key
is neither `name` nor `description`, at most once, and its message enumerates the
extra keys in header order, joined by `, `. -/
theorem checkSkillDir_unsupported_keys (toUpperCase : Char → JsString)
    (targetExists : JsString → JsString → Bool)
    (category : JsString) (entry : SkillEntry) (raw : JsString)
    (frontmatterLines : List JsString)
    (hdir : entry.isDirectory = true) (hfile : entry.skillFile = some raw)
    (hopen : startsWith (readUtf8 raw) "---\n".toList = true
      ∨ startsWith (readUtf8 raw) "---\r\n".toList = true)
    (hlines : frontmatterLinesOf (readUtf8 raw) = some frontmatterLines) :
    (∀ key, key ∈ frontmatterKeys frontmatterLines ↔
      ∃ line ∈ frontmatterLines, key ≠ [] ∧ (∀ c ∈ key, isKeyChar c = true)
        ∧ ∃ rest, line = key ++ ':' :: rest) ∧
    ofKind .unsupportedKeys (checkSkillDir toUpperCase targetExists category entry).1
      = (if ∃ key ∈ frontmatterKeys frontmatterLines,
              key ≠ "name".toList ∧ key ≠ "description".toList then
           [Issue.unsupportedKeys (relFileOf category entry)
             ((frontmatterKeys frontmatterLines).filter
               (fun key => decide (key ≠ "name".toList ∧ key ≠ "description".toList)))]
         else []) ∧
    ∀ extra, (Issue.unsupportedKeys (relFileOf category entry) extra).message
      = "Unsupported frontmatter keys in ".toList ++ relFileOf category entry
          ++ ": ".toList ++ join ", ".toList extra := by
  refine ⟨?_, ?_, fun _ => rfl⟩
  · intro key
    unfold frontmatterKeys
    rw [List.mem_filterMap]
    constructor
    · rintro ⟨line, hl, hm⟩
      exact ⟨line, hl, (matchKey_eq_some_iff line key).1 hm⟩
    · rintro ⟨line, hl, hm⟩
      exact ⟨line, hl, (matchKey_eq_some_iff line key).2 hm⟩
  · obtain ⟨later, hshape, hlater⟩ := checkSkillDir_after_header toUpperCase targetExists category
      entry raw frontmatterLines hdir hfile hopen hlines
    have hsize := kinds_sizeErrors (relFileOf category entry)
      (splitLines (readUtf8 raw)).length (countWords (readUtf8 raw))
    rw [hshape]
    simp only [ofKind_append, ofKind_of_kinds .unsupportedKeys _ _ hsize (by decide),
      ofKind_of_kinds .unsupportedKeys _ _ hlater (by decide), List.nil_append,
      List.append_nil]
    generalize frontmatterKeys frontmatterLines = keys
    have hextra : extraKeys keys
        = keys.filter (fun key => decide (key ≠ "name".toList ∧ key ≠ "description".toList)) := by
      unfold extraKeys
      apply List.filter_congr
      intro key _
      by_cases h1 : key = "name".toList
      · subst h1; decide
      · by_cases h2 : key = "description".toList
        · subst h2; decide
        · simp [h1, h2]
    have hiff : (extraKeys keys).length > 0
        ↔ ∃ key ∈ keys, key ≠ "name".toList ∧ key ≠ "description".toList := by
      rw [hextra, gt_iff_lt, List.length_pos, ne_eq, List.filter_eq_nil_iff]
      simp only [decide_eq_true_eq, not_forall, not_not]
      constructor
      · rintro ⟨key, hk, h⟩
        exact ⟨key, hk, h⟩
      · rintro ⟨key, hk, h⟩
        exact ⟨key, hk, h⟩
    unfold keyErrors
    simp only [ofKind_append]
    by_cases hex : ∃ key ∈ keys, key ≠ "name".toList ∧ key ≠ "description".toList
    · rw [if_pos hex, if_pos (hiff.2 hex), ← hextra]
      by_cases hreq : (!keys.contains "name".toList || !keys.contains "description".toList)
          = true
      · rw [if_pos hreq]
        simp [ofKind, Issue.kind]
      · rw [if_neg hreq]
        simp [ofKind, Issue.kind]
    · rw [if_neg hex, if_neg (fun h => hex (hiff.1 h))]
      by_cases hreq : (!keys.contains "name".toList || !keys.contains "description".toList)
          = true
      · rw [if_pos hreq]
        simp [ofKind, Issue.kind]
      · rw [if_neg hreq]
        simp [ofKind, Issue.kind]

/-- C14.  For a record with both header delimiters whose first header line starting
with `name:` is `nameLine`, the declared name being the text after `name:` trimmed:
exactly one name-mismatch error is collected when the declared name differs from the
directory name, compared character by character, and none when they are equal. -/
theorem checkSkillDir_name_mismatch (toUpperCase : Char → JsString)
    (targetExists : JsString → JsString → Bool)
    (category : JsString) (entry : SkillEntry) (raw : JsString)
    (frontmatterLines : List JsString) (nameLine : JsString)
    (hdir : entry.isDirectory = true) (hfile : entry.skillFile = some raw)
    (hopen : startsWith (readUtf8 raw) "---\n".toList = true
      ∨ startsWith (readUtf8 raw) "---\r\n".toList = true)
    (hlines : frontmatterLinesOf (readUtf8 raw) = some frontmatterLines)
    (hname : frontmatterLines.find? (fun line => startsWith line "name:".toList)
      = some nameLine) :
    ofKind .nameMismatch (checkSkillDir toUpperCase targetExists category entry).1
      = (if trim (nameLine.drop 5) = entry.name then []
         else [Issue.nameMismatch (relFileOf category entry) entry.name
                (trim (nameLine.drop 5))]) ∧
    (trim (nameLine.drop 5) ≠ entry.name →
      (ofKind .nameMismatch (checkSkillDir toUpperCase targetExists category entry).1).length = 1) ∧
    (trim (nameLine.drop 5) = entry.name →
      (ofKind .nameMismatch (checkSkillDir toUpperCase targetExists category entry).1).length = 0) := by
  obtain ⟨later, hshape, hlater⟩ := checkSkillDir_after_name toUpperCase targetExists category
    entry raw frontmatterLines nameLine hdir hfile hopen hlines hname
  have hsize := kinds_sizeErrors (relFileOf category entry)
    (splitLines (readUtf8 raw)).length (countWords (readUtf8 raw))
  have hmain : ofKind .nameMismatch (checkSkillDir toUpperCase targetExists category entry).1
      = (if trim (nameLine.drop 5) = entry.name then []
         else [Issue.nameMismatch (relFileOf category entry) entry.name
                (trim (nameLine.drop 5))]) := by
    rw [hshape]
    simp only [ofKind_append, ofKind_of_kinds .nameMismatch _ _ hsize (by decide),
      ofKind_of_kinds .nameMismatch _ _ (kinds_keyErrors _ _) (by decide),
      ofKind_of_kinds .nameMismatch _ _ hlater (by decide), List.nil_append,
      List.append_nil]
    by_cases h : trim (nameLine.drop 5) = entry.name
    · rw [if_pos h]
      rfl
    · rw [if_neg h, ofKind_singleton]
      rfl
  refine ⟨hmain, ?_, ?_⟩
  · intro h
    rw [hmain, if_neg h]
    rfl
  · intro h
    rw [hmain, if_pos h]
    rfl

/-- C13 (as amended).  The checks of one record run in sequence.  The size checks
always contribute.  A record without the opening separator contributes only its
size messages and the opening-separator error; one without the closing separator only
its size messages and the closing-separator error; one with both separators but no
header line starting with `name:` only its size messages and the key errors.  Only a
record with such a line contributes, after those, the name mismatch, the broken links
of `SKILL.md`, the companion messages and the reference messages, each whatever the
others find. -/
theorem checkSkillDir_sequential (toUpperCase : Char → JsString)
    (targetExists : JsString → JsString → Bool)
    (category : JsString) (entry : SkillEntry) (raw : JsString)
    (hdir : entry.isDirectory = true) (hfile : entry.skillFile = some raw) :
    ((startsWith (readUtf8 raw) "---\n".toList = false
        ∧ startsWith (readUtf8 raw) "---\r\n".toList = false) →
      checkSkillDir toUpperCase targetExists category entry
        = (sizeErrors (relFileOf category entry) (splitLines (readUtf8 raw)).length
              (countWords (readUtf8 raw))
            ++ [Issue.missingOpening (relFileOf category entry)],
           sizeWarnings (relFileOf category entry) (splitLines (readUtf8 raw)).length
              (countWords (readUtf8 raw)))) ∧
    ((startsWith (readUtf8 raw) "---\n".toList = true
        ∨ startsWith (readUtf8 raw) "---\r\n".toList = true) →
      (frontmatterLinesOf (readUtf8 raw) = none →
        checkSkillDir toUpperCase targetExists category entry
          = (sizeErrors (relFileOf category entry) (splitLines (readUtf8 raw)).length
                (countWords (readUtf8 raw))
              ++ [Issue.missingClosing (relFileOf category entry)],
             sizeWarnings (relFileOf category entry) (splitLines (readUtf8 raw)).length
                (countWords (readUtf8 raw)))) ∧
      (∀ frontmatterLines, frontmatterLinesOf (readUtf8 raw) = some frontmatterLines →
        (frontmatterLines.find? (fun line => startsWith line "name:".toList) = none →
          checkSkillDir toUpperCase targetExists category entry
            = (sizeErrors (relFileOf category entry) (splitLines (readUtf8 raw)).length
                  (countWords (readUtf8 raw))
                ++ keyErrors (relFileOf category entry)
                    (frontmatterKeys frontmatterLines),
               sizeWarnings (relFileOf category entry)
                  (splitLines (readUtf8 raw)).length (countWords (readUtf8 raw)))) ∧
        (∀ nameLine,
          frontmatterLines.find? (fun line => startsWith line "name:".toList)
            = some nameLine →
          checkSkillDir toUpperCase targetExists category entry
            = (sizeErrors (relFileOf category entry) (splitLines (readUtf8 raw)).length
                  (countWords (readUtf8 raw))
                ++ keyErrors (relFileOf category entry)
                    (frontmatterKeys frontmatterLines)
                ++ (if trim (replaceFirst "name:".toList [] nameLine) != entry.name then
                      [Issue.nameMismatch (relFileOf category entry) entry.name
                        (trim (replaceFirst "name:".toList [] nameLine))] else [])
                ++ (checkMarkdownLinks (targetExists (relFileOf category entry))
                      (readUtf8 raw)).map
                    (fun rawLink => Issue.brokenLink (relFileOf category entry) rawLink)
                ++ (companionIssues toUpperCase (relDirOf category entry)
                      (trim (replaceFirst "name:".toList [] nameLine))
                      entry.openaiYaml).1
                ++ (referencesIssues targetExists (relDirOf category entry)
                      (relFileOf category entry) (readUtf8 raw)
                      (splitLines (readUtf8 raw)).length (countWords (readUtf8 raw))
                      entry.references).1,
               sizeWarnings (relFileOf category entry)
                  (splitLines (readUtf8 raw)).length (countWords (readUtf8 raw))
                ++ (companionIssues toUpperCase (relDirOf category entry)
                      (trim (replaceFirst "name:".toList [] nameLine))
                      entry.openaiYaml).2
                ++ (referencesIssues targetExists (relDirOf category entry)
                      (relFileOf category entry) (readUtf8 raw)
                      (splitLines (readUtf8 raw)).length (countWords (readUtf8 raw))
                      entry.references).2)))) := by
  refine ⟨fun hopen => checkSkillDir_no_opening toUpperCase targetExists category entry raw hdir hfile
      hopen, fun hopen => ⟨?_, ?_⟩⟩
  · intro hlines
    apply checkSkillDir_no_closing toUpperCase targetExists category entry raw hdir hfile hopen
    unfold frontmatterLinesOf at hlines
    cases h : secondSepIndex (splitLines (readUtf8 raw)) with
    | none => rfl
    | some i => rw [h] at hlines; cases hlines
  · intro frontmatterLines hlines
    exact ⟨fun hname => checkSkillDir_no_name_line toUpperCase targetExists category entry raw
        frontmatterLines hdir hfile hopen hlines hname,
      fun nameLine hname => checkSkillDir_full toUpperCase targetExists category entry raw
        frontmatterLines nameLine hdir hfile hopen hlines hname⟩

/-- C13, instance.  A record without header, without companion file and with a broken
link: the only message is the opening-separator error. -/
theorem checkSkillDir_sequential_witness :
    checkSkillDir (fun c => [c]) (fun _ _ => false) "core".toList
      { name := "notes".toList, isDirectory := true,
        skillFile := some "Notes, see [the guide](guide.md)\n".toList,
        openaiYaml := none, references := none }
      = ([Issue.missingOpening "core/notes/SKILL.md".toList], []) :=
  ((checkSkillDir_sequential (fun c => [c]) (fun _ _ => false) "core".toList
      { name := "notes".toList, isDirectory := true,
        skillFile := some "Notes, see [the guide](guide.md)\n".toList,
        openaiYaml := none, references := none }
      "Notes, see [the guide](guide.md)\n".toList rfl rfl).1
    ⟨by decide, by decide⟩).trans (by decide)

/-- C13, counterexample.  The record `core/x` has no opening separator, no
`agents/openai.yaml` and a link to a file that does not exist, which
`checkMarkdownLinks` would report; the errors collected are the opening-separator
error alone, without a companion error or a broken-link error. -/
theorem checkSkillDir_skips_after_header_error :
    checkMarkdownLinks (fun _ => false) "# X\n\nSee [doc](missing.md).\n".toList
      = ["missing.md".toList] ∧
    (checkSkillDir (fun c => [c]) (fun _ _ => false) "core".toList
      { name := "x".toList, isDirectory := true,
        skillFile := some "# X\n\nSee [doc](missing.md).\n".toList,
        openaiYaml := none, references := none }).1.map Issue.message
      = ["Missing frontmatter opening separator: core/x/SKILL.md".toList] ∧
    (checkSkillDir (fun c => [c]) (fun _ _ => false) "core".toList
      { name := "x".toList, isDirectory := true,
        skillFile := some "---\ndescription: no name\n---\nSee [doc](missing.md).\n".toList,
        openaiYaml := none, references := none }).1.map Issue.message
      = ["Frontmatter must include name and description: core/x/SKILL.md".toList] := by
  decide

/-- C14, instance.  The record of the directory `api-patterns` that declares
`Api-Patterns` gets one name-mismatch error. -/
theorem checkSkillDir_name_mismatch_witness :
    ofKind .nameMismatch
      (checkSkillDir (fun c => [c]) (fun _ _ => true) "backend".toList
        { name := "api-patterns".toList, isDirectory := true,
          skillFile := some "---\nname: Api-Patterns\ndescription: REST\n---\n".toList,
          openaiYaml := none, references := none }).1
      = [Issue.nameMismatch "backend/api-patterns/SKILL.md".toList "api-patterns".toList
          "Api-Patterns".toList] :=
  (checkSkillDir_name_mismatch (fun c => [c]) (fun _ _ => true) "backend".toList
    { name := "api-patterns".toList, isDirectory := true,
      skillFile := some "---\nname: Api-Patterns\ndescription: REST\n---\n".toList,
      openaiYaml := none, references := none }
    "---\nname: Api-Patterns\ndescription: REST\n---\n".toList
    ["name: Api-Patterns".toList, "description: REST".toList]
    "name: Api-Patterns".toList rfl rfl (by decide) (by decide) (by decide)).1.trans
    (by decide)

/-- C15, instance.  A header with the keys `name`, `license`, `description` and
`version` gets one unsupported-keys error listing `license, version`. -/
theorem checkSkillDir_unsupported_keys_witness :
    (ofKind .unsupportedKeys
      (checkSkillDir (fun c => [c]) (fun _ _ => true) "core".toList
        { name := "git".toList, isDirectory := true,
          skillFile := some
            "---\nname: git\nlicense: MIT\ndescription: Git\nversion: 2\n---\n".toList,
          openaiYaml := none, references := none }).1).map Issue.message
      = ["Unsupported frontmatter keys in core/git/SKILL.md: license, version".toList] := by
  rw [(checkSkillDir_unsupported_keys (fun c => [c]) (fun _ _ => true) "core".toList
    { name := "git".toList, isDirectory := true,
      skillFile := some
        "---\nname: git\nlicense: MIT\ndescription: Git\nversion: 2\n---\n".toList,
      openaiYaml := none, references := none }
    "---\nname: git\nlicense: MIT\ndescription: Git\nversion: 2\n---\n".toList
    ["name: git".toList, "license: MIT".toList, "description: Git".toList,
     "version: 2".toList]
    rfl rfl (by decide) (by decide)).2.1]
  decide

/-- C16, instance.  A record whose text is a single line `---` gets the
opening-separator error and no closing-separator error. -/
theorem checkSkillDir_header_delimiters_witness :
    ofKind .missingOpening
      (checkSkillDir (fun c => [c]) (fun _ _ => true) "core".toList
        { name := "git".toList, isDirectory := true, skillFile := some "---".toList,
          openaiYaml := none, references := none }).1
      = [Issue.missingOpening "core/git/SKILL.md".toList] :=
  (checkSkillDir_header_delimiters (fun c => [c]) (fun _ _ => true) "core".toList
    { name := "git".toList, isDirectory := true, skillFile := some "---".toList,
      openaiYaml := none, references := none } "---".toList rfl rfl).1.trans (by decide)

/-- C16, counterexample.  In the text below the only later line with three dashes is
` --- `, with surrounding spaces: no later line consists solely of `---`, yet no
header-delimiter error is collected, the line being taken as the closing separator. -/
theorem checkSkillDir_closing_trimmed :
    splitLines "---\nname: git\ndescription: Git\n --- \nBody\n".toList
      = ["---".toList, "name: git".toList, "description: Git".toList, " --- ".toList,
         "Body".toList, []] ∧
    "---".toList ∉ (splitLines "---\nname: git\ndescription: Git\n --- \nBody\n".toList).tail ∧
    ofKind .missingOpening
      (checkSkillDir (fun c => [c]) (fun _ _ => true) "core".toList
        { name := "git".toList, isDirectory := true,
          skillFile := some "---\nname: git\ndescription: Git\n --- \nBody\n".toList,
          openaiYaml := none, references := none }).1 = [] ∧
    ofKind .missingClosing
      (checkSkillDir (fun c => [c]) (fun _ _ => true) "core".toList
        { name := "git".toList, isDirectory := true,
          skillFile := some "---\nname: git\ndescription: Git\n --- \nBody\n".toList,
          openaiYaml := none, references := none }).1 = [] ∧
    (checkSkillDir (fun c => [c]) (fun _ _ => true) "core".toList
        { name := "git".toList, isDirectory := true,
          skillFile := some "---\nname: git\ndescription: Git\n --- \nBody\n".toList,
          openaiYaml := none, references := none }).1.map Issue.message
      = ["Missing agents/openai.yaml: core/git".toList] := by
  decide

set_option maxRecDepth 100000 in
/-- C17, instance.  A text of 501 line breaks has 502 lines and no word: the hard
line limit error is collected, with the count 502. -/
theorem checkSkillDir_size_limits_witness :
    (ofKind .hardLineLimit
      (checkSkillDir (fun c => [c]) (fun _ _ => true) "core".toList
        { name := "git".toList, isDirectory := true,
          skillFile := some (List.replicate 501 '\n'),
          openaiYaml := none, references := none }).1).map Issue.message
      = ["SKILL.md exceeds hard line limit (500): core/git/SKILL.md (502)".toList] := by
  rw [(checkSkillDir_size_limits (fun c => [c]) (fun _ _ => true) "core".toList
    { name := "git".toList, isDirectory := true,
      skillFile := some (List.replicate 501 '\n'),
      openaiYaml := none, references := none } (List.replicate 501 '\n') rfl rfl).2.1]
  decide

/-! ## Names in the catalog -/

/-- C12 (as amended).  On a catalog for which `checkSkillFiles` collects no error,
every category directory exists and every skill directory holds a record whose
declared name, as the validator reads it, is the name of the directory; so within one
category two directories never declare the same name.  Nothing relates the names of
different categories. -/
theorem checkSkillFiles_declared_names (toUpperCase : Char → JsString)
    (targetExists : JsString → JsString → Bool)
    (tree : CatalogTree) (hno : (checkSkillFiles toUpperCase targetExists tree).1 = []) :
    ∀ category ∈ SKILL_CATEGORIES, ∃ entries, tree category = some entries ∧
      (∀ entry ∈ entries, entry.isDirectory = true →
        ∃ raw, entry.skillFile = some raw ∧
          declaredNameOf (readUtf8 raw) = some entry.name) ∧
      (∀ e₁ ∈ entries, ∀ e₂ ∈ entries, e₁.isDirectory = true → e₂.isDirectory = true →
        ∀ raw₁ raw₂, e₁.skillFile = some raw₁ → e₂.skillFile = some raw₂ →
          declaredNameOf (readUtf8 raw₁) = declaredNameOf (readUtf8 raw₂) →
          e₁.name = e₂.name) := by
  intro category hcat
  unfold checkSkillFiles at hno
  simp only at hno
  rw [List.flatMap_eq_nil_iff] at hno
  have hcatno := hno _ (List.mem_map_of_mem _ hcat)
  cases htree : tree category with
  | none =>
    rw [htree] at hcatno
    simp at hcatno
  | some entries =>
    rw [htree] at hcatno
    simp only at hcatno
    rw [List.flatMap_eq_nil_iff] at hcatno
    have hentry : ∀ entry ∈ entries, entry.isDirectory = true →
        ∃ raw, entry.skillFile = some raw ∧
          declaredNameOf (readUtf8 raw) = some entry.name := by
      intro entry he hdir
      have herr : (checkSkillDir toUpperCase targetExists category entry).1 = [] :=
        hcatno _ (List.mem_map_of_mem _ he)
      cases hfile : entry.skillFile with
      | none =>
        rw [checkSkillDir_no_file toUpperCase targetExists category entry hdir hfile] at herr
        cases herr
      | some raw =>
        refine ⟨raw, rfl, ?_⟩
        by_cases hopen : startsWith (readUtf8 raw) "---\n".toList = true
            ∨ startsWith (readUtf8 raw) "---\r\n".toList = true
        · cases hlines : frontmatterLinesOf (readUtf8 raw) with
          | none =>
            have hclose : secondSepIndex (splitLines (readUtf8 raw)) = none := by
              unfold frontmatterLinesOf at hlines
              cases h : secondSepIndex (splitLines (readUtf8 raw)) with
              | none => rfl
              | some i => rw [h] at hlines; cases hlines
            rw [checkSkillDir_no_closing toUpperCase targetExists category entry raw hdir hfile hopen
              hclose] at herr
            simp at herr
          | some frontmatterLines =>
            cases hname : frontmatterLines.find?
                (fun line => startsWith line "name:".toList) with
            | none =>
              exfalso
              rw [checkSkillDir_no_name_line toUpperCase targetExists category entry raw
                frontmatterLines hdir hfile hopen hlines hname] at herr
              simp only [List.append_eq_nil] at herr
              have hkeys := herr.2
              unfold keyErrors at hkeys
              simp only [List.append_eq_nil] at hkeys
              have hreq := hkeys.1
              by_cases hc : (frontmatterKeys frontmatterLines).contains "name".toList = true
              · have hmem : "name".toList ∈ frontmatterKeys frontmatterLines :=
                  List.elem_iff.1 hc
                unfold frontmatterKeys at hmem
                obtain ⟨line, hl, hm⟩ := List.mem_filterMap.1 hmem
                obtain ⟨_, _, rest, hrest⟩ := (matchKey_eq_some_iff line _).1 hm
                have hstart : startsWith line "name:".toList = true := by
                  rw [hrest]
                  unfold startsWith
                  exact List.isPrefixOf_iff_prefix.2 ⟨rest, by simp⟩
                have := List.find?_eq_none.1 hname line hl
                exact this hstart
              · have hc2 : (frontmatterKeys frontmatterLines).contains "name".toList
                    = false := by simpa using hc
                rw [hc2] at hreq
                simp at hreq
            | some nameLine =>
              rw [checkSkillDir_full toUpperCase targetExists category entry raw frontmatterLines
                nameLine hdir hfile hopen hlines hname] at herr
              simp only [List.append_eq_nil] at herr
              have hmm := herr.1.1.1.2
              have hdecl : declaredNameOf (readUtf8 raw)
                  = some (trim (replaceFirst "name:".toList [] nameLine)) := by
                unfold declaredNameOf
                rw [hlines, Option.some_bind, hname]
                rfl
              rw [hdecl]
              by_cases hd : trim (replaceFirst "name:".toList [] nameLine) = entry.name
              · rw [hd]
              · exfalso
                have hne : (trim (replaceFirst "name:".toList [] nameLine) != entry.name)
                    = true := by simpa using hd
                rw [if_pos hne] at hmm
                cases hmm
        · have hopen2 : startsWith (readUtf8 raw) "---\n".toList = false
              ∧ startsWith (readUtf8 raw) "---\r\n".toList = false := by
            constructor
            · by_contra h
              exact hopen (Or.inl (by simpa using h))
            · by_contra h
              exact hopen (Or.inr (by simpa using h))
          rw [checkSkillDir_no_opening toUpperCase targetExists category entry raw hdir hfile hopen2]
            at herr
          simp at herr
    refine ⟨entries, rfl, hentry, ?_⟩
    intro e₁ he₁ e₂ he₂ hd₁ hd₂ raw₁ raw₂ hf₁ hf₂ heq
    obtain ⟨r₁, hr₁, hn₁⟩ := hentry e₁ he₁ hd₁
    obtain ⟨r₂, hr₂, hn₂⟩ := hentry e₂ he₂ hd₂
    rw [hf₁] at hr₁
    rw [hf₂] at hr₂
    rw [← Option.some.inj hr₁] at hn₁
    rw [← Option.some.inj hr₂] at hn₂
    rw [hn₁, hn₂] at heq
    exact Option.some.inj heq

set_option maxRecDepth 100000 in
/-- C12, instance.  The catalog `duplicateTree` passes the checks, so the record of
`agent/dup` declares the name `dup`. -/
theorem checkSkillFiles_declared_names_witness :
    ∃ entries, duplicateTree "agent".toList = some entries ∧
      ∀ entry ∈ entries, entry.isDirectory = true →
        ∃ raw, entry.skillFile = some raw ∧
          declaredNameOf (readUtf8 raw) = some entry.name := by
  obtain ⟨entries, h1, h2, _⟩ := checkSkillFiles_declared_names (fun c => [c]) (fun _ _ => true)
    duplicateTree (by decide) "agent".toList (by decide)
  exact ⟨entries, h1, h2⟩

set_option maxRecDepth 100000 in
/-- C12, counterexample.  On the catalog `duplicateTree` the validator collects no
error and no warning, and the loader returns two records named `dup`, one of the
category `agent` and one of the category `core`. -/
theorem loadSkills_duplicate_names :
    checkSkillFiles (fun c => [c]) (fun _ _ => true) duplicateTree = ([], []) ∧
    (loadSkills defaultCompare duplicateTree).map (fun skill => (skill.name, skill.category))
      = [("dup".toList, "agent".toList), ("dup".toList, "core".toList)] := by
  decide

/-! ## Markdown links (`checkMarkdownLinks`, `extractMarkdownLinks`) -/

/-- C19 (as amended).  Of the links of a document, a broken-link error is collected
exactly for those whose target, as `normalizeLinkTarget` reduces it (which leaves
neither `#` nor `?` in it), is not empty, does not begin, in any letter case, with
`http://`, `https://`, `mailto:`, `tel:` or `#`, and does not resolve to an existing
file.  No error is collected for a target that itself begins, in any letter case,
with one of these five prefixes, whatever files exist.  For a target written as a
path without blank, `#` and `?`, followed by an optional `#fragment` or `?query`
without blank, and either followed by an optional title after a blank (the path not
beginning with `<`) or enclosed as a whole in angle brackets, the reduced target is
the path without surrounding white space, and the error is collected exactly when
that path is not empty, has none of the five prefixes and does not resolve to an
existing file. -/
theorem checkMarkdownLinks_spec (targetExists : JsString → Bool) (content : JsString) :
    (∀ rawLink, rawLink ∈ checkMarkdownLinks targetExists content ↔
      rawLink ∈ extractMarkdownLinks content ∧
      normalizeLinkTarget rawLink ≠ [] ∧
      ¬ ("http://".toList <+: toLowerCase (normalizeLinkTarget rawLink)
          ∨ "https://".toList <+: toLowerCase (normalizeLinkTarget rawLink)
          ∨ "mailto:".toList <+: toLowerCase (normalizeLinkTarget rawLink)
          ∨ "tel:".toList <+: toLowerCase (normalizeLinkTarget rawLink)
          ∨ "#".toList <+: toLowerCase (normalizeLinkTarget rawLink)) ∧
      targetExists (normalizeLinkTarget rawLink) = false) ∧
    (∀ rawLink, '#' ∉ normalizeLinkTarget rawLink ∧ '?' ∉ normalizeLinkTarget rawLink) ∧
    (∀ start rest pat : JsString, toLowerCase start = pat →
      pat ∈ ["http://".toList, "https://".toList, "mailto:".toList, "tel:".toList,
        "#".toList] →
      start ++ rest ∉ checkMarkdownLinks targetExists content) ∧
    (∀ rawLink path suffix title : JsString,
      (' ' ∉ path ∧ '#' ∉ path ∧ '?' ∉ path) →
      (suffix = [] ∨ ∃ c rest, suffix = c :: rest ∧ (c = '#' ∨ c = '?') ∧ ' ' ∉ rest) →
      (title = [] ∨ ∃ rest, title = ' ' :: rest) →
      ((rawLink = path ++ suffix ++ title ∧ path.head? ≠ some '<')
        ∨ (rawLink = "<".toList ++ path ++ suffix ++ ">".toList ∧ title = [])) →
      normalizeLinkTarget rawLink = trim path ∧
      (rawLink ∈ checkMarkdownLinks targetExists content ↔
        rawLink ∈ extractMarkdownLinks content ∧
        trim path ≠ [] ∧
        ¬ ("http://".toList <+: toLowerCase (trim path)
            ∨ "https://".toList <+: toLowerCase (trim path)
            ∨ "mailto:".toList <+: toLowerCase (trim path)
            ∨ "tel:".toList <+: toLowerCase (trim path)
            ∨ "#".toList <+: toLowerCase (trim path)) ∧
        targetExists (trim path) = false)) := by
  have hgen : ∀ rawLink, rawLink ∈ checkMarkdownLinks targetExists content ↔
      rawLink ∈ extractMarkdownLinks content ∧
      normalizeLinkTarget rawLink ≠ [] ∧
      ¬ ("http://".toList <+: toLowerCase (normalizeLinkTarget rawLink)
          ∨ "https://".toList <+: toLowerCase (normalizeLinkTarget rawLink)
          ∨ "mailto:".toList <+: toLowerCase (normalizeLinkTarget rawLink)
          ∨ "tel:".toList <+: toLowerCase (normalizeLinkTarget rawLink)
          ∨ "#".toList <+: toLowerCase (normalizeLinkTarget rawLink)) ∧
      targetExists (normalizeLinkTarget rawLink) = false := by
    intro rawLink
    have hne : normalizeLinkTarget rawLink ≠ []
        ↔ (normalizeLinkTarget rawLink).isEmpty = false := by
      cases normalizeLinkTarget rawLink <;> simp
    unfold checkMarkdownLinks
    rw [List.mem_filter, hne]
    simp only [← List.isPrefixOf_iff_prefix]
    unfold isExternalLink startsWith
    simp only
    generalize (normalizeLinkTarget rawLink).isEmpty = b₀
    generalize List.isPrefixOf "http://".toList (toLowerCase (normalizeLinkTarget rawLink))
      = b₁
    generalize List.isPrefixOf "https://".toList (toLowerCase (normalizeLinkTarget rawLink))
      = b₂
    generalize List.isPrefixOf "mailto:".toList (toLowerCase (normalizeLinkTarget rawLink))
      = b₃
    generalize List.isPrefixOf "tel:".toList (toLowerCase (normalizeLinkTarget rawLink))
      = b₄
    generalize List.isPrefixOf "#".toList (toLowerCase (normalizeLinkTarget rawLink))
      = b₅
    generalize targetExists (normalizeLinkTarget rawLink) = b₆
    cases b₀ <;> cases b₁ <;> cases b₂ <;> cases b₃ <;> cases b₄ <;> cases b₅ <;>
      cases b₆ <;> simp
  refine ⟨hgen, ?_, ?_, ?_⟩
  · intro rawLink
    unfold normalizeLinkTarget
    simp only
    constructor
    · intro h
      have h1 := (trim_isInfix _).subset h
      have h2 := (mem_headD_split '?' _ '#' h1).1
      exact (mem_headD_split '#' _ '#' h2).2 rfl
    · intro h
      have h1 := (trim_isInfix _).subset h
      exact (mem_headD_split '?' _ '?' h1).2 rfl
  · intro start rest pat hlower hpat
    exact not_reported_of_external targetExists content start rest pat hlower hpat
  · intro rawLink path suffix title hpath hsuffix htitle hraw
    have hparts := normalizeLinkTarget_parts path suffix title hpath hsuffix htitle
    have hnorm : normalizeLinkTarget rawLink = trim path := by
      rcases hraw with ⟨e, hhead⟩ | ⟨e, ht⟩
      · rw [e]
        exact hparts.1 hhead
      · rw [e]
        exact hparts.2 ht
    refine ⟨hnorm, ?_⟩
    have h := hgen rawLink
    rw [hnorm] at h
    exact h

set_option maxRecDepth 100000 in
/-- C19, an instance.  In a document with the links `docs/a.md#top` followed by a
quoted title and `<docs/b.md>`, where the file `docs/a.md` exists and no other, no
error is collected for the first link and one is collected for the second. -/
theorem checkMarkdownLinks_spec_witness :
    "docs/a.md".toList ++ "#top".toList
        ++ (" ".toList ++ [Char.ofNat 34] ++ "Guide".toList ++ [Char.ofNat 34])
      ∉ checkMarkdownLinks (fun target => target == "docs/a.md".toList)
          ("[a](docs/a.md#top ".toList ++ [Char.ofNat 34] ++ "Guide".toList
            ++ [Char.ofNat 34] ++ ") [b](<docs/b.md>)".toList) ∧
    "<".toList ++ "docs/b.md".toList ++ [] ++ ">".toList
      ∈ checkMarkdownLinks (fun target => target == "docs/a.md".toList)
          ("[a](docs/a.md#top ".toList ++ [Char.ofNat 34] ++ "Guide".toList
            ++ [Char.ofNat 34] ++ ") [b](<docs/b.md>)".toList) := by
  have h := (checkMarkdownLinks_spec (fun target => target == "docs/a.md".toList)
    ("[a](docs/a.md#top ".toList ++ [Char.ofNat 34] ++ "Guide".toList
      ++ [Char.ofNat 34] ++ ") [b](<docs/b.md>)".toList)).2.2.2
  constructor
  · intro hm
    have hA := (h _ "docs/a.md".toList "#top".toList
      (" ".toList ++ [Char.ofNat 34] ++ "Guide".toList ++ [Char.ofNat 34])
      (by decide) (Or.inr ⟨'#', "top".toList, rfl, Or.inl rfl, by decide⟩)
      (Or.inr ⟨[Char.ofNat 34] ++ "Guide".toList ++ [Char.ofNat 34], rfl⟩)
      (Or.inl ⟨rfl, by decide⟩)).2
    have hex := (hA.1 hm).2.2.2
    revert hex
    decide
  · have hB := (h _ "docs/b.md".toList [] [] (by decide) (Or.inl rfl) (Or.inl rfl)
      (Or.inr ⟨rfl, rfl⟩)).2
    exact hB.2 ⟨by decide, by decide, by decide, by decide⟩

/-- C19, counterexample.  The target `ftp://example.com/spec.md` begins with a URL
scheme prefix, yet a broken-link error is collected for it when no file of that
relative path exists; the targets `HTTPS://example.com` and `MailTo:a@b.c` are
exempt. -/
theorem checkMarkdownLinks_ftp :
    checkMarkdownLinks (fun _ => false)
      "[spec](ftp://example.com/spec.md) [site](HTTPS://example.com) [m](MailTo:a@b.c)".toList
      = ["ftp://example.com/spec.md".toList] := by
  decide

/-- C20 (as amended).  For a text `A ++ fence ++ B ++ fence ++ C` in which neither
`A` nor `B` contains three consecutive backticks or ends with a backtick, the code
block is removed as a whole and the extracted links are those extracted from
`A ++ C`, whatever else `B` contains. -/
theorem extractMarkdownLinks_fenced (A B C : JsString)
    (hA : ¬ fence <:+: A) (hAend : A.getLast? ≠ some (Char.ofNat 96))
    (hB : ¬ fence <:+: B) (hBend : B.getLast? ≠ some (Char.ofNat 96)) :
    stripCodeBlocks (A ++ fence ++ B ++ fence ++ C) = A ++ stripCodeBlocks C ∧
    extractMarkdownLinks (A ++ fence ++ B ++ fence ++ C) = extractMarkdownLinks (A ++ C) := by
  have h1 : stripCodeBlocks (A ++ fence ++ B ++ fence ++ C) = A ++ stripCodeBlocks C := by
    unfold stripCodeBlocks
    have e : A ++ fence ++ B ++ fence ++ C = A ++ (fence ++ B ++ fence ++ C) := by
      simp only [List.append_assoc]
    rw [e, stripCodeBlocksAux_append A _ hA hAend, stripCodeBlocksAux_fenced B C hB hBend]
  have h2 : stripCodeBlocks (A ++ C) = A ++ stripCodeBlocks C := by
    unfold stripCodeBlocks
    exact stripCodeBlocksAux_append A C hA hAend
  refine ⟨h1, ?_⟩
  unfold extractMarkdownLinks
  rw [h1, h2]

/-- C20, instance.  The link inside the fenced block of
`See [a](a.md) ... [c](c.md)` is not returned. -/
theorem extractMarkdownLinks_fenced_witness :
    extractMarkdownLinks
      ("See [a](a.md)\n".toList ++ fence ++ "\n[b](b.md)\n".toList ++ fence
        ++ "\n[c](c.md)".toList)
      = ["a.md".toList, "c.md".toList] :=
  (extractMarkdownLinks_fenced "See [a](a.md)\n".toList "\n[b](b.md)\n".toList
    "\n[c](c.md)".toList (by decide) (by decide) (by decide) (by decide)).2.trans
    (by decide)

/-- C20, counterexample.  With `A` a single backtick, `B` two backticks followed by
the link `[x](y.md)` and `C` empty, neither `A` nor `B` contains three consecutive
backticks; the link of `B` is returned, while `A ++ C` has no link. -/
theorem extractMarkdownLinks_leak :
    ¬ fence <:+: [Char.ofNat 96] ∧
    ¬ fence <:+: [Char.ofNat 96, Char.ofNat 96] ++ "[x](y.md)".toList ∧
    extractMarkdownLinks
      ([Char.ofNat 96] ++ fence ++ ([Char.ofNat 96, Char.ofNat 96] ++ "[x](y.md)".toList)
        ++ fence ++ [])
      = ["y.md".toList] ∧
    extractMarkdownLinks ([Char.ofNat 96] ++ []) = [] := by
  decide

/-! ## Mandatory lists (`checkCatalogDrift`, lines 289-309) -/

/-- C11 (as amended).  The errors of `checkCatalogDrift` are those of the install
configuration, of the wizard and of the discovery table, in that order.  For lists of
non-empty names without `|`, a drift error is collected for the install configuration
(respectively the wizard) exactly when its list is not a rearrangement of the list of
last path segments of the bundle references: the order of the entries does not
matter, their numbers of occurrences do. -/
theorem checkCatalogDrift_mandatory (essentialBundle other : List JsString)
    (hsegments : ∀ name ∈ essentialBundle.map normalizeSkillName,
      name ≠ [] ∧ '|' ∉ name)
    (hother : ∀ name ∈ other, name ≠ [] ∧ '|' ∉ name) :
    (∀ configMandatory wizardMandatory agentSkills findSkillsAgent,
      checkCatalogDrift essentialBundle configMandatory wizardMandatory agentSkills
          findSkillsAgent
        = configDriftErrors essentialBundle configMandatory
          ++ wizardDriftErrors essentialBundle wizardMandatory
          ++ agentRowErrors agentSkills findSkillsAgent) ∧
    (configDriftErrors essentialBundle other ≠ []
      ↔ ¬ (essentialBundle.map normalizeSkillName).Perm other) ∧
    (wizardDriftErrors essentialBundle (some other) ≠ []
      ↔ ¬ (essentialBundle.map normalizeSkillName).Perm other) ∧
    (∀ bundle₂ other₂,
      (bundle₂.map normalizeSkillName).Perm (essentialBundle.map normalizeSkillName) →
      other₂.Perm other →
      (configDriftErrors bundle₂ other₂ ≠ [] ↔ configDriftErrors essentialBundle other ≠ [])
      ∧ (wizardDriftErrors bundle₂ (some other₂) ≠ []
          ↔ wizardDriftErrors essentialBundle (some other) ≠ [])) := by
  have hconfig : ∀ bundle list,
      (∀ name ∈ bundle.map normalizeSkillName, name ≠ [] ∧ '|' ∉ name) →
      (∀ name ∈ list, name ≠ [] ∧ '|' ∉ name) →
      (configDriftErrors bundle list ≠ []
        ↔ ¬ (bundle.map normalizeSkillName).Perm list) := by
    intro bundle list h1 h2
    rw [← drift_iff_not_perm _ _ h1 h2]
    unfold configDriftErrors
    by_cases h : join "|".toList (sortDefault (bundle.map normalizeSkillName))
        ≠ join "|".toList (sortDefault list)
    · rw [if_pos h]
      exact ⟨fun _ => h, fun _ => List.cons_ne_nil _ _⟩
    · rw [if_neg h]
      exact ⟨fun h2 => absurd rfl h2, fun h2 => absurd h2 h⟩
  have hwizard : ∀ bundle list,
      (∀ name ∈ bundle.map normalizeSkillName, name ≠ [] ∧ '|' ∉ name) →
      (∀ name ∈ list, name ≠ [] ∧ '|' ∉ name) →
      (wizardDriftErrors bundle (some list) ≠ []
        ↔ ¬ (bundle.map normalizeSkillName).Perm list) := by
    intro bundle list h1 h2
    rw [← drift_iff_not_perm _ _ h1 h2]
    unfold wizardDriftErrors
    simp only
    by_cases h : join "|".toList (sortDefault list)
        ≠ join "|".toList (sortDefault (bundle.map normalizeSkillName))
    · rw [if_pos h]
      exact ⟨fun _ => fun e => h e.symm, fun _ => List.cons_ne_nil _ _⟩
    · rw [if_neg h]
      exact ⟨fun h2 => absurd rfl h2, fun h2 => absurd (fun e => h2 e.symm) h⟩
  refine ⟨fun _ _ _ _ => checkCatalogDrift_eq _ _ _ _ _, hconfig _ _ hsegments hother,
    hwizard _ _ hsegments hother, ?_⟩
  intro bundle₂ other₂ hp₁ hp₂
  have h1 : ∀ name ∈ bundle₂.map normalizeSkillName, name ≠ [] ∧ '|' ∉ name :=
    fun name hn => hsegments name (hp₁.subset hn)
  have h2 : ∀ name ∈ other₂, name ≠ [] ∧ '|' ∉ name :=
    fun name hn => hother name (hp₂.subset hn)
  have hperm : (bundle₂.map normalizeSkillName).Perm other₂
      ↔ (essentialBundle.map normalizeSkillName).Perm other :=
    ⟨fun h => (hp₁.symm.trans h).trans hp₂, fun h => (hp₁.trans h).trans hp₂.symm⟩
  rw [hconfig _ _ h1 h2, hwizard _ _ h1 h2, hconfig _ _ hsegments hother,
    hwizard _ _ hsegments hother, hperm]
  exact ⟨Iff.rfl, Iff.rfl⟩

set_option maxRecDepth 100000 in
/-- C11, instance.  The bundle references `core/git` and `core/errors` against the
configuration list `errors`, `git`: no drift error. -/
theorem checkCatalogDrift_mandatory_witness :
    configDriftErrors ["core/git".toList, "core/errors".toList]
      ["errors".toList, "git".toList] = [] := by
  have h := (checkCatalogDrift_mandatory ["core/git".toList, "core/errors".toList]
    ["errors".toList, "git".toList] (by decide) (by decide)).2.1
  by_contra hne
  exact h.1 hne (List.Perm.swap _ _ _)

set_option maxRecDepth 100000 in
/-- C11, counterexample.  The references `core/git`, `core/git` and the configuration
list `git` name the same set, yet a drift error is collected; the reference
`core/a|b` and the configuration list `a`, `b` name different sets, yet no drift
error is collected. -/
theorem checkCatalogDrift_not_sets :
    (["core/git".toList, "core/git".toList].map normalizeSkillName ⊆ ["git".toList]
      ∧ ["git".toList] ⊆ ["core/git".toList, "core/git".toList].map normalizeSkillName) ∧
    checkCatalogDrift ["core/git".toList, "core/git".toList] ["git".toList]
        (some ["git".toList, "git".toList]) [] (some [])
      = [("Mandatory skills drift between bundles.json and skills.config.json: "
          ++ "expected [git, git], got [git]").toList] ∧
    ¬ (["core/a|b".toList].map normalizeSkillName ⊆ ["a".toList, "b".toList]) ∧
    checkCatalogDrift ["core/a|b".toList] ["a".toList, "b".toList]
        (some ["a|b".toList]) [] (some []) = [] := by
  decide

/-! ## The discovery table (`parseFindSkillsAgentTable`, `checkCatalogDrift`) -/

/-- C18.  Let a discovery document consist of a text `pre` without the heading
`### Agent Skills`, the heading, a section text without the delimiter of the next
section (a line feed followed by `## `) and either nothing more or that delimiter and
any further text.  Then `parseFindSkillsAgentTable` returns the first-column values of
the rows of the section (the literal `skill` excepted) whatever `pre` and the further
text are, `checkCatalogDrift` collects the missing-rows error exactly when some
expected name is not among these values, and the error lists the expected names, in
sorted order, that are not among them.  Every document that contains the heading
splits in this way. -/
theorem checkCatalogDrift_agent_rows (pre sectionText : JsString)
    (agentSkills : List JsString)
    (hfirst : ¬ "### Agent Skills".toList <:+: pre)
    (hsection : ¬ "\n## ".toList <:+: sectionText) :
    (∀ doc : JsString,
      (doc = pre ++ "### Agent Skills".toList ++ sectionText
        ∨ ∃ rest, doc = pre ++ "### Agent Skills".toList ++ sectionText
            ++ "\n## ".toList ++ rest) →
      parseFindSkillsAgentTable doc = some (tableNames sectionText) ∧
      (agentRowErrors agentSkills (parseFindSkillsAgentTable doc) ≠ []
        ↔ ∃ name ∈ agentSkills, name ∉ tableNames sectionText) ∧
      agentRowErrors agentSkills (parseFindSkillsAgentTable doc)
        = (if ∃ name ∈ agentSkills, name ∉ tableNames sectionText then
            ["agent/find-skills/SKILL.md is missing agent skill rows: ".toList
              ++ join ", ".toList ((sortDefault agentSkills).filter
                  (fun name => name ∉ tableNames sectionText))]
          else []) ∧
      ∀ essentialBundle configMandatory wizardMandatory,
        checkCatalogDrift essentialBundle configMandatory wizardMandatory agentSkills
            (parseFindSkillsAgentTable doc)
          = configDriftErrors essentialBundle configMandatory
            ++ wizardDriftErrors essentialBundle wizardMandatory
            ++ agentRowErrors agentSkills (parseFindSkillsAgentTable doc)) ∧
    (∀ doc : JsString, "### Agent Skills".toList <:+: doc →
      ∃ pre₂ section₂, ¬ "### Agent Skills".toList <:+: pre₂
        ∧ ¬ "\n## ".toList <:+: section₂
        ∧ (doc = pre₂ ++ "### Agent Skills".toList ++ section₂
          ∨ ∃ rest, doc = pre₂ ++ "### Agent Skills".toList ++ section₂
              ++ "\n## ".toList ++ rest)) := by
  constructor
  · intro doc hdoc
    have hparse : parseFindSkillsAgentTable doc = some (tableNames sectionText) := by
      rcases hdoc with e | ⟨rest, e⟩
      · rw [e]
        exact (parseFindSkillsAgentTable_section pre sectionText hfirst hsection).1
      · rw [e]
        exact (parseFindSkillsAgentTable_section pre sectionText hfirst hsection).2 rest
    refine ⟨hparse, ?_, ?_, fun _ _ _ => checkCatalogDrift_eq _ _ _ _ _⟩
    · rw [hparse, agentRowErrors_some]
      by_cases h : ∃ name ∈ agentSkills, name ∉ tableNames sectionText
      · rw [if_pos h]
        exact ⟨fun _ => h, fun _ => List.cons_ne_nil _ _⟩
      · rw [if_neg h]
        exact ⟨fun h2 => absurd rfl h2, fun h2 => absurd h2 h⟩
    · rw [hparse, agentRowErrors_some]
  · intro doc hdoc
    obtain ⟨a, b, e, hn⟩ := first_occurrence _ (by decide) doc hdoc
    have ha : ¬ "### Agent Skills".toList <:+: a :=
      fun h => hn (h.trans (List.infix_append' [] a _))
    by_cases hb : "\n## ".toList <:+: b
    · obtain ⟨s, r, e2, hn2⟩ := first_occurrence _ (by decide) b hb
      refine ⟨a, s, ha, fun h => hn2 (h.trans (List.infix_append' [] s _)), Or.inr ⟨r, ?_⟩⟩
      rw [e, e2]
      simp only [List.append_assoc]
    · exact ⟨a, b, ha, hb, Or.inl e⟩

set_option maxRecDepth 100000 in
/-- C18, instance.  A document with a row `old-skill` before the heading, the rows
`skill` and `find-skills` in the section, and a row `late-skill` after the next
section delimiter: of the three expected names, `late-skill` and `old-skill` are
reported missing. -/
theorem checkCatalogDrift_agent_rows_witness :
    parseFindSkillsAgentTable
        ("| old-skill | x |\n### Agent Skills\n\n| skill | use |\n| find-skills | y |\n## Other\n| late-skill | z |\n").toList
      = some ["find-skills".toList] ∧
    agentRowErrors ["old-skill".toList, "find-skills".toList, "late-skill".toList]
        (parseFindSkillsAgentTable
          ("| old-skill | x |\n### Agent Skills\n\n| skill | use |\n| find-skills | y |\n## Other\n| late-skill | z |\n").toList)
      = [("agent/find-skills/SKILL.md is missing agent skill rows: "
          ++ "late-skill, old-skill").toList] := by
  have h := (checkCatalogDrift_agent_rows "| old-skill | x |\n".toList
    "\n\n| skill | use |\n| find-skills | y |".toList
    ["old-skill".toList, "find-skills".toList, "late-skill".toList]
    (by decide) (by decide)).1
    ("| old-skill | x |\n### Agent Skills\n\n| skill | use |\n| find-skills | y |\n## Other\n| late-skill | z |\n").toList
    (Or.inr ⟨"Other\n| late-skill | z |\n".toList, by decide⟩)
  refine ⟨h.1.trans (by decide), h.2.2.1.trans (by decide)⟩

/-! ## The run (`run`, lines 141-172) -/

/-- C21.  For every evaluation suite and every non-empty catalog, `run` ends after
its report, and its exit code is 0 exactly when the pass rate is at least the
pass-rate threshold.  Here the pass rate is the quotient `passed / total` as `run`
computes it, the double nearest to the exact quotient and within `2 ^ -53` of it, taken
to be 0 for a suite without cases; `passed` is the number of cases whose `evaluateCase`
result passes, `total` is the number of cases, and the thresholds are 0.85 (the double
that this literal denotes) and 4 when the suite gives no number for them.  So the run
succeeds when the exact quotient exceeds the threshold by `2 ^ -53` and fails when it
is below it by more than that. -/
theorem run_succeeds_iff (localeCompare : JsString → JsString → Int)
    (raw : EvalSuite) (skills : List Skill) (hne : skills ≠ []) :
    ∃ accuracy failed exitCode,
      run localeCompare (some raw) skills
        = some (.finished
            ((raw.cases.getD []).countP
              (casePasses localeCompare skills (raw.none_score_threshold.getD 4)))
            (raw.cases.getD []).length accuracy failed exitCode) ∧
      accuracy = (if (raw.cases.getD []).length = 0 then 0
        else divideDouble
          ((raw.cases.getD []).countP
            (casePasses localeCompare skills (raw.none_score_threshold.getD 4)))
          (raw.cases.getD []).length) ∧
      (exitCode = 0 ∨ exitCode = 1) ∧
      (exitCode = 0 ↔ raw.pass_threshold.getD defaultPassThreshold ≤ accuracy) ∧
      (raw.cases.getD [] = [] → (exitCode = 0 ↔ raw.pass_threshold.getD defaultPassThreshold ≤ 0)) ∧
      (raw.cases.getD [] ≠ [] →
        |accuracy - (((raw.cases.getD []).countP
            (casePasses localeCompare skills (raw.none_score_threshold.getD 4)) : Nat) : ℚ)
          / (((raw.cases.getD []).length : Nat) : ℚ)| ≤ 1 / 2 ^ 53 ∧
        (raw.pass_threshold.getD defaultPassThreshold + 1 / 2 ^ 53
            ≤ (((raw.cases.getD []).countP
              (casePasses localeCompare skills (raw.none_score_threshold.getD 4)) : Nat) : ℚ)
              / (((raw.cases.getD []).length : Nat) : ℚ) → exitCode = 0) ∧
        ((((raw.cases.getD []).countP
              (casePasses localeCompare skills (raw.none_score_threshold.getD 4)) : Nat) : ℚ)
              / (((raw.cases.getD []).length : Nat) : ℚ) + 1 / 2 ^ 53
            < raw.pass_threshold.getD defaultPassThreshold → exitCode = 1)) := by
  have hlen : ¬ skills.length = 0 := fun h => hne (List.length_eq_zero.1 h)
  have hcore : ∀ (threshold noneThreshold : ℚ) (cases : List TestCase),
      raw.pass_threshold.getD defaultPassThreshold = threshold →
      raw.none_score_threshold.getD 4 = noneThreshold →
      raw.cases.getD [] = cases →
      ∃ failed,
        run localeCompare (some raw) skills
          = some (.finished
              (cases.countP (casePasses localeCompare skills noneThreshold))
              cases.length
              (if cases.length = 0 then 0
                else divideDouble
                  (cases.countP (casePasses localeCompare skills noneThreshold))
                  cases.length)
              failed
              (if (if cases.length = 0 then (0 : ℚ)
                else divideDouble
                  (cases.countP (casePasses localeCompare skills noneThreshold))
                  cases.length) < threshold then 1 else 0)) := by
    intro threshold noneThreshold cases hth hnt hcases
    obtain ⟨results, h1, h2, h3, -⟩ := evaluateCases_some localeCompare skills
      noneThreshold hne cases
    refine ⟨results.filter (fun r => !r.pass), ?_⟩
    rcases raw with ⟨_ | pt, _ | nt, _ | cs⟩ <;>
      simp only [Option.getD] at hth hnt hcases <;>
      subst hth hnt hcases <;>
      unfold run <;>
      simp only [if_neg hlen, h1, h2, h3]
  generalize raw.pass_threshold.getD defaultPassThreshold = threshold at *
  generalize raw.cases.getD [] = cases at *
  generalize raw.none_score_threshold.getD 4 = noneThreshold at *
  obtain ⟨failed, hrun⟩ := hcore threshold noneThreshold cases rfl rfl rfl
  have hcode : ∀ accuracy : ℚ,
      ((if accuracy < threshold then 1 else 0) = 0 ↔ threshold ≤ accuracy) := by
    intro accuracy
    by_cases h : accuracy < threshold
    · rw [if_pos h]
      exact ⟨fun h0 => absurd h0 (by decide), fun h0 => absurd h (not_lt.2 h0)⟩
    · rw [if_neg h]
      exact ⟨fun _ => not_lt.1 h, fun _ => rfl⟩
  have hcode1 : ∀ accuracy : ℚ,
      ((if accuracy < threshold then 1 else 0) = 1 ↔ accuracy < threshold) := by
    intro accuracy
    by_cases h : accuracy < threshold
    · rw [if_pos h]
      exact ⟨fun _ => h, fun _ => rfl⟩
    · rw [if_neg h]
      exact ⟨fun h0 => absurd h0 (by decide), fun h0 => absurd h0 h⟩
  refine ⟨_, failed, _, hrun, rfl, ?_, hcode _, ?_, ?_⟩
  · by_cases h : (if cases.length = 0 then (0 : ℚ)
        else divideDouble (cases.countP (casePasses localeCompare skills noneThreshold))
          cases.length) < threshold
    · exact Or.inr (if_pos h)
    · exact Or.inl (if_neg h)
  · intro hnil
    rw [hcode, hnil]
    rfl
  · intro hnn
    have hpos : 0 < cases.length := List.length_pos.2 hnn
    have hcount : cases.countP (casePasses localeCompare skills noneThreshold)
        ≤ cases.length := List.countP_le_length _
    rw [hcode, hcode1, if_neg (Nat.pos_iff_ne_zero.1 hpos)]
    generalize cases.countP (casePasses localeCompare skills noneThreshold) = passed at *
    generalize cases.length = total at *
    have hnear : |divideDouble passed total - (passed : ℚ) / (total : ℚ)| ≤ 1 / 2 ^ 53 := by
      by_cases hp : passed = 0
      · subst hp
        simp [divideDouble]
      · obtain ⟨n, k, hd, hk, -, -, hb, -⟩ :=
          divideDouble_nearest passed total (Nat.pos_of_ne_zero hp) hcount
        rw [hd]
        refine le_trans hb ?_
        apply one_div_le_one_div_of_le (by positivity)
        exact pow_le_pow_right₀ (by norm_num) (by omega)
    have hb := abs_le.1 hnear
    refine ⟨hnear, fun h => by linarith [hb.1], fun h => by linarith [hb.2]⟩

set_option maxRecDepth 100000 in
/-- C21, instance.  A suite whose pass-rate threshold is the double that `0.8` denotes
and of whose five cases four pass: the quotient `4 / 5` is computed as that same
double, and the run succeeds. -/
theorem run_succeeds_iff_witness :
    (run defaultCompare
      (some { pass_threshold := some (3602879701896397 / 4503599627370496),
              none_score_threshold := none,
              cases := some
                [{ id := "t1".toList, prompt := "tool".toList,
                   expected := some "a-tool".toList },
                 { id := "t2".toList, prompt := "tool".toList,
                   expected := some "a-tool".toList },
                 { id := "t3".toList, prompt := "tool".toList,
                   expected := some "a-tool".toList },
                 { id := "t4".toList, prompt := "tool".toList,
                   expected := some "a-tool".toList },
                 { id := "t5".toList, prompt := "team".toList,
                   expected := some "a-tool".toList }] })
      [mkSkill "core".toList "a-tool".toList "tool".toList,
       mkSkill "core".toList "b-team".toList "team".toList]).map RunOutcome.exitCode
      = some 0 := by
  obtain ⟨accuracy, failed, exitCode, hrun, hacc, -, hiff, -, -⟩ :=
    run_succeeds_iff defaultCompare
      { pass_threshold := some (3602879701896397 / 4503599627370496),
        none_score_threshold := none,
        cases := some
          [{ id := "t1".toList, prompt := "tool".toList,
             expected := some "a-tool".toList },
           { id := "t2".toList, prompt := "tool".toList,
             expected := some "a-tool".toList },
           { id := "t3".toList, prompt := "tool".toList,
             expected := some "a-tool".toList },
           { id := "t4".toList, prompt := "tool".toList,
             expected := some "a-tool".toList },
           { id := "t5".toList, prompt := "team".toList,
             expected := some "a-tool".toList }] }
      [mkSkill "core".toList "a-tool".toList "tool".toList,
       mkSkill "core".toList "b-team".toList "team".toList] (by decide)
  rw [hrun]
  have hcount : List.countP
      (casePasses defaultCompare
        [mkSkill "core".toList "a-tool".toList "tool".toList,
         mkSkill "core".toList "b-team".toList "team".toList] 4)
      [{ id := "t1".toList, prompt := "tool".toList, expected := some "a-tool".toList },
       { id := "t2".toList, prompt := "tool".toList, expected := some "a-tool".toList },
       { id := "t3".toList, prompt := "tool".toList, expected := some "a-tool".toList },
       { id := "t4".toList, prompt := "tool".toList, expected := some "a-tool".toList },
       { id := "t5".toList, prompt := "team".toList, expected := some "a-tool".toList }]
      = 4 := by decide
  have hshift : significandShift 4 5 = 53 := by decide
  have hround : roundHalfEven (4 * 2 ^ 53) 5 = 7205759403792794 := by decide
  have hdiv : divideDouble 4 5 = 3602879701896397 / 4503599627370496 := by
    unfold divideDouble
    rw [if_neg (by decide), hshift, hround]
    norm_num
  simp only [Option.getD, List.length_cons, List.length_nil] at hacc hiff
  rw [hcount] at hacc
  have hacc2 : accuracy = 3602879701896397 / 4503599627370496 := by
    rw [hacc, if_neg (by decide)]
    exact hdiv
  have h0 : exitCode = 0 := hiff.2 (by rw [hacc2])
  rw [h0]
  rfl

/-! ## The wizard's mandatory list (`parseWizardMandatory`, lines 43-54) -/

/-- C22 (as amended).  Let `names` be a non-empty list of non-empty names made of
characters `[a-z0-9-]`, and let a script text consist of a text `pre` without
`const mandatory = [`, then `const mandatory = [`, the names each between two quotes
(white space around them allowed) and separated by commas, then `];` and any further
text.  Then `parseWizardMandatory` returns exactly `names`, in order.  It returns
`null`, for which `checkCatalogDrift` collects the error that the mandatory skills
cannot be parsed, when the text does not contain `const mandatory = [`, and when its
only statement is `const mandatory = [];` with nothing between the brackets. -/
theorem parseWizardMandatory_spec (pre post : JsString) (rendered names : List JsString)
    (hpre : ¬ "const mandatory = [".toList <:+: pre)
    (hitems : List.Forall₂ IsQuotedName rendered names)
    (hne : names ≠ [])
    (hnames : ∀ name ∈ names, name ≠ [] ∧ ∀ c ∈ name, isTokenChar c = true) :
    parseWizardMandatory
        (pre ++ "const mandatory = [".toList ++ join ",".toList rendered ++ "];".toList
          ++ post) = some names ∧
    (∀ text : JsString, ¬ "const mandatory = [".toList <:+: text →
      parseWizardMandatory text = none) ∧
    (¬ "const mandatory = [".toList <:+: post →
      parseWizardMandatory (pre ++ "const mandatory = [];".toList ++ post) = none) ∧
    (∀ essentialBundle : List JsString,
      wizardDriftErrors essentialBundle none
        = ["Unable to parse mandatory skills from scripts/skills-wizard.js".toList]) := by
  obtain ⟨hvalues, hfacts⟩ := values_of_quoted rendered names hitems hnames
  have hrne : rendered ≠ [] := by
    intro e
    rw [e] at hitems
    cases hitems
    exact hne rfl
  refine ⟨?_, ?_, ?_, fun _ => rfl⟩
  · have hbody : join ",".toList rendered ≠ [] :=
      fun e => hrne (join_eq_nil _ _ (fun w hw => (hfacts w hw).1) e)
    have hclose : ']' ∉ join ",".toList rendered := by
      intro hm
      rcases mem_join _ _ _ hm with h1 | ⟨w, hw, h1⟩
      · exact absurd h1 (by decide)
      · exact (hfacts w hw).2.2 h1
    unfold parseWizardMandatory
    rw [findMandatory_statement pre _ post hpre hbody hclose]
    have hsplit : split ',' (join ",".toList rendered) = rendered :=
      split_join ',' rendered hrne (fun w hw => (hfacts w hw).2.1)
    simp only [hsplit, hvalues]
  · intro text h
    unfold parseWizardMandatory
    rw [findMandatory_eq_none text h]
  · intro hpost
    unfold parseWizardMandatory
    rw [findMandatory_empty_literal pre post hpre hpost]

set_option maxRecDepth 100000 in
/-- C22, instance.  The statement of the shipped wizard, with the lines around it:
the list is `global-config`, `typescript`, `git`, `errors`. -/
theorem parseWizardMandatory_spec_witness :
    parseWizardMandatory
      ("const repo = 'Alicoder001/agent-skills';\n\n"
        ++ "const mandatory = ['global-config', 'typescript', 'git', 'errors'];"
        ++ "\n\nconst questions = [\n").toList
      = some ["global-config".toList, "typescript".toList, "git".toList,
          "errors".toList] := by
  have h := (parseWizardMandatory_spec
    "const repo = 'Alicoder001/agent-skills';\n\n".toList
    "\n\nconst questions = [\n".toList
    ["'global-config'".toList, " 'typescript'".toList, " 'git'".toList,
      " 'errors'".toList]
    ["global-config".toList, "typescript".toList, "git".toList, "errors".toList]
    (by decide)
    (List.Forall₂.cons ⟨[], [], Char.ofNat 39, Char.ofNat 39,
        by decide, by decide, by decide, by decide, by decide⟩
      (List.Forall₂.cons ⟨[' '], [], Char.ofNat 39, Char.ofNat 39,
          by decide, by decide, by decide, by decide, by decide⟩
        (List.Forall₂.cons ⟨[' '], [], Char.ofNat 39, Char.ofNat 39,
            by decide, by decide, by decide, by decide, by decide⟩
          (List.Forall₂.cons ⟨[' '], [], Char.ofNat 39, Char.ofNat 39,
              by decide, by decide, by decide, by decide, by decide⟩
            List.Forall₂.nil))))
    (by decide) (by decide)).1
  exact h

set_option maxRecDepth 100000 in
/-- C22, counterexample.  For the empty array literal written with a blank between
the brackets, `parseWizardMandatory` returns the empty list and not `null`:
`checkCatalogDrift` then collects a drift error against the bundle list `git`, and
not the error that the list cannot be parsed. -/
theorem parseWizardMandatory_blank_literal :
    parseWizardMandatory "const mandatory = [ ];".toList = some [] ∧
    checkCatalogDrift ["core/git".toList] ["git".toList]
        (parseWizardMandatory "const mandatory = [ ];".toList) [] (some [])
      = [("Mandatory skills drift between bundles.json and scripts/skills-wizard.js: "
          ++ "expected [git], got []").toList] := by
  decide

/-! ## The two header readers (`checkSkillFiles`, `parseFrontmatter`, `loadSkills`) -/

/-- Agreement of the two header readers on plainly written headers.  Let a record
raise no error of the header checks of the validator, and let moreover its closing
line be exactly `---` and be followed by a line terminator, its header lines contain
no line terminator character, every header line that starts with `name:` declare the
name that the validator compares with the directory name, this name be non-empty and
every header line that starts with `description:` have a non-blank value.  Then
`parseFrontmatter` of the matcher returns a mapping whose `name` is that name and
whose `description` is non-empty, and `loadSkills` loads the record under that
name. -/
theorem header_readers_agree (toUpperCase : Char → JsString)
    (targetExists : JsString → JsString → Bool)
    (category : JsString) (entry : SkillEntry) (raw : JsString) (index : Nat)
    (hdir : entry.isDirectory = true) (hfile : entry.skillFile = some raw)
    (hno : ∀ issue ∈ (checkSkillDir toUpperCase targetExists category entry).1,
      issue.kind ∉ headerKinds)
    (hindex : secondSepIndex (splitLines (readUtf8 raw)) = some index)
    (hexact : (splitLines (readUtf8 raw))[index]? = some "---".toList)
    (hnext : index + 1 < (splitLines (readUtf8 raw)).length)
    (hterm : ∀ line ∈ ((splitLines (readUtf8 raw)).take index).drop 1,
      ∀ c ∈ line, isLineTerminator c = false)
    (hsame : ∀ line ∈ ((splitLines (readUtf8 raw)).take index).drop 1,
      startsWith line "name:".toList = true →
        some (trim (line.drop 5)) = declaredNameOf (readUtf8 raw))
    (hname : declaredNameOf (readUtf8 raw) ≠ some [])
    (hdesc : ∀ line ∈ ((splitLines (readUtf8 raw)).take index).drop 1,
      startsWith line "description:".toList = true → trim (line.drop 12) ≠ []) :
    ∃ fm name description,
      parseFrontmatter (readUtf8 raw) = some fm ∧
      declaredNameOf (readUtf8 raw) = some name ∧
      lookup "name".toList fm = some name ∧
      lookup "description".toList fm = some description ∧
      name ≠ [] ∧ description ≠ [] ∧
      loadCategory category [entry] = [mkSkill category name description] := by
  have hopen : startsWith (readUtf8 raw) "---\n".toList = true
      ∨ startsWith (readUtf8 raw) "---\r\n".toList = true := by
    by_contra hcon
    rw [not_or] at hcon
    have h1 : startsWith (readUtf8 raw) "---\n".toList = false := by
      simpa using hcon.1
    have h2 : startsWith (readUtf8 raw) "---\r\n".toList = false := by
      simpa using hcon.2
    have herr := checkSkillDir_no_opening toUpperCase targetExists category entry raw hdir hfile ⟨h1, h2⟩
    apply hno (Issue.missingOpening (relFileOf category entry))
    · rw [herr]
      exact List.mem_append_right _ (List.mem_singleton_self _)
    · simp [Issue.kind, headerKinds]
  have hlines : frontmatterLinesOf (readUtf8 raw)
      = some (((splitLines (readUtf8 raw)).take index).drop 1) := by
    unfold frontmatterLinesOf
    rw [hindex]
    rfl
  generalize hfm : ((splitLines (readUtf8 raw)).take index).drop 1 = fmLines at *
  obtain ⟨later, herr, -⟩ := checkSkillDir_after_header toUpperCase targetExists category entry raw
    fmLines hdir hfile hopen hlines
  have hkeys : keyErrors (relFileOf category entry) (frontmatterKeys fmLines) = [] := by
    rw [List.eq_nil_iff_forall_not_mem]
    intro issue hi
    apply hno issue
    · rw [herr]
      exact List.mem_append_left _ (List.mem_append_right _ hi)
    · have := kinds_keyErrors _ _ issue hi
      simp only [List.mem_cons, List.mem_singleton, List.not_mem_nil, or_false] at this
      rcases this with h | h <;> rw [h] <;> simp [headerKinds]
  unfold keyErrors at hkeys
  simp only [List.append_eq_nil] at hkeys
  have hboth : (frontmatterKeys fmLines).contains "name".toList = true
      ∧ (frontmatterKeys fmLines).contains "description".toList = true := by
    have h1 := hkeys.1
    by_cases hc : (!(frontmatterKeys fmLines).contains "name".toList
        || !(frontmatterKeys fmLines).contains "description".toList) = true
    · rw [if_pos hc] at h1
      cases h1
    · simpa using hc
  -- a header line for each of the two keys
  have hline : ∀ key : JsString, (frontmatterKeys fmLines).contains key = true →
      ∃ line ∈ fmLines, matchKey line = some key := by
    intro key hc
    have hmem : key ∈ frontmatterKeys fmLines := List.elem_iff.1 hc
    unfold frontmatterKeys at hmem
    obtain ⟨line, hl, hm⟩ := List.mem_filterMap.1 hmem
    exact ⟨line, hl, hm⟩
  have hne : fmLines ≠ [] := by
    obtain ⟨line, hl, -⟩ := hline _ hboth.1
    exact List.ne_nil_of_mem hl
  have h2 : 2 ≤ index := by
    by_contra hlt
    apply hne
    rw [← hfm]
    have : index ≤ 1 := by omega
    rw [List.drop_eq_nil_iff]
    simp only [List.length_take]
    omega
  have hparse := parseFrontmatter_of_header (readUtf8 raw) index hopen hindex h2 hexact hnext
  rw [hfm] at hparse
  -- the value that the lenient reader keeps for a key
  have hvalue : ∀ key : JsString, (frontmatterKeys fmLines).contains key = true →
      ∃ line ∈ fmLines, startsWith line (key ++ ":".toList) = true ∧
        lookup key (fmLines.filterMap matchKeyValue)
          = some (trim (line.drop (key.length + 1))) := by
    intro key hc
    obtain ⟨line, hl, hm⟩ := hline key hc
    have hkv := matchKeyValue_of_matchKey line key hm (hterm line hl)
    obtain ⟨kv, hkvmem, hk1, hk2⟩ := lookup_of_mem key (fmLines.filterMap matchKeyValue)
      ⟨_, List.mem_filterMap.2 ⟨line, hl, hkv⟩, rfl⟩
    obtain ⟨line2, hl2, hm2⟩ := List.mem_filterMap.1 hkvmem
    obtain ⟨hmk, hval⟩ := matchKey_of_matchKeyValue line2 kv.1 kv.2 hm2
    rw [hk1] at hmk hval
    obtain ⟨-, -, rest, hrest⟩ := (matchKey_eq_some_iff line2 key).1 hmk
    refine ⟨line2, hl2, ?_, ?_⟩
    · unfold startsWith
      rw [hrest]
      exact List.isPrefixOf_iff_prefix.2 ⟨rest, by simp⟩
    · rw [hk2, hval]
  obtain ⟨nameLine, hnl, hns, hnv⟩ := hvalue _ hboth.1
  obtain ⟨descLine, hdl, hds, hdv⟩ := hvalue _ hboth.2
  have hdecl := hsame nameLine hnl hns
  have hnonempty : trim (nameLine.drop 5) ≠ [] := by
    intro e
    apply hname
    rw [← hdecl, e]
  have hdnonempty := hdesc descLine hdl hds
  refine ⟨_, _, _, hparse, hdecl.symm, hnv, hdv, hnonempty, hdnonempty, ?_⟩
  unfold loadCategory
  have he1 : (trim (nameLine.drop 5)).isEmpty = false := by
    cases h : trim (nameLine.drop 5) with
    | nil => exact absurd h hnonempty
    | cons _ _ => rfl
  have he2 : (trim (descLine.drop 12)).isEmpty = false := by
    cases h : trim (descLine.drop 12) with
    | nil => exact absurd h hdnonempty
    | cons _ _ => rfl
  have hnv2 : lookup "name".toList (fmLines.filterMap matchKeyValue)
      = some (trim (nameLine.drop 5)) := hnv
  have hdv2 : lookup "description".toList (fmLines.filterMap matchKeyValue)
      = some (trim (descLine.drop 12)) := hdv
  simp only [List.filter_cons, hdir, if_true, List.filter_nil, List.filterMap_cons,
    List.filterMap_nil, hfile, hparse, hnv2, hdv2, he1, he2, Bool.or_self,
    Bool.false_eq_true, if_false]
  rfl

set_option maxRecDepth 100000 in
/-- An instance of the agreement.  The record of the directory `git` with the header
lines `name: git` and `description: Git workflow` is loaded under the name `git`. -/
theorem header_readers_agree_witness :
    declaredNameOf (readUtf8 "---\nname: git\ndescription: Git workflow\n---\n# Git\n".toList)
      = some "git".toList ∧
    loadCategory "core".toList
        [recordEntry "git".toList
          "---\nname: git\ndescription: Git workflow\n---\n# Git\n".toList]
      = [mkSkill "core".toList "git".toList "Git workflow".toList] := by
  obtain ⟨fm, name, description, hparse, hdecl, -, hdescription, -, -, hload⟩ :=
    header_readers_agree (fun c => [c]) (fun _ _ => true) "core".toList
      (recordEntry "git".toList
        "---\nname: git\ndescription: Git workflow\n---\n# Git\n".toList)
      "---\nname: git\ndescription: Git workflow\n---\n# Git\n".toList 3 rfl rfl
      (by decide) (by decide) (by decide) (by decide) (by decide) (by decide) (by decide)
      (by decide)
  have h1 : declaredNameOf
      (readUtf8 "---\nname: git\ndescription: Git workflow\n---\n# Git\n".toList)
      = some "git".toList := by decide
  have h2 : parseFrontmatter
      (readUtf8 "---\nname: git\ndescription: Git workflow\n---\n# Git\n".toList)
      = some [("name".toList, "git".toList),
          ("description".toList, "Git workflow".toList)] := by decide
  rw [h1] at hdecl
  rw [h2] at hparse
  rw [← Option.some.inj hparse] at hdescription
  have h3 : lookup "description".toList
      [("name".toList, "git".toList), ("description".toList, "Git workflow".toList)]
      = some "Git workflow".toList := by decide
  rw [h3] at hdescription
  rw [← Option.some.inj hdecl, ← Option.some.inj hdescription] at hload
  exact ⟨h1, hload⟩

set_option maxRecDepth 100000 in
/-- C23, the code at the failing inputs.  The two readers of the header are to agree
on every record that the validator accepts; on these three records of the directory
`a`, for which the validator collects no error at all, they do not.  The first ends with its closing line `---`, without a line
terminator: `parseFrontmatter` returns `null` and the record is skipped.  The second
has the header lines `name: a` and `name: b`: the validator compares `a` with the
directory name and the matcher loads the record under the name `b`.  In the third the
line `name: a` ends with the character U+2028: the mapping of the matcher has no
`name` and the record is skipped. -/
theorem header_readers_disagree :
    ((checkSkillDir (fun c => [c]) (fun _ _ => true) "core".toList
        (recordEntry "a".toList "---\nname: a\ndescription: d\n---".toList)).1 = [] ∧
      parseFrontmatter (readUtf8 "---\nname: a\ndescription: d\n---".toList) = none ∧
      loadCategory "core".toList
        [recordEntry "a".toList "---\nname: a\ndescription: d\n---".toList] = []) ∧
    ((checkSkillDir (fun c => [c]) (fun _ _ => true) "core".toList
        (recordEntry "a".toList
          "---\nname: a\nname: b\ndescription: d\n---\n".toList)).1 = [] ∧
      declaredNameOf (readUtf8 "---\nname: a\nname: b\ndescription: d\n---\n".toList)
        = some "a".toList ∧
      (parseFrontmatter
          (readUtf8 "---\nname: a\nname: b\ndescription: d\n---\n".toList)).bind
        (lookup "name".toList) = some "b".toList ∧
      loadCategory "core".toList
        [recordEntry "a".toList "---\nname: a\nname: b\ndescription: d\n---\n".toList]
        = [mkSkill "core".toList "b".toList "d".toList]) ∧
    ((checkSkillDir (fun c => [c]) (fun _ _ => true) "core".toList
        (recordEntry "a".toList
          "---\nname: a\u2028\ndescription: d\n---\n".toList)).1 = [] ∧
      (parseFrontmatter
          (readUtf8 "---\nname: a\u2028\ndescription: d\n---\n".toList)).bind
        (lookup "name".toList) = none ∧
      loadCategory "core".toList
        [recordEntry "a".toList "---\nname: a\u2028\ndescription: d\n---\n".toList]
        = []) := by
  decide

/-! ## The generated companion file (`generateForSkill`, `checkSkillFiles`) -/

/-- C24 (as amended).  For every name made of characters `[a-z0-9-]` and every
description in which each character is white space or is neither a control character,
nor the double quote, nor the backslash, the text that `generateForSkill` builds, as
the validator parses it, has the four required keys, its `display_name` is the
validator's `titleCase` of the name and its `short_description` has at most 145 code
units; so the validator collects no error and no warning for it.  `generateForSkill`
writes this text for every record whose header gives a non-empty name and a non-empty
description. -/
theorem generatedYaml_passes (toUpperCase : Char → JsString)
    (relDir name description : JsString)
    (hname : ∀ c ∈ name, isTokenChar c = true)
    (hdesc : ∀ c ∈ description, isPlainChar c = true ∨ isWhiteSpace c = true) :
    (∃ short prompt,
      parseYaml (readUtf8 (generatedYaml toUpperCase name description))
        = [("version".toList, "1".toList),
           ("display_name".toList, titleCase toUpperCase name),
           ("short_description".toList, short),
           ("default_prompt".toList, prompt)] ∧
      (codeUnits short).length ≤ 145) ∧
    companionIssues toUpperCase relDir name
        (some (generatedYaml toUpperCase name description)) = ([], []) ∧
    (∀ raw fm, parseFrontmatter (readUtf8 (readUtf8 raw)) = some fm →
      lookup "name".toList fm = some name →
      lookup "description".toList fm = some description →
      name ≠ [] → description ≠ [] →
      generateForSkill toUpperCase raw = some (generatedYaml toUpperCase name description)) := by
  have hnd := normalizeDescription_chars description hdesc
  have htitle := titleCase_chars toUpperCase name hname
  have hshort := shortDescription_facts (normalizeDescription description) hnd
  have hdisplay : quoteJSONUnits (codeUnits (titleCase toUpperCase name))
      = titleCase toUpperCase name :=
    quoteJSONUnits_plain _ (fun c hc => (htitle c hc).1)
  have hprompt : ∀ c ∈ quoteJSONUnits (codeUnits
      (if (codeUnits (normalizeDescription description)).length > 0 then
        "Use this skill when: ".toList ++ normalizeDescription description
      else "Use this skill when working on ".toList ++ titleCase toUpperCase name
        ++ ".".toList)),
      isLineTerminator c = false := by
    have hfixed : ∀ (fixed : JsString),
        (∀ c ∈ fixed, isPlainChar c = true ∧ isLineTerminator c = false) →
        ∀ (var : JsString),
        (∀ c ∈ var, isPlainChar c = true ∧ isLineTerminator c = false) →
        ∀ (tail : JsString),
        (∀ c ∈ tail, isPlainChar c = true ∧ isLineTerminator c = false) →
        ∀ c ∈ quoteJSONUnits (codeUnits (fixed ++ var ++ tail)),
          isLineTerminator c = false := by
      intro fixed h1 var h2 tail h3
      have hall : ∀ c ∈ fixed ++ var ++ tail,
          isPlainChar c = true ∧ isLineTerminator c = false := by
        intro c hc
        simp only [List.mem_append] at hc
        rcases hc with (h | h) | h
        · exact h1 c h
        · exact h2 c h
        · exact h3 c h
      rw [quoteJSONUnits_plain _ (fun c hc => (hall c hc).1)]
      exact fun c hc => (hall c hc).2
    by_cases hlen : (codeUnits (normalizeDescription description)).length > 0
    · rw [if_pos hlen]
      have := hfixed "Use this skill when: ".toList (by decide) _ hnd [] (by simp)
      rw [List.append_nil] at this
      exact this
    · rw [if_neg hlen]
      exact hfixed "Use this skill when working on ".toList (by decide) _ htitle
        ".".toList (by decide)
  have hparse := parseYaml_buildYaml (codeUnits (titleCase toUpperCase name))
    (if (codeUnits (normalizeDescription description)).length > 140 then
      (codeUnits (normalizeDescription description)).take 137 ++ codeUnits "...".toList
    else codeUnits (normalizeDescription description))
    (codeUnits
      (if (codeUnits (normalizeDescription description)).length > 0 then
        "Use this skill when: ".toList ++ normalizeDescription description
      else "Use this skill when working on ".toList ++ titleCase toUpperCase name
        ++ ".".toList))
    (by rw [hdisplay]; exact fun c hc => (htitle c hc).2) hshort.2 hprompt
  rw [hdisplay] at hparse
  have hgen : generatedYaml toUpperCase name description
      = buildYaml (codeUnits (titleCase toUpperCase name))
          (if (codeUnits (normalizeDescription description)).length > 140 then
            (codeUnits (normalizeDescription description)).take 137
              ++ codeUnits "...".toList
          else codeUnits (normalizeDescription description))
          (codeUnits
            (if (codeUnits (normalizeDescription description)).length > 0 then
              "Use this skill when: ".toList ++ normalizeDescription description
            else "Use this skill when working on ".toList ++ titleCase toUpperCase name
              ++ ".".toList)) := rfl
  refine ⟨⟨_, _, hgen ▸ hparse, hshort.1⟩, ?_, ?_⟩
  · exact companionIssues_of_parsed toUpperCase relDir name _ _ _ _ _ (hgen ▸ hparse) rfl
      (by have := hshort.1; omega)
  · intro raw fm hfm hn hd hne hde
    unfold generateForSkill
    have e1 : name.isEmpty = false := by
      cases name with
      | nil => exact absurd rfl hne
      | cons _ _ => rfl
    have e2 : description.isEmpty = false := by
      cases description with
      | nil => exact absurd rfl hde
      | cons _ _ => rfl
    simp only [hfm, hn, hd, e1, e2, Bool.or_self, Bool.false_eq_true, if_false]

set_option maxRecDepth 100000 in
/-- C24, instance.  The file generated for the name `global-config` and a description
with a double blank: the validator collects nothing for it. -/
theorem generatedYaml_passes_witness :
    generatedYaml (fun c => [c]) "global-config".toList "Sets  up the config.".toList
      = ("version: 1\ndisplay_name: \"Global Config\"\n"
          ++ "short_description: \"Sets up the config.\"\n"
          ++ "default_prompt: \"Use this skill when: Sets up the config.\"\n").toList ∧
    companionIssues (fun c => [c]) "core/global-config".toList "global-config".toList
        (some (generatedYaml (fun c => [c]) "global-config".toList "Sets  up the config.".toList))
      = ([], []) :=
  ⟨by decide,
   (generatedYaml_passes (fun c => [c]) "core/global-config".toList "global-config".toList
      "Sets  up the config.".toList (by decide) (by decide)).2.1⟩

set_option maxRecDepth 100000 in
/-- C24, counterexample.  For the name `a` and the description made of 81 double
quotes, each quote is written as a backslash and a quote: the `short_description`
that the validator reads has 162 code units, and the warning that it is too long is
collected. -/
theorem generatedYaml_escaped_too_long :
    ((lookup "short_description".toList
        (parseYaml (readUtf8
          (generatedYaml (fun c => [c]) "a".toList (List.replicate 81 (Char.ofNat 34)))))).map
      (fun short => (codeUnits short).length)) = some 162 ∧
    companionIssues (fun c => [c]) "core/a".toList "a".toList
        (some (generatedYaml (fun c => [c]) "a".toList (List.replicate 81 (Char.ofNat 34))))
      = ([], [Issue.shortDescriptionTooLong "core/a/agents/openai.yaml".toList]) := by
  decide

end AgentSkills
